import Mathlib

/-!
Verification of the log-structured key-value store in
`src/project-3/src/engines/kvs.rs` and `src/project-3/src/engines/counter.rs`.

The Rust code is embedded shallowly:

* `Command`, `ValueIndex`, `LengthCount` and the `KvStore` state mirror the
  Rust structs field by field (`map`, `readers`, `term`, `log_lengths`,
  `current_log_len`); `files` models the on-disk segment files (keyed by the
  numeric file name), and `writer_file`/`writer_pos` model the
  `CursorBufWriter`: the file its handle points at and its `pos` field.
* `BTreeMap`/`HashMap` are modelled as association lists with
  `lookupA`/`insertA`/`eraseA` (insert replaces in place; the store never
  depends on iteration order of these maps, except `compaction`, whose
  `HashMap` iteration order is unspecified in Rust — the model fixes the
  first-insertion order produced by the file scan).
* The serde_json codec is external to the repository.  Records are
  self-delimiting; the engine only ever uses the decoder's byte offsets to
  delimit whole records and reads back exactly the byte range of one record.
  The model therefore measures offsets in records: every record occupies one
  offset unit, `stream.byte_offset()` becomes the number of records consumed,
  and `get`'s `read_exact` + `from_slice` becomes taking the sub-list
  `[head, tail)` and requiring it to be a single `Set` command.
* Fallible paths return `Except Err`; `Err.keyNotFound` is
  `KvsError::KeyNotFound` and `Err.fatal` collapses the `panic!`/`expect`/
  `unreachable!` exits and the io errors of paths the claims treat as fatal.
-/

namespace KvsProof

/-- `enum Command { Set { key, value }, Remove { key } }`. -/
inductive Command where
  | Set (key value : String)
  | Remove (key : String)
deriving DecidableEq, Repr

/-- `struct ValueIndex { term, head, tail }`, offsets counted in records. -/
structure ValueIndex where
  term : Nat
  head : Nat
  tail : Nat
deriving DecidableEq, Repr

/-- `struct LengthCount { len, len_garbage }` from `counter.rs`. -/
structure LengthCount where
  len : Nat
  len_garbage : Nat
deriving DecidableEq, Repr

def LengthCount.new : LengthCount := ⟨0, 0⟩

/-- `effective_len = len - len_garbage` (usize subtraction; never underflows in
reachable states, see `Inv`). -/
def LengthCount.effective_len (c : LengthCount) : Nat := c.len - c.len_garbage

def LengthCount.increase_len (c : LengthCount) : LengthCount :=
  ⟨c.len + 1, c.len_garbage⟩

def LengthCount.increase_garbage_len (c : LengthCount) : LengthCount :=
  ⟨c.len, c.len_garbage + 1⟩

def LengthCount.increase_len_with_garbage (c : LengthCount) : LengthCount :=
  ⟨c.len + 1, c.len_garbage + 1⟩

/-- `garbage_rate() > COMPACTION_THRESHOLD` with `COMPACTION_THRESHOLD = 0.618`,
i.e. `len_garbage / len > 618 / 1000`, as an exact rational comparison
(the f64 division of the source is exact enough at every comparison the
claims touch; `len = 0` gives `NaN > 0.618 = false` in Rust and `0 < 0 = false`
here). -/
def LengthCount.garbageRateGtThreshold (c : LengthCount) : Bool :=
  618 * c.len < 1000 * c.len_garbage

/-- `MAX_NUM_COMMAND_PER_FILE` from `kvs.rs`. -/
def MAX_NUM_COMMAND_PER_FILE : Nat := 1024 * 10

/-- Association-list lookup, modelling `BTreeMap::get` / `HashMap::get`. -/
def lookupA {κ β : Type} [DecidableEq κ] : List (κ × β) → κ → Option β
  | [], _ => none
  | e :: rest, k => if e.1 = k then some e.2 else lookupA rest k

/-- Association-list insert-or-replace, modelling `insert`. -/
def insertA {κ β : Type} [DecidableEq κ] : List (κ × β) → κ → β → List (κ × β)
  | [], k, v => [(k, v)]
  | e :: rest, k, v => if e.1 = k then (k, v) :: rest else e :: insertA rest k v

/-- Association-list removal, modelling `remove`. -/
def eraseA {κ β : Type} [DecidableEq κ] : List (κ × β) → κ → List (κ × β)
  | [], _ => []
  | e :: rest, k => if e.1 = k then rest else e :: eraseA rest k

/-- The keys of an association list. -/
def keysOf {κ β : Type} (l : List (κ × β)) : List κ := l.map Prod.fst

/-- Errors surfaced by the engine: `KvsError::KeyNotFound`, and a collapsed
fatal case for `panic!`/`expect`/`unreachable!` and io failures. -/
inductive Err where
  | keyNotFound
  | fatal
deriving DecidableEq, Repr

/-- The `KvStore` state: its five fields, plus the on-disk segment files and
the two components of the `CursorBufWriter` (target file and `pos`). -/
structure KvStore where
  map : List (String × ValueIndex)
  readers : List (Nat × Nat)
  term : Nat
  log_lengths : List (Nat × LengthCount)
  current_log_len : Nat
  files : List (Nat × List Command)
  writer_file : Nat
  writer_pos : Nat
deriving DecidableEq, Repr

/-- The store produced by `KvStore::open` on an empty directory: term 1, one
empty segment file with a reader and zero-initialized stats. -/
def openEmpty : KvStore :=
  { map := [], readers := [(1, 0)], term := 1, log_lengths := [(1, LengthCount.new)],
    current_log_len := 0, files := [(1, [])], writer_file := 1, writer_pos := 0 }

/-- `KvStore::break_to_new_log_file`: bump `term`, create and target the new
segment file, register a reader and zero stats for it, reset the record
count.  (`create(true).append(true)` keeps existing content, hence `getD []`
and the seek-to-end for `pos`; in reachable states the new file is fresh.) -/
def breakToNewLogFile (st : KvStore) : KvStore :=
  let t := st.term + 1
  let content := (lookupA st.files t).getD []
  { st with term := t,
            files := insertA st.files t content,
            writer_file := t,
            writer_pos := content.length,
            readers := insertA st.readers t 0,
            log_lengths := insertA st.log_lengths t LengthCount.new,
            current_log_len := 0 }

/-- Decoding of the `read_exact` buffer in `get`: `Ok(value)` when it is
exactly one `Set`, otherwise fatal (serde error, or the `unreachable!` on a
`Remove`).  Returning the possibly-moved state (the reader cursor seeks) and
the result; looking up a missing key is `Ok(None)` and a missing reader is
the `expect` panic. -/
def decodeSingleSet : List Command → Except Err (Option String)
  | [Command.Set _ v] => .ok (some v)
  | _ => .error .fatal

/-- `KvsEngine::get` for `KvStore`: look up the index, seek the segment's
reader and read back the record's range, decode it as a single `Set`. -/
def getOp (st : KvStore) (key : String) : KvStore × Except Err (Option String) :=
  match lookupA st.map key with
  | none => (st, .ok none)
  | some index =>
    match lookupA st.readers index.term with
    | none => (st, .error .fatal)
    | some _ =>
      match lookupA st.files index.term with
      | none => (st, .error .fatal)
      | some f =>
        let buf := (f.drop index.head).take (index.tail - index.head)
        ({ st with readers := insertA st.readers index.term index.tail },
         if buf.length ≠ index.tail - index.head then .error .fatal
         else decodeSingleSet buf)

/-- The rotation guard shared by `set` and `remove`:
`if self.current_log_len >= MAX_NUM_COMMAND_PER_FILE { self.break_to_new_log_file()? }`. -/
def rotated (st : KvStore) : KvStore :=
  if MAX_NUM_COMMAND_PER_FILE ≤ st.current_log_len then breakToNewLogFile st else st

/-- The tail end of `KvStore::set`: `current_log_len += 1` and the index
insert `map[key] ← ValueIndex { term, head, tail = writer.pos }`. -/
def finishSet (st : KvStore) (key : String) (head : Nat) : KvStore :=
  { st with current_log_len := st.current_log_len + 1,
            map := insertA st.map key ⟨st.term, head, st.writer_pos⟩ }

/-- The body of `KvStore::set` up to (and excluding) the final
`if compaction_term > 0 { self.compaction(..) }`: rotation check, append +
flush, garbage accounting, record count and index update.  Returns the new
state and `compaction_term` (`0` = no compaction wanted). -/
def setCore (st0 : KvStore) (key value : String) : Except Err (KvStore × Nat) :=
  let st := rotated st0
  let posCurrent := st.writer_pos
  match lookupA st.files st.writer_file with
  | none => .error .fatal
  | some f =>
    let st1 : KvStore :=
      { st with files := insertA st.files st.writer_file (f ++ [Command.Set key value]),
                writer_pos := st.writer_pos + 1 }
    match lookupA st1.map key with
    | some old_index =>
      if old_index.term = st1.term then
        match lookupA st1.log_lengths st1.term with
        | none => .error .fatal
        | some c =>
          let c1 := c.increase_len_with_garbage
          let ct := if c1.garbageRateGtThreshold then st1.term else 0
          .ok (finishSet { st1 with log_lengths := insertA st1.log_lengths st1.term c1 }
                 key posCurrent, ct)
      else
        match lookupA st1.log_lengths old_index.term with
        | none => .error .fatal
        | some oc =>
          let oc1 := oc.increase_garbage_len
          let ct := if oc1.garbageRateGtThreshold then old_index.term else 0
          let lens1 := insertA st1.log_lengths old_index.term oc1
          match lookupA lens1 st1.term with
          | none => .error .fatal
          | some cc =>
            .ok (finishSet { st1 with log_lengths := insertA lens1 st1.term cc.increase_len }
                   key posCurrent, ct)
    | none =>
      let lens1 :=
        match lookupA st1.log_lengths st1.term with
        | some c => insertA st1.log_lengths st1.term c.increase_len
        | none => insertA st1.log_lengths st1.term LengthCount.new.increase_len
      .ok (finishSet { st1 with log_lengths := lens1 } key posCurrent, 0)

/-- The scan phase of `KvStore::compaction`: stream the segment file and
collect into `temp_map` every `Set` whose key's current index entry still
points into term `s`.  `insertA` keeps the last value per key, matching
`HashMap::insert`. -/
def liveScan (m : List (String × ValueIndex)) (s : Nat) :
    List Command → List (String × String) → List (String × String)
  | [], acc => acc
  | Command.Set k v :: rest, acc =>
    (match lookupA m k with
     | some index => if index.term = s then liveScan m s rest (insertA acc k v)
                     else liveScan m s rest acc
     | none => liveScan m s rest acc)
  | Command.Remove _ :: rest, acc => liveScan m s rest acc

/-- The rewrite loop of `KvStore::compaction`: for each live pair, remove the
key from the index (`expect` if absent) and run the `set` write path.  The
inner `self.set(k, v)` of the source can itself request a compaction only
when the key is present in the index, and here it never is (it was just
removed), so the inner call is `setCore` with a compaction term that is
provably `0` (`setCore_absent_ct`). -/
def compactLoop : KvStore → List (String × String) → Except Err KvStore
  | st, [] => .ok st
  | st, (k, v) :: rest =>
    if (lookupA st.map k).isSome then
      match setCore { st with map := eraseA st.map k } k v with
      | .error e => .error e
      | .ok (st1, _) => compactLoop st1 rest
    else .error .fatal

/-- The body of `KvStore::compaction` after its leading rotation check: take
the segment's reader out of the pool, scan the file for live records,
sanity-check `|live| = effective_len` (`panic!` otherwise), rewrite the live
records through the `set` path, drop the segment's stats and delete its
file. -/
def compactionBody (st : KvStore) (s : Nat) : Except Err KvStore :=
  match lookupA st.readers s with
  | none => .error .fatal
  | some _ =>
    let st1 := { st with readers := eraseA st.readers s }
    match lookupA st1.files s with
    | none => .error .fatal
    | some f =>
      let live := liveScan st1.map s f []
      match lookupA st1.log_lengths s with
      | none => .error .fatal
      | some c =>
        if live.length = c.effective_len then
          match compactLoop st1 live with
          | .error e => .error e
          | .ok st2 =>
            if (lookupA st2.log_lengths s).isSome then
              let st3 := { st2 with log_lengths := eraseA st2.log_lengths s }
              if (lookupA st3.files s).isSome then
                .ok { st3 with files := eraseA st3.files s }
              else .error .fatal
            else .error .fatal
        else .error .fatal

/-- `KvStore::compaction term`: rotate first if draining the active segment
and no rotation is already due, then run the drain/rewrite body. -/
def compaction (st0 : KvStore) (s : Nat) : Except Err KvStore :=
  compactionBody
    (if s = st0.term ∧ st0.current_log_len < MAX_NUM_COMMAND_PER_FILE
     then breakToNewLogFile st0 else st0) s

/-- `KvsEngine::set` for `KvStore`: the write path, then the requested
compaction if `compaction_term > 0`. -/
def KvStore.set (st : KvStore) (key value : String) : Except Err KvStore :=
  match setCore st key value with
  | .error e => .error e
  | .ok (st1, ct) => if 0 < ct then compaction st1 ct else .ok st1

/-- `KvsEngine::remove` for `KvStore`.  An absent key fails with
`KeyNotFound` before anything is written or mutated; otherwise: rotation
check, append + flush of the `Remove` record, garbage accounting (`+2`
garbage when the dead `Set` lives in the active segment), record count,
index removal, and the requested compaction. -/
def KvStore.remove (st0 : KvStore) (key : String) : Except Err KvStore :=
  if (lookupA st0.map key).isSome then
    let st := rotated st0
    match lookupA st.files st.writer_file with
    | none => .error .fatal
    | some f =>
      let st1 : KvStore :=
        { st with files := insertA st.files st.writer_file (f ++ [Command.Remove key]),
                  writer_pos := st.writer_pos + 1 }
      match lookupA st1.map key with
      | some old_index =>
        let acct : Except Err (KvStore × Nat) :=
          if old_index.term = st1.term then
            match lookupA st1.log_lengths st1.term with
            | none => .error .fatal
            | some c =>
              let c1 := c.increase_garbage_len.increase_len_with_garbage
              let ct := if c1.garbageRateGtThreshold then st1.term else 0
              .ok ({ st1 with log_lengths := insertA st1.log_lengths st1.term c1 }, ct)
          else
            match lookupA st1.log_lengths old_index.term with
            | none => .error .fatal
            | some oc =>
              let oc1 := oc.increase_garbage_len
              let ct := if oc1.garbageRateGtThreshold then old_index.term else 0
              let lens1 := insertA st1.log_lengths old_index.term oc1
              match lookupA lens1 st1.term with
              | none => .error .fatal
              | some cc =>
                .ok ({ st1 with
                        log_lengths := insertA lens1 st1.term cc.increase_len_with_garbage },
                     ct)
        match acct with
        | .error e => .error e
        | .ok (st2, ct) =>
          let st3 := { st2 with current_log_len := st2.current_log_len + 1,
                                map := eraseA st2.map key }
          if 0 < ct then compaction st3 ct else .ok st3
      | none => .error .fatal
  else .error .keyNotFound

/-- One record of the recovery replay of `KvStore::open` (§ lines 177-222 of
`kvs.rs`), processing a whole decoded segment file: threading the index, the
global `log_lengths`, this segment's `LengthCount` and `current_log_len`.
A `Remove` of a key that is absent at this point of the replay is logged as
a warning and ignored: the index and the `LengthCount` are untouched, only
`current_log_len` is incremented. -/
def replayRecords (t : Nat) :
    List Command → Nat → List (String × ValueIndex) → List (Nat × LengthCount) →
    LengthCount → Nat →
    Except Err (List (String × ValueIndex) × List (Nat × LengthCount) × LengthCount × Nat)
  | [], _, m, lens, cnt, curLen => .ok (m, lens, cnt, curLen)
  | Command.Set k _ :: rest, head, m, lens, cnt, curLen =>
    let tail := head + 1
    (match lookupA m k with
     | some old_index =>
       if old_index.term = t then
         replayRecords t rest tail (insertA m k ⟨t, head, tail⟩) lens
           cnt.increase_len_with_garbage (curLen + 1)
       else
         match lookupA lens old_index.term with
         | none => .error .fatal
         | some oc =>
           replayRecords t rest tail (insertA m k ⟨t, head, tail⟩)
             (insertA lens old_index.term oc.increase_garbage_len)
             cnt.increase_len (curLen + 1)
     | none =>
       replayRecords t rest tail (insertA m k ⟨t, head, tail⟩) lens
         cnt.increase_len (curLen + 1))
  | Command.Remove k :: rest, head, m, lens, cnt, curLen =>
    let tail := head + 1
    (match lookupA m k with
     | some old_index =>
       if old_index.term = t then
         replayRecords t rest tail (eraseA m k) lens
           cnt.increase_garbage_len.increase_len_with_garbage (curLen + 1)
       else
         match lookupA lens old_index.term with
         | none => .error .fatal
         | some oc =>
           replayRecords t rest tail (eraseA m k)
             (insertA lens old_index.term oc.increase_garbage_len)
             cnt.increase_len_with_garbage (curLen + 1)
     | none =>
       replayRecords t rest tail (eraseA m k) lens cnt (curLen + 1))

/-- `usize::from_str` over decimal digits with an optional leading `+`
(values beyond `usize::MAX` would overflow-error in Rust; the numeric file
names the claims touch are far below that). -/
def digitsValAux : Nat → List Char → Option Nat
  | acc, [] => some acc
  | acc, c :: rest =>
    if c.isDigit then digitsValAux (acc * 10 + (c.toNat - '0'.toNat)) rest else none

/-- `str::parse::<usize>` on a file name. -/
def parseUsize (s : String) : Option Nat :=
  match s.toList with
  | [] => none
  | '+' :: rest => if rest = [] then none else digitsValAux 0 rest
  | l => digitsValAux 0 l

/-- Stable insertion into a list sorted by the first component: the new
element goes after every element with a key `≤` its own. -/
def insertSorted {α : Type} (x : Nat × α) : List (Nat × α) → List (Nat × α)
  | [] => [x]
  | y :: rest => if x.1 < y.1 then x :: y :: rest else y :: insertSorted x rest

/-- `itertools::sorted_by` with `Ord::cmp` on the parsed id: a stable sort
ascending by the first component (insertion sort, which is stable and has
the same result as any stable sort). -/
def sortByFst {α : Type} (l : List (Nat × α)) : List (Nat × α) :=
  l.foldl (fun acc x => insertSorted x acc) []

/-- The per-segment loop of `KvStore::open` over the numerically-sorted
retained entries: the monotonic term check (`panic!` when not strictly
increasing), replay, and registration of the segment's reader and stats.
`current_log_len` is reset for each file, so the last file's count survives. -/
def openGo :
    List (Nat × List Command) → Nat → List (String × ValueIndex) →
    List (Nat × LengthCount) → List (Nat × Nat) → List (Nat × List Command) → Nat →
    Except Err (Nat × List (String × ValueIndex) × List (Nat × LengthCount) ×
                List (Nat × Nat) × List (Nat × List Command) × Nat)
  | [], term, m, lens, readers, files, curLen => .ok (term, m, lens, readers, files, curLen)
  | (t, content) :: rest, term, m, lens, readers, files, _ =>
    if t ≤ term then .error .fatal
    else
      match replayRecords t content 0 m lens LengthCount.new 0 with
      | .error e => .error e
      | .ok (m1, lens1, cnt, curLen1) =>
        openGo rest t m1 (insertA lens1 t cnt) (insertA readers t 0)
          (insertA files t content) curLen1

/-- `KvStore::open` on a directory listing (file name, decoded content).
An empty directory initializes term 1 with an empty segment, reader and
zero stats.  A non-empty directory starts from `term = 0`, replays only the
entries whose name parses as an integer, in ascending numeric order, and
opens the writer on the last such entry — or on the default path `1`
(creating it) when none parsed; in that case the reader/stats
initialization is skipped because the directory was not empty. -/
def openDir (dir : List (String × List Command)) : Except Err KvStore :=
  if dir.length = 0 then .ok openEmpty
  else
    let entries := dir.filterMap (fun e => (parseUsize e.1).map (fun t => (t, e.2)))
    let sorted := sortByFst entries
    match openGo sorted 0 [] [] [] [] 0 with
    | .error e => .error e
    | .ok (term, m, lens, readers, files, curLen) =>
      let wf := ((sorted.getLast?).map Prod.fst).getD 1
      let files1 := if (lookupA files wf).isSome then files else insertA files wf []
      let wpos := ((lookupA files1 wf).getD []).length
      .ok { map := m, readers := readers, term := term, log_lengths := lens,
            current_log_len := curLen, files := files1, writer_file := wf,
            writer_pos := wpos }

/-- The public operations of a run: `set`, `remove`, `get`. -/
inductive Op where
  | oset (key value : String)
  | oremove (key : String)
  | oget (key : String)
deriving DecidableEq, Repr

/-- One public operation applied to the store. -/
def runStep (st : KvStore) : Op → Except Err KvStore
  | .oset k v => st.set k v
  | .oremove k => st.remove k
  | .oget k => .ok (getOp st k).1

/-- Run a sequence of operations, stopping at the first error. -/
def runFrom (st : KvStore) : List Op → Except Err KvStore
  | [] => .ok st
  | op :: rest =>
    match runStep st op with
    | .error e => .error e
    | .ok st1 => runFrom st1 rest

/-- Run a sequence of operations on a store opened on an empty directory. -/
def runOps (ops : List Op) : Except Err KvStore := runFrom openEmpty ops

/-- A state of the store reachable from an empty directory by a sequence of
successfully completed public operations. -/
def Reachable (st : KvStore) : Prop := ∃ ops, runOps ops = .ok st

/-- The number of index entries whose `term` field is `s`. -/
def countTerm (m : List (String × ValueIndex)) (s : Nat) : Nat :=
  m.countP (fun e => decide (e.2.term = s))

/-- Modelled from the spec's words, not from the code (the reference side of
the refinement claim C1): one step of the abstract history semantics for a
single key — a `set` of that key overrides the accumulated value, a `remove`
of it clears the value, operations on other keys and `get`s leave it. -/
def specUpd (k : String) (acc : Option String) : Op → Option String
  | .oset k2 v => if k2 = k then some v else acc
  | .oremove k2 => if k2 = k then none else acc
  | .oget _ => acc

/-- Modelled from the spec's words (claim C1): the value of the most recent
`set(k, v)` of the sequence unless a later `remove(k)` occurred, `none` for a
key never set. -/
def specVal (ops : List Op) (k : String) : Option String :=
  ops.foldl (specUpd k) none

/-- The store a successful run of `ops` from an empty directory ends in
(defaulting to the empty-directory store; used to name concrete reachable
states in witnesses). -/
def stateAfter (ops : List Op) : KvStore :=
  (runOps ops).toOption.getD openEmpty

/-- A store with a sealed first segment and an active second segment whose
garbage rate exceeds the threshold (two live keys `"c"`, `"d"` in segment 1;
segment 2 holds only the two `Remove` records that killed `"a"` and `"b"`,
`len = 2`, `garbage = 2`).  The shape left by filling a segment with four
`set`s, rotating, and then removing two of the keys. -/
def stC4 : KvStore :=
  { map := [("c", ⟨1, 2, 3⟩), ("d", ⟨1, 3, 4⟩)],
    readers := [(1, 0), (2, 0)],
    term := 2,
    log_lengths := [(1, ⟨4, 2⟩), (2, ⟨2, 2⟩)],
    current_log_len := 2,
    files := [(1, [Command.Set "a" "1", Command.Set "b" "2",
                   Command.Set "c" "3", Command.Set "d" "4"]),
              (2, [Command.Remove "a", Command.Remove "b"])],
    writer_file := 2,
    writer_pos := 2 }

/-- The store `set stC4 "x" "vx"` returns: the fresh key is appended to the
active segment and indexed, nothing else changes — in particular segment 2's
stats entry survives with `garbage_rate > COMPACTION_THRESHOLD`. -/
def stC4' : KvStore :=
  { map := [("c", ⟨1, 2, 3⟩), ("d", ⟨1, 3, 4⟩), ("x", ⟨2, 2, 3⟩)],
    readers := [(1, 0), (2, 0)],
    term := 2,
    log_lengths := [(1, ⟨4, 2⟩), (2, ⟨3, 2⟩)],
    current_log_len := 3,
    files := [(1, [Command.Set "a" "1", Command.Set "b" "2",
                   Command.Set "c" "3", Command.Set "d" "4"]),
              (2, [Command.Remove "a", Command.Remove "b", Command.Set "x" "vx"])],
    writer_file := 2,
    writer_pos := 3 }

/-- The store `open` builds for a directory whose only entry has a
non-numeric name (`"foo"`): the directory is not empty, so the
empty-directory initialization is skipped, yet no entry survives the numeric
filter — recovery ends with `term = 0`, an empty index, no reader and no
stats, and the writer on a freshly created file `1`. -/
def stNoNum : KvStore :=
  { map := [], readers := [], term := 0, log_lengths := [],
    current_log_len := 0, files := [(1, [])], writer_file := 1, writer_pos := 0 }

/-- `set stNoNum "a" "b"`: the write itself succeeds (the fresh-key branch
`or_insert`s stats for term `0`), but the store still has no reader, so the
next `get "a"` hits the `expect` on the missing reader. -/
def stNoNum' : KvStore :=
  { map := [("a", ⟨0, 0, 1⟩)], readers := [], term := 0, log_lengths := [(0, ⟨1, 0⟩)],
    current_log_len := 1, files := [(1, [Command.Set "a" "b"])], writer_file := 1,
    writer_pos := 1 }

section AListLemmas

variable {κ β : Type} [DecidableEq κ]

theorem lookupA_insertA_self (l : List (κ × β)) (k : κ) (v : β) :
    lookupA (insertA l k v) k = some v := by
  induction l with
  | nil => simp [insertA, lookupA]
  | cons e rest ih =>
    by_cases h : e.1 = k
    · simp [insertA, lookupA, h]
    · simp [insertA, lookupA, h, ih]

theorem lookupA_insertA_ne (l : List (κ × β)) {k k' : κ} (v : β) (h : k' ≠ k) :
    lookupA (insertA l k v) k' = lookupA l k' := by
  induction l with
  | nil => simp [insertA, lookupA, Ne.symm h]
  | cons e rest ih =>
    by_cases he : e.1 = k
    · simp [insertA, lookupA, he, Ne.symm h]
    · simp [insertA, lookupA, he, ih]

theorem lookupA_eraseA_ne (l : List (κ × β)) {k k' : κ} (h : k' ≠ k) :
    lookupA (eraseA l k) k' = lookupA l k' := by
  induction l with
  | nil => simp [eraseA]
  | cons e rest ih =>
    by_cases he : e.1 = k
    · simp [eraseA, lookupA, he, Ne.symm h]
    · simp [eraseA, lookupA, he, ih]

theorem eraseA_of_lookupA_none (l : List (κ × β)) (k : κ) (h : lookupA l k = none) :
    eraseA l k = l := by
  induction l with
  | nil => simp [eraseA]
  | cons e rest ih =>
    by_cases he : e.1 = k
    · simp [lookupA, he] at h
    · simp [lookupA, he] at h
      simp [eraseA, he, ih h]

theorem mem_keysOf_iff (l : List (κ × β)) (k : κ) :
    k ∈ keysOf l ↔ (lookupA l k).isSome := by
  induction l with
  | nil => simp [keysOf, lookupA]
  | cons e rest ih =>
    by_cases he : e.1 = k
    · simp [keysOf, lookupA, he]
    · simp [keysOf, lookupA, he, Ne.symm he] at ih ⊢
      exact ih

theorem lookupA_eq_none_iff (l : List (κ × β)) (k : κ) :
    lookupA l k = none ↔ k ∉ keysOf l := by
  rw [mem_keysOf_iff]
  cases lookupA l k <;> simp

theorem keysOf_insertA_of_some (l : List (κ × β)) (k : κ) (v : β)
    (h : (lookupA l k).isSome) : keysOf (insertA l k v) = keysOf l := by
  induction l with
  | nil => simp [lookupA] at h
  | cons e rest ih =>
    by_cases he : e.1 = k
    · simp [insertA, keysOf, he]
    · simp [lookupA, he] at h
      simp [insertA, keysOf, he] at ih ⊢
      exact ih h

theorem keysOf_insertA_of_none (l : List (κ × β)) (k : κ) (v : β)
    (h : lookupA l k = none) : keysOf (insertA l k v) = keysOf l ++ [k] := by
  induction l with
  | nil => simp [insertA, keysOf]
  | cons e rest ih =>
    by_cases he : e.1 = k
    · simp [lookupA, he] at h
    · simp [lookupA, he] at h
      simp [insertA, keysOf, he] at ih ⊢
      exact ih h

theorem nodup_keysOf_insertA (l : List (κ × β)) (k : κ) (v : β)
    (h : (keysOf l).Nodup) : (keysOf (insertA l k v)).Nodup := by
  cases hl : lookupA l k with
  | some w => rw [keysOf_insertA_of_some l k v (by rw [hl]; rfl)]; exact h
  | none =>
    rw [keysOf_insertA_of_none l k v hl]
    have : k ∉ keysOf l := (lookupA_eq_none_iff l k).mp hl
    simp [List.nodup_append, h, this]

theorem eraseA_sublist (l : List (κ × β)) (k : κ) : (eraseA l k).Sublist l := by
  induction l with
  | nil => simp [eraseA]
  | cons e rest ih =>
    by_cases he : e.1 = k
    · rw [eraseA, if_pos he]
      exact List.sublist_cons_self e rest
    · rw [eraseA, if_neg he]
      exact ih.cons₂ e

theorem keysOf_eraseA_subset (l : List (κ × β)) (k : κ) :
    ∀ a, a ∈ keysOf (eraseA l k) → a ∈ keysOf l :=
  fun _ ha => ((eraseA_sublist l k).map Prod.fst).subset ha

theorem nodup_keysOf_eraseA (l : List (κ × β)) (k : κ)
    (h : (keysOf l).Nodup) : (keysOf (eraseA l k)).Nodup :=
  h.sublist ((eraseA_sublist l k).map Prod.fst)

theorem lookupA_eraseA_self (l : List (κ × β)) (k : κ)
    (h : (keysOf l).Nodup) : lookupA (eraseA l k) k = none := by
  induction l with
  | nil => simp [eraseA, lookupA]
  | cons e rest ih =>
    simp only [keysOf, List.map_cons, List.nodup_cons] at h
    by_cases he : e.1 = k
    · subst he
      rw [eraseA, if_pos rfl, (lookupA_eq_none_iff rest e.1).mpr]
      intro hmem
      exact h.1 hmem
    · rw [eraseA, if_neg he, lookupA, if_neg he]
      exact ih h.2

theorem lookupA_mem (l : List (κ × β)) (k : κ) (v : β)
    (h : lookupA l k = some v) : (k, v) ∈ l := by
  induction l with
  | nil => simp [lookupA] at h
  | cons e rest ih =>
    by_cases he : e.1 = k
    · rw [lookupA, if_pos he] at h
      injection h with h2
      rw [← he, ← h2]
      exact List.mem_cons_self _ _
    · rw [lookupA, if_neg he] at h
      exact List.mem_cons_of_mem _ (ih h)

end AListLemmas

theorem countTerm_insertA_none (m : List (String × ValueIndex)) (k : String)
    (idx : ValueIndex) (s : Nat) (h : lookupA m k = none) :
    countTerm (insertA m k idx) s = countTerm m s + (if idx.term = s then 1 else 0) := by
  induction m with
  | nil => simp [insertA, countTerm, List.countP_cons]
  | cons e rest ih =>
    by_cases he : e.1 = k
    · simp [lookupA, he] at h
    · rw [lookupA, if_neg he] at h
      simp only [insertA, if_neg he, countTerm, List.countP_cons,
        decide_eq_true_eq] at ih ⊢
      have h2 := ih h
      split_ifs at h2 ⊢ <;> omega

theorem countTerm_insertA_some (m : List (String × ValueIndex)) (k : String)
    (idx old : ValueIndex) (s : Nat) (h : lookupA m k = some old) :
    countTerm (insertA m k idx) s + (if old.term = s then 1 else 0) =
      countTerm m s + (if idx.term = s then 1 else 0) := by
  induction m with
  | nil => simp [lookupA] at h
  | cons e rest ih =>
    by_cases he : e.1 = k
    · rw [lookupA, if_pos he] at h
      injection h with h2
      subst h2
      simp only [insertA, if_pos he, countTerm, List.countP_cons, decide_eq_true_eq]
      split_ifs <;> omega
    · rw [lookupA, if_neg he] at h
      simp only [insertA, if_neg he, countTerm, List.countP_cons,
        decide_eq_true_eq] at ih ⊢
      have h2 := ih h
      split_ifs at h2 ⊢ <;> omega

theorem countTerm_eraseA_some (m : List (String × ValueIndex)) (k : String)
    (old : ValueIndex) (s : Nat) (h : lookupA m k = some old) :
    countTerm (eraseA m k) s + (if old.term = s then 1 else 0) = countTerm m s := by
  induction m with
  | nil => simp [lookupA] at h
  | cons e rest ih =>
    by_cases he : e.1 = k
    · rw [lookupA, if_pos he] at h
      injection h with h2
      subst h2
      simp [eraseA, if_pos he, countTerm, List.countP_cons]
    · rw [lookupA, if_neg he] at h
      simp only [eraseA, if_neg he, countTerm, List.countP_cons,
        decide_eq_true_eq] at ih ⊢
      have h2 := ih h
      split_ifs at h2 ⊢ <;> omega

/-- Claim C10: `get(key)` never changes the observable store state: the index
map, the per-segment `len`/`garbage` counters, the active segment id, the
active-segment record count (and the files on disk) are unchanged by `get`,
whether it succeeds or fails, and a second `get` of the same key returns the
same result.  (Only the reader cursor of the touched segment moves.) -/
theorem C10_get_preserves_observable_state (st : KvStore) (key : String) :
    (getOp st key).1.map = st.map ∧
    (getOp st key).1.log_lengths = st.log_lengths ∧
    (getOp st key).1.term = st.term ∧
    (getOp st key).1.current_log_len = st.current_log_len ∧
    (getOp st key).1.files = st.files ∧
    (getOp (getOp st key).1 key).2 = (getOp st key).2 := by
  cases hm : lookupA st.map key with
  | none => simp [getOp, hm]
  | some index =>
    cases hr : lookupA st.readers index.term with
    | none => simp [getOp, hm, hr]
    | some pos =>
      cases hf : lookupA st.files index.term with
      | none => simp [getOp, hm, hr, hf]
      | some f =>
        have hr2 : lookupA (insertA st.readers index.term index.tail) index.term
            = some index.tail := lookupA_insertA_self _ _ _
        simp [getOp, hm, hr, hf, hr2]

/-- Claim C5: `remove(key)` on a key absent from the index fails with
`KeyNotFound`.  The model's `remove` returns this error before constructing
any successor state, mirroring the source's early `return
Err(KvsError::KeyNotFound)` that precedes every write and every counter or
index mutation; the caller keeps the store exactly as it was. -/
theorem C5_remove_absent_keyNotFound (st : KvStore) (key : String)
    (h : lookupA st.map key = none) : st.remove key = .error .keyNotFound := by
  simp [KvStore.remove, h]

/-- Witness for C5 at a concrete input. -/
theorem C5_witness :
    lookupA openEmpty.map "a" = none ∧ openEmpty.remove "a" = .error .keyNotFound :=
  ⟨rfl, C5_remove_absent_keyNotFound openEmpty "a" rfl⟩

theorem breakToNewLogFile_map (st : KvStore) : (breakToNewLogFile st).map = st.map := rfl

/-- Does this command `Set` the given key? -/
def isSetOf (k : String) : Command → Bool
  | Command.Set k2 _ => k2 = k
  | Command.Remove _ => false

/-- The value a successful `get(key)` returns: read the pointed-to record of
the index entry and take the `Set` value; `none` for an absent key. -/
def currentVal (st : KvStore) (key : String) : Option String :=
  match lookupA st.map key with
  | none => none
  | some index =>
    match lookupA st.files index.term with
    | none => none
    | some f =>
      match (f.drop index.head).take (index.tail - index.head) with
      | [Command.Set _ v] => some v
      | _ => none

/-- All four bookkeeping maps have distinct keys (they model Rust maps). -/
def NodupState (st : KvStore) : Prop :=
  (keysOf st.map).Nodup ∧ (keysOf st.log_lengths).Nodup ∧
  (keysOf st.readers).Nodup ∧ (keysOf st.files).Nodup

/-- Stats, files and readers know the same segment ids, all at most the
active term; the `X`-exempt segments may lack their reader (the segment a
running compaction is draining has its reader taken out of the pool). -/
def DomsOKx (st : KvStore) (X : Nat → Prop) : Prop :=
  (∀ t, (lookupA st.log_lengths t).isSome →
     (lookupA st.files t).isSome ∧ (¬ X t → (lookupA st.readers t).isSome) ∧ t ≤ st.term) ∧
  (∀ t, (lookupA st.files t).isSome → (lookupA st.log_lengths t).isSome) ∧
  (∀ t, (lookupA st.readers t).isSome → (lookupA st.log_lengths t).isSome)

/-- Claim C2's property: for every segment, `garbage ≤ len` and
`effective_len = len - garbage` equals the number of index entries whose
`term` is that segment; the count equation is suspended for the `X`-exempt
segments (a running compaction's drain target, until its stats are removed). -/
def CountsOKx (st : KvStore) (X : Nat → Prop) : Prop :=
  ∀ t c, lookupA st.log_lengths t = some c →
    c.len_garbage ≤ c.len ∧ (¬ X t → c.len - c.len_garbage = countTerm st.map t)

/-- No segment is exempt: the shape of the invariant between operations. -/
def NoExc : Nat → Prop := fun _ => False

def DomsOK (st : KvStore) : Prop := DomsOKx st NoExc

def CountsOK (st : KvStore) : Prop := CountsOKx st NoExc

/-- Claim C7's property plus its record-count bookkeeping: no segment file
holds more than `MAX_NUM_COMMAND_PER_FILE` records. -/
def SizesOK (st : KvStore) : Prop :=
  (∀ t f, lookupA st.files t = some f → f.length ≤ MAX_NUM_COMMAND_PER_FILE) ∧
  st.current_log_len ≤ MAX_NUM_COMMAND_PER_FILE

/-- Every index entry points at a one-record range of an existing file that
holds a `Set` of the entry's own key, with no later `Set` of that key in the
same file (the entry points at the newest one there). -/
def PointedOK (st : KvStore) : Prop :=
  ∀ k idx, lookupA st.map k = some idx →
    ∃ f, lookupA st.files idx.term = some f ∧
      idx.tail = idx.head + 1 ∧
      (∃ v, f[idx.head]? = some (Command.Set k v)) ∧
      (∀ c ∈ f.drop (idx.head + 1), isSetOf k c = false)

/-- The writer targets the active segment's file, its `pos` is the file's
end, and `current_log_len = stats[term].len` = the file's record count. -/
def ActiveOK (st : KvStore) : Prop :=
  ∃ fA cA, lookupA st.files st.term = some fA ∧
    lookupA st.log_lengths st.term = some cA ∧
    st.writer_file = st.term ∧ st.writer_pos = fA.length ∧
    st.current_log_len = fA.length ∧ cA.len = fA.length

/-- The transient shape left by a compaction that drained an exactly-full
active segment with no live records: the active id's stats, file and reader
are all gone, and `current_log_len` is still at the limit, so the next write
rotates before it can touch the dangling writer. -/
def DrainedOK (st : KvStore) : Prop :=
  st.current_log_len = MAX_NUM_COMMAND_PER_FILE ∧
  lookupA st.log_lengths st.term = none ∧ st.writer_file = st.term

/-- The global invariant of the store, preserved by every public operation
(`Inv_runFrom` below). -/
def Inv (st : KvStore) : Prop :=
  NodupState st ∧ DomsOK st ∧ CountsOK st ∧ SizesOK st ∧ PointedOK st ∧
  (ActiveOK st ∨ DrainedOK st)

theorem lookupA_of_mem {κ β : Type} [DecidableEq κ] {l : List (κ × β)}
    (nd : (keysOf l).Nodup) {e : κ × β} (he : e ∈ l) : lookupA l e.1 = some e.2 := by
  induction l with
  | nil => simp at he
  | cons e2 rest ih =>
    simp only [keysOf, List.map_cons, List.nodup_cons] at nd
    rcases List.mem_cons.mp he with h | h
    · subst h
      rw [lookupA, if_pos rfl]
    · have hne : e2.1 ≠ e.1 := by
        intro hc
        exact nd.1 (hc ▸ (List.mem_map_of_mem Prod.fst h))
      rw [lookupA, if_neg hne]
      exact ih nd.2 h

theorem insertA_of_lookupA_none {κ β : Type} [DecidableEq κ] {l : List (κ × β)}
    {k : κ} (v : β) (h : lookupA l k = none) : insertA l k v = l ++ [(k, v)] := by
  induction l with
  | nil => simp [insertA]
  | cons e rest ih =>
    by_cases he : e.1 = k
    · simp [lookupA, he] at h
    · rw [lookupA, if_neg he] at h
      rw [insertA, if_neg he, ih h]
      rfl

theorem countTerm_eq_zero (m : List (String × ValueIndex)) (t : Nat)
    (h : ∀ e ∈ m, e.2.term ≠ t) : countTerm m t = 0 := by
  rw [countTerm, List.countP_eq_zero]
  intro e he
  simpa using h e he

theorem Inv_openEmpty : Inv openEmpty := by
  refine ⟨⟨?_, ?_, ?_, ?_⟩, ⟨?_, ?_, ?_⟩, ?_, ⟨?_, ?_⟩, ?_, Or.inl ?_⟩ <;>
    simp [openEmpty, keysOf, NodupState, DomsOK, DomsOKx, CountsOK, CountsOKx,
      NoExc, SizesOK, PointedOK, ActiveOK, countTerm, lookupA,
      MAX_NUM_COMMAND_PER_FILE, LengthCount.new]

theorem take_one_drop {α : Type} (f : List α) (n : Nat) (c : α) (h : f[n]? = some c) :
    (f.drop n).take 1 = [c] := by
  obtain ⟨hn, hc⟩ := List.getElem?_eq_some.mp h
  rw [List.drop_eq_getElem_cons hn]
  simp [hc]

theorem currentVal_pointed (st : KvStore) (k : String) (idx : ValueIndex)
    (f : List Command) (v : String)
    (hm : lookupA st.map k = some idx) (hf : lookupA st.files idx.term = some f)
    (ht : idx.tail = idx.head + 1) (hr : f[idx.head]? = some (Command.Set k v)) :
    currentVal st k = some v := by
  unfold currentVal
  simp only [hm, hf, ht]
  have h1 : idx.head + 1 - idx.head = 1 := by omega
  rw [h1, take_one_drop f idx.head _ hr]

theorem no_setOf_after (f : List Command) (k : String) (h0 j : Nat) (w : String)
    (hall : ∀ c ∈ f.drop (h0 + 1), isSetOf k c = false)
    (hj : f[j]? = some (Command.Set k w)) : j ≤ h0 := by
  by_contra hlt
  push_neg at hlt
  have hd : (f.drop (h0 + 1))[j - (h0 + 1)]? = some (Command.Set k w) := by
    rw [List.getElem?_drop]
    have : h0 + 1 + (j - (h0 + 1)) = j := by omega
    rw [this, hj]
  have hmem := List.getElem?_mem hd
  have := hall _ hmem
  simp [isSetOf] at this

theorem break_spec (st : KvStore) (X : Nat → Prop)
    (ndm : (keysOf st.map).Nodup) (ndl : (keysOf st.log_lengths).Nodup)
    (ndr : (keysOf st.readers).Nodup) (ndf : (keysOf st.files).Nodup)
    (doms : DomsOKx st X) (hcnt : CountsOKx st X)
    (hsz : ∀ t f, lookupA st.files t = some f → f.length ≤ MAX_NUM_COMMAND_PER_FILE)
    (hpt : PointedOK st) :
    ((keysOf (breakToNewLogFile st).map).Nodup ∧
     (keysOf (breakToNewLogFile st).log_lengths).Nodup ∧
     (keysOf (breakToNewLogFile st).readers).Nodup ∧
     (keysOf (breakToNewLogFile st).files).Nodup) ∧
    DomsOKx (breakToNewLogFile st) X ∧ CountsOKx (breakToNewLogFile st) X ∧
    (∀ t f, lookupA (breakToNewLogFile st).files t = some f →
       f.length ≤ MAX_NUM_COMMAND_PER_FILE) ∧
    PointedOK (breakToNewLogFile st) ∧ ActiveOK (breakToNewLogFile st) ∧
    (breakToNewLogFile st).current_log_len = 0 ∧
    (breakToNewLogFile st).map = st.map ∧
    (breakToNewLogFile st).term = st.term + 1 ∧
    (∀ k, currentVal (breakToNewLogFile st) k = currentVal st k) ∧
    (∀ t, t ≤ st.term →
       lookupA (breakToNewLogFile st).log_lengths t = lookupA st.log_lengths t ∧
       lookupA (breakToNewLogFile st).files t = lookupA st.files t ∧
       lookupA (breakToNewLogFile st).readers t = lookupA st.readers t) := by
  obtain ⟨d1, d2, d3⟩ := doms
  set T := st.term + 1 with hT
  have hlensF : lookupA st.log_lengths T = none := by
    cases hl : lookupA st.log_lengths T with
    | none => rfl
    | some c =>
      have := (d1 T (by rw [hl]; rfl)).2.2
      omega
  have hfilesF : lookupA st.files T = none := by
    cases hl : lookupA st.files T with
    | none => rfl
    | some f =>
      have h2 := d2 T (by rw [hl]; rfl)
      cases hl2 : lookupA st.log_lengths T with
      | none => rw [hl2] at h2; simp at h2
      | some c => rw [hlensF] at hl2; exact Option.noConfusion hl2
  have hreadersF : lookupA st.readers T = none := by
    cases hl : lookupA st.readers T with
    | none => rfl
    | some p =>
      have h2 := d3 T (by rw [hl]; rfl)
      rw [hlensF] at h2
      simp at h2
  have hmapT : ∀ e ∈ st.map, e.2.term ≠ T := by
    intro e he hc
    have hlk := lookupA_of_mem ndm he
    obtain ⟨f, hf, _⟩ := hpt e.1 e.2 hlk
    rw [hc, hfilesF] at hf
    exact Option.noConfusion hf
  have hmapLe : ∀ k idx, lookupA st.map k = some idx → idx.term ≤ st.term := by
    intro k idx hlk
    obtain ⟨f, hf, _⟩ := hpt k idx hlk
    have := d1 idx.term ((d2 idx.term) (by rw [hf]; rfl))
    exact this.2.2
  unfold breakToNewLogFile
  simp only [← hT, hfilesF, Option.getD_none, List.length_nil]
  refine ⟨⟨ndm, nodup_keysOf_insertA _ _ _ ndl, nodup_keysOf_insertA _ _ _ ndr,
      nodup_keysOf_insertA _ _ _ ndf⟩, ⟨?_, ?_, ?_⟩, ?_, ?_, ?_, ?_,
      (by trivial), (by trivial), (by trivial), ?_, ?_⟩
  · intro t ht
    by_cases hq : t = T
    · subst hq
      simp [lookupA_insertA_self]
    · rw [lookupA_insertA_ne _ _ hq] at ht
      have h3 := d1 t ht
      rw [lookupA_insertA_ne _ _ hq, lookupA_insertA_ne _ _ hq]
      refine ⟨h3.1, h3.2.1, ?_⟩
      show t ≤ T
      omega
  · intro t ht
    by_cases hq : t = T
    · subst hq
      simp [lookupA_insertA_self]
    · rw [lookupA_insertA_ne _ _ hq] at ht
      rw [lookupA_insertA_ne _ _ hq]
      exact d2 t ht
  · intro t ht
    by_cases hq : t = T
    · subst hq
      simp [lookupA_insertA_self]
    · rw [lookupA_insertA_ne _ _ hq] at ht
      rw [lookupA_insertA_ne _ _ hq]
      exact d3 t ht
  · intro t c hc
    by_cases hq : t = T
    · subst hq
      rw [lookupA_insertA_self] at hc
      injection hc with hc2
      subst hc2
      refine ⟨Nat.le_refl _, fun _ => ?_⟩
      rw [countTerm_eq_zero st.map T hmapT]
      rfl
    · rw [lookupA_insertA_ne _ _ hq] at hc
      exact hcnt t c hc
  · intro t f hf
    by_cases hq : t = T
    · subst hq
      rw [lookupA_insertA_self] at hf
      injection hf with hf2
      subst hf2
      simp [MAX_NUM_COMMAND_PER_FILE]
    · rw [lookupA_insertA_ne _ _ hq] at hf
      exact hsz t f hf
  · intro k idx hlk
    obtain ⟨f, hf, h1, h2, h3⟩ := hpt k idx hlk
    refine ⟨f, ?_, h1, h2, h3⟩
    show lookupA (insertA st.files T []) idx.term = some f
    have hne : idx.term ≠ T := by
      have := hmapLe k idx hlk
      omega
    rw [lookupA_insertA_ne _ _ hne]
    exact hf
  · exact ⟨[], LengthCount.new, lookupA_insertA_self _ _ _, lookupA_insertA_self _ _ _,
      rfl, rfl, rfl, rfl⟩
  · intro k
    unfold currentVal
    cases hlk : lookupA st.map k with
    | none => rfl
    | some idx =>
      have hne : idx.term ≠ T := by
        have := hmapLe k idx hlk
        omega
      simp only []
      rw [lookupA_insertA_ne _ _ hne]
  · intro t ht
    have hne : t ≠ T := by omega
    exact ⟨lookupA_insertA_ne _ _ hne, lookupA_insertA_ne _ _ hne,
      lookupA_insertA_ne _ _ hne⟩

theorem pointed_entry_append (files : List (Nat × List Command)) (W : Nat)
    (f : List Command) (hwf : lookupA files W = some f) (cmd : Command)
    (k : String) (idx : ValueIndex)
    (hpt : ∃ g, lookupA files idx.term = some g ∧ idx.tail = idx.head + 1 ∧
      (∃ v, g[idx.head]? = some (Command.Set k v)) ∧
      (∀ c ∈ g.drop (idx.head + 1), isSetOf k c = false))
    (hcmd : isSetOf k cmd = false) :
    ∃ g, lookupA (insertA files W (f ++ [cmd])) idx.term = some g ∧
      idx.tail = idx.head + 1 ∧
      (∃ v, g[idx.head]? = some (Command.Set k v)) ∧
      (∀ c ∈ g.drop (idx.head + 1), isSetOf k c = false) := by
  obtain ⟨g, hg, h1, ⟨v, h2⟩, h3⟩ := hpt
  by_cases hq : idx.term = W
  · subst hq
    rw [hg] at hwf
    injection hwf with hgf
    subst hgf
    obtain ⟨hlt, _⟩ := List.getElem?_eq_some.mp h2
    refine ⟨g ++ [cmd], lookupA_insertA_self _ _ _, h1, ⟨v, ?_⟩, ?_⟩
    · rw [List.getElem?_append_left hlt]
      exact h2
    · intro c hc
      rw [List.drop_append_of_le_length (by omega)] at hc
      rcases List.mem_append.mp hc with hc2 | hc2
      · exact h3 c hc2
      · rw [List.mem_singleton.mp hc2]
        exact hcmd
  · exact ⟨g, by rw [lookupA_insertA_ne _ _ hq]; exact hg, h1, ⟨v, h2⟩, h3⟩

theorem setCore_fresh_eq (st0 : KvStore) (key value : String) (f : List Command)
    (hw : lookupA (rotated st0).files (rotated st0).writer_file = some f)
    (hm : lookupA (rotated st0).map key = none)
    (c : LengthCount)
    (hc : lookupA (rotated st0).log_lengths (rotated st0).term = some c) :
    setCore st0 key value = .ok
      (finishSet
        { rotated st0 with
            files := insertA (rotated st0).files (rotated st0).writer_file
                       (f ++ [Command.Set key value]),
            writer_pos := (rotated st0).writer_pos + 1,
            log_lengths := insertA (rotated st0).log_lengths (rotated st0).term
                             c.increase_len }
        key (rotated st0).writer_pos, 0) := by
  unfold setCore
  simp only [hw, hm, hc]

theorem setCore_same_eq (st0 : KvStore) (key value : String) (f : List Command)
    (hw : lookupA (rotated st0).files (rotated st0).writer_file = some f)
    (old : ValueIndex) (hm : lookupA (rotated st0).map key = some old)
    (ht : old.term = (rotated st0).term)
    (c : LengthCount)
    (hc : lookupA (rotated st0).log_lengths (rotated st0).term = some c) :
    setCore st0 key value = .ok
      (finishSet
        { rotated st0 with
            files := insertA (rotated st0).files (rotated st0).writer_file
                       (f ++ [Command.Set key value]),
            writer_pos := (rotated st0).writer_pos + 1,
            log_lengths := insertA (rotated st0).log_lengths (rotated st0).term
                             c.increase_len_with_garbage }
        key (rotated st0).writer_pos,
       if c.increase_len_with_garbage.garbageRateGtThreshold
       then (rotated st0).term else 0) := by
  unfold setCore
  simp only [hw, hm, if_pos ht, hc]

theorem setCore_old_eq (st0 : KvStore) (key value : String) (f : List Command)
    (hw : lookupA (rotated st0).files (rotated st0).writer_file = some f)
    (old : ValueIndex) (hm : lookupA (rotated st0).map key = some old)
    (ht : ¬ old.term = (rotated st0).term)
    (oc : LengthCount)
    (ho : lookupA (rotated st0).log_lengths old.term = some oc)
    (cA : LengthCount)
    (hcA : lookupA (rotated st0).log_lengths (rotated st0).term = some cA) :
    setCore st0 key value = .ok
      (finishSet
        { rotated st0 with
            files := insertA (rotated st0).files (rotated st0).writer_file
                       (f ++ [Command.Set key value]),
            writer_pos := (rotated st0).writer_pos + 1,
            log_lengths := insertA
              (insertA (rotated st0).log_lengths old.term oc.increase_garbage_len)
              (rotated st0).term cA.increase_len }
        key (rotated st0).writer_pos,
       if oc.increase_garbage_len.garbageRateGtThreshold then old.term else 0) := by
  unfold setCore
  have hcc : lookupA (insertA (rotated st0).log_lengths old.term
      oc.increase_garbage_len) (rotated st0).term = some cA := by
    rw [lookupA_insertA_ne _ _ (Ne.symm ht)]
    exact hcA
  simp only [hw, hm, if_neg ht, ho, hcc]

theorem remove_same_eq (st0 : KvStore) (key : String) (f : List Command)
    (hw : lookupA (rotated st0).files (rotated st0).writer_file = some f)
    (old : ValueIndex) (hm : lookupA st0.map key = some old)
    (hmR : lookupA (rotated st0).map key = some old)
    (ht : old.term = (rotated st0).term)
    (c : LengthCount)
    (hc : lookupA (rotated st0).log_lengths (rotated st0).term = some c) :
    st0.remove key =
      (if 0 < (if c.increase_garbage_len.increase_len_with_garbage.garbageRateGtThreshold
               then (rotated st0).term else 0)
       then compaction
         { rotated st0 with
             files := insertA (rotated st0).files (rotated st0).writer_file
                        (f ++ [Command.Remove key]),
             writer_pos := (rotated st0).writer_pos + 1,
             log_lengths := insertA (rotated st0).log_lengths (rotated st0).term
                              c.increase_garbage_len.increase_len_with_garbage,
             current_log_len := (rotated st0).current_log_len + 1,
             map := eraseA (rotated st0).map key }
         (if c.increase_garbage_len.increase_len_with_garbage.garbageRateGtThreshold
          then (rotated st0).term else 0)
       else .ok
         { rotated st0 with
             files := insertA (rotated st0).files (rotated st0).writer_file
                        (f ++ [Command.Remove key]),
             writer_pos := (rotated st0).writer_pos + 1,
             log_lengths := insertA (rotated st0).log_lengths (rotated st0).term
                              c.increase_garbage_len.increase_len_with_garbage,
             current_log_len := (rotated st0).current_log_len + 1,
             map := eraseA (rotated st0).map key }) := by
  unfold KvStore.remove
  simp only [hm, Option.isSome_some, if_pos trivial, hw, hmR, if_pos ht, hc]

theorem remove_old_eq (st0 : KvStore) (key : String) (f : List Command)
    (hw : lookupA (rotated st0).files (rotated st0).writer_file = some f)
    (old : ValueIndex) (hm : lookupA st0.map key = some old)
    (hmR : lookupA (rotated st0).map key = some old)
    (ht : ¬ old.term = (rotated st0).term)
    (oc : LengthCount)
    (ho : lookupA (rotated st0).log_lengths old.term = some oc)
    (cA : LengthCount)
    (hcA : lookupA (rotated st0).log_lengths (rotated st0).term = some cA) :
    st0.remove key =
      (if 0 < (if oc.increase_garbage_len.garbageRateGtThreshold then old.term else 0)
       then compaction
         { rotated st0 with
             files := insertA (rotated st0).files (rotated st0).writer_file
                        (f ++ [Command.Remove key]),
             writer_pos := (rotated st0).writer_pos + 1,
             log_lengths := insertA
               (insertA (rotated st0).log_lengths old.term oc.increase_garbage_len)
               (rotated st0).term cA.increase_len_with_garbage,
             current_log_len := (rotated st0).current_log_len + 1,
             map := eraseA (rotated st0).map key }
         (if oc.increase_garbage_len.garbageRateGtThreshold then old.term else 0)
       else .ok
         { rotated st0 with
             files := insertA (rotated st0).files (rotated st0).writer_file
                        (f ++ [Command.Remove key]),
             writer_pos := (rotated st0).writer_pos + 1,
             log_lengths := insertA
               (insertA (rotated st0).log_lengths old.term oc.increase_garbage_len)
               (rotated st0).term cA.increase_len_with_garbage,
             current_log_len := (rotated st0).current_log_len + 1,
             map := eraseA (rotated st0).map key }) := by
  unfold KvStore.remove
  have hcc : lookupA (insertA (rotated st0).log_lengths old.term
      oc.increase_garbage_len) (rotated st0).term = some cA := by
    rw [lookupA_insertA_ne _ _ (Ne.symm ht)]
    exact hcA
  simp only [hm, Option.isSome_some, if_pos trivial, hw, hmR, if_neg ht, ho, hcc]

theorem fresh_step (stR : KvStore) (X : Nat → Prop) (key value : String)
    (fA : List Command) (cA : LengthCount)
    (ndm : (keysOf stR.map).Nodup) (ndl : (keysOf stR.log_lengths).Nodup)
    (ndr : (keysOf stR.readers).Nodup) (ndf : (keysOf stR.files).Nodup)
    (doms : DomsOKx stR X) (cnts : CountsOKx stR X)
    (hsz : ∀ t f, lookupA stR.files t = some f → f.length ≤ MAX_NUM_COMMAND_PER_FILE)
    (hpt : PointedOK stR)
    (hfA : lookupA stR.files stR.term = some fA)
    (hcA : lookupA stR.log_lengths stR.term = some cA)
    (hwf : stR.writer_file = stR.term)
    (hwp : stR.writer_pos = fA.length)
    (hcur : stR.current_log_len = fA.length)
    (hclen : cA.len = fA.length)
    (hmax : fA.length < MAX_NUM_COMMAND_PER_FILE)
    (hm : lookupA stR.map key = none) :
    ∀ stE, stE = finishSet { stR with
        files := insertA stR.files stR.writer_file (fA ++ [Command.Set key value]),
        writer_pos := stR.writer_pos + 1,
        log_lengths := insertA stR.log_lengths stR.term cA.increase_len }
      key stR.writer_pos →
      ((keysOf stE.map).Nodup ∧ (keysOf stE.log_lengths).Nodup ∧
       (keysOf stE.readers).Nodup ∧ (keysOf stE.files).Nodup) ∧
      DomsOKx stE X ∧ CountsOKx stE X ∧
      (∀ t f2, lookupA stE.files t = some f2 → f2.length ≤ MAX_NUM_COMMAND_PER_FILE) ∧
      PointedOK stE ∧ ActiveOK stE ∧
      stE.term = stR.term ∧ stE.readers = stR.readers ∧
      stE.current_log_len = stR.current_log_len + 1 ∧
      currentVal stE key = some value ∧
      (∀ k2, k2 ≠ key → currentVal stE k2 = currentVal stR k2) ∧
      (∀ t, t ≠ stR.term → lookupA stE.log_lengths t = lookupA stR.log_lengths t) ∧
      (∀ t, t ≠ stR.term → lookupA stE.files t = lookupA stR.files t) ∧
      lookupA stE.log_lengths stR.term = some cA.increase_len ∧
      (∀ t, countTerm stE.map t = countTerm stR.map t + (if stR.term = t then 1 else 0)) ∧
      (∀ k2, k2 ≠ key → lookupA stE.map k2 = lookupA stR.map k2) ∧
      lookupA stE.map key = some ⟨stR.term, stR.writer_pos, stR.writer_pos + 1⟩ := by
  intro stE hE
  subst hE
  simp only [finishSet]
  have hfilesSelf : lookupA (insertA stR.files stR.writer_file
      (fA ++ [Command.Set key value])) stR.term = some (fA ++ [Command.Set key value]) := by
    rw [hwf]
    exact lookupA_insertA_self _ _ _
  have hfilesNe : ∀ t, t ≠ stR.term → lookupA (insertA stR.files stR.writer_file
      (fA ++ [Command.Set key value])) t = lookupA stR.files t := by
    intro t ht
    rw [hwf]
    exact lookupA_insertA_ne _ _ ht
  have hlensSelf : lookupA (insertA stR.log_lengths stR.term cA.increase_len) stR.term
      = some cA.increase_len := lookupA_insertA_self _ _ _
  have hlensNe : ∀ t, t ≠ stR.term →
      lookupA (insertA stR.log_lengths stR.term cA.increase_len) t
      = lookupA stR.log_lengths t := fun t ht => lookupA_insertA_ne _ _ ht
  have hmapSelf : lookupA (insertA stR.map key
      ⟨stR.term, stR.writer_pos, stR.writer_pos + 1⟩) key
      = some ⟨stR.term, stR.writer_pos, stR.writer_pos + 1⟩ := lookupA_insertA_self _ _ _
  have hmapNe : ∀ k2, k2 ≠ key → lookupA (insertA stR.map key
      ⟨stR.term, stR.writer_pos, stR.writer_pos + 1⟩) k2
      = lookupA stR.map k2 := fun k2 hk => lookupA_insertA_ne _ _ hk
  have hcnt : ∀ t, countTerm (insertA stR.map key
      ⟨stR.term, stR.writer_pos, stR.writer_pos + 1⟩) t
      = countTerm stR.map t + (if stR.term = t then 1 else 0) := by
    intro t
    exact countTerm_insertA_none stR.map key _ t hm
  obtain ⟨d1, d2, d3⟩ := doms
  refine ⟨⟨nodup_keysOf_insertA _ _ _ ndm,
      (by rw [keysOf_insertA_of_some _ _ _ (by rw [hcA]; rfl)]; exact ndl), ndr,
      (by rw [hwf, keysOf_insertA_of_some _ _ _ (by rw [hfA]; rfl)]; exact ndf)⟩,
      ⟨?_, ?_, ?_⟩, ?_, ?_, ?_, ?_, (by trivial), (by trivial), (by trivial),
      ?_, ?_, hlensNe, hfilesNe, hlensSelf, hcnt, hmapNe, hmapSelf⟩
  · intro t ht
    simp only [] at ht ⊢
    by_cases hq : t = stR.term
    · subst hq
      refine ⟨by rw [hfilesSelf]; rfl, fun hx => ?_, ?_⟩
      · exact ((d1 stR.term (by rw [hcA]; rfl)).2.1 hx)
      · exact (d1 stR.term (by rw [hcA]; rfl)).2.2
    · rw [hlensNe t hq] at ht
      have h3 := d1 t ht
      rw [hfilesNe t hq]
      exact ⟨h3.1, h3.2.1, Nat.le_trans h3.2.2 (Nat.le_refl _)⟩
  · intro t ht
    simp only [] at ht ⊢
    by_cases hq : t = stR.term
    · subst hq
      rw [hlensSelf]
      rfl
    · rw [hfilesNe t hq] at ht
      rw [hlensNe t hq]
      exact d2 t ht
  · intro t ht
    simp only [] at ht ⊢
    by_cases hq : t = stR.term
    · subst hq
      rw [hlensSelf]
      rfl
    · rw [hlensNe t hq]
      exact d3 t ht
  · intro t c hc
    simp only [] at hc ⊢
    by_cases hq : t = stR.term
    · subst hq
      rw [hlensSelf] at hc
      injection hc with hc2
      subst hc2
      obtain ⟨hg1, hg2⟩ := cnts stR.term cA hcA
      refine ⟨by simp [LengthCount.increase_len]; omega, fun hx => ?_⟩
      rw [hcnt stR.term, if_pos rfl, ← hg2 hx]
      simp [LengthCount.increase_len]
      omega
    · rw [hlensNe t hq] at hc
      obtain ⟨hg1, hg2⟩ := cnts t c hc
      refine ⟨hg1, fun hx => ?_⟩
      rw [hcnt t, if_neg (fun hc2 => hq hc2.symm), ← hg2 hx]
      omega
  · intro t f2 hf2
    by_cases hq : t = stR.term
    · subst hq
      rw [hfilesSelf] at hf2
      injection hf2 with hf3
      subst hf3
      simp
      omega
    · rw [hfilesNe t hq] at hf2
      exact hsz t f2 hf2
  · intro k2 idx hlk
    simp only [] at hlk ⊢
    by_cases hk : k2 = key
    · subst hk
      rw [hmapSelf] at hlk
      injection hlk with hlk2
      subst hlk2
      refine ⟨fA ++ [Command.Set k2 value], hfilesSelf, rfl, ⟨value, ?_⟩, ?_⟩
      · rw [hwp, List.getElem?_append_right (Nat.le_refl _)]
        simp
      · intro c hc
        rw [hwp] at hc
        have : (fA ++ [Command.Set k2 value]).length = fA.length + 1 := by simp
        rw [List.drop_eq_nil_of_le (by simp)] at hc
        simp at hc
    · rw [hmapNe k2 hk] at hlk
      have hp := hpt k2 idx hlk
      rw [hwf] at hfilesSelf hfilesNe ⊢
      have := pointed_entry_append stR.files stR.term fA hfA
        (Command.Set key value) k2 idx hp (by simp [isSetOf]; exact fun hc => hk hc.symm)
      exact this
  · refine ⟨fA ++ [Command.Set key value], cA.increase_len, hfilesSelf, hlensSelf,
      hwf, ?_, ?_, ?_⟩ <;> simp [hwp, hcur, hclen, LengthCount.increase_len]
  · apply currentVal_pointed _ key ⟨stR.term, stR.writer_pos, stR.writer_pos + 1⟩
      (fA ++ [Command.Set key value]) value hmapSelf hfilesSelf rfl
    rw [hwp, List.getElem?_append_right (Nat.le_refl _)]
    simp
  · intro k2 hk
    cases hlk : lookupA stR.map k2 with
    | none =>
      unfold currentVal
      simp only []
      rw [hmapNe k2 hk, hlk]
    | some idx =>
      obtain ⟨g, hg, h1, ⟨v, h2⟩, h3⟩ := hpt k2 idx hlk
      have hvR : currentVal stR k2 = some v := currentVal_pointed stR k2 idx g v hlk hg h1 h2
      rw [hvR]
      obtain ⟨g2, hg2, _, ⟨v2, h22⟩, h32⟩ := pointed_entry_append stR.files stR.term fA hfA
        (Command.Set key value) k2 idx ⟨g, hg, h1, ⟨v, h2⟩, h3⟩
        (by simp [isSetOf]; exact fun hc => hk hc.symm)
      have hvE : v2 = v := by
        by_cases hq : idx.term = stR.term
        · rw [hq, hfA] at hg
          injection hg with hgf
          subst hgf
          rw [hq, lookupA_insertA_self] at hg2
          injection hg2 with hg3
          subst hg3
          obtain ⟨hlt, _⟩ := List.getElem?_eq_some.mp h2
          rw [List.getElem?_append_left hlt, h2] at h22
          injection h22 with h23
          injection h23 with h24 h25
          exact h25.symm
        · rw [lookupA_insertA_ne _ _ hq, hg] at hg2
          injection hg2 with hg3
          subst hg3
          rw [h2] at h22
          injection h22 with h23
          injection h23 with h24 h25
          exact h25.symm
      subst hvE
      refine currentVal_pointed _ k2 idx g2 v2 ?_ ?_ h1 h22
      · show lookupA (insertA stR.map key _) k2 = some idx
        rw [hmapNe k2 hk]
        exact hlk
      · show lookupA (insertA stR.files stR.writer_file _) idx.term = some g2
        rw [hwf]
        exact hg2

/-- Does the index currently map `k` into segment `s`?  (The guard of the
`temp_map` insertion in `compaction`'s scan.) -/
def qual (m : List (String × ValueIndex)) (s : Nat) (k : String) : Bool :=
  match lookupA m k with
  | some idx => idx.term = s
  | none => false

/-- The value `temp_map[k]` ends up with after the compaction scan: the value
of the last retained `Set` of `k` in the file. -/
def scanVal (m : List (String × ValueIndex)) (s : Nat) (k : String) :
    List Command → Option String
  | [] => none
  | Command.Set k2 v :: rest =>
    (match scanVal m s k rest with
     | some w => some w
     | none => if k2 = k ∧ qual m s k2 then some v else none)
  | Command.Remove _ :: rest => scanVal m s k rest

theorem liveScan_lookup (m : List (String × ValueIndex)) (s : Nat) :
    ∀ (file : List Command) (acc : List (String × String)) (k : String),
    lookupA (liveScan m s file acc) k =
      (match scanVal m s k file with
       | some w => some w
       | none => lookupA acc k) := by
  intro file
  induction file with
  | nil => intro acc k; rfl
  | cons c rest ih =>
    intro acc k
    cases c with
    | Remove k2 => simpa [liveScan, scanVal] using ih acc k
    | Set k2 v =>
      rw [liveScan]
      by_cases hqual : qual m s k2 = true
      · have hbr : (match lookupA m k2 with
            | some index => if index.term = s then liveScan m s rest (insertA acc k2 v)
                            else liveScan m s rest acc
            | none => liveScan m s rest acc) = liveScan m s rest (insertA acc k2 v) := by
          unfold qual at hqual
          cases hq : lookupA m k2 with
          | none => rw [hq] at hqual; exact absurd hqual (by simp)
          | some idx =>
            rw [hq] at hqual
            simp only [decide_eq_true_eq] at hqual
            simp [hq, hqual]
        rw [hbr, ih (insertA acc k2 v) k, scanVal]
        cases hs : scanVal m s k rest with
        | some w => rfl
        | none =>
          by_cases hk : k2 = k
          · subst hk
            rw [lookupA_insertA_self]
            simp [hqual]
          · rw [lookupA_insertA_ne _ _ (fun hc => hk hc.symm)]
            simp [hk]
      · have hbr : (match lookupA m k2 with
            | some index => if index.term = s then liveScan m s rest (insertA acc k2 v)
                            else liveScan m s rest acc
            | none => liveScan m s rest acc) = liveScan m s rest acc := by
          unfold qual at hqual
          cases hq : lookupA m k2 with
          | none => simp [hq]
          | some idx =>
            rw [hq] at hqual
            simp only [decide_eq_true_eq] at hqual
            simp [hq, hqual]
        rw [hbr, ih acc k, scanVal]
        cases hs : scanVal m s k rest with
        | some w => rfl
        | none => simp [hqual]

theorem liveScan_nodup (m : List (String × ValueIndex)) (s : Nat) :
    ∀ (file : List Command) (acc : List (String × String)),
    (keysOf acc).Nodup → (keysOf (liveScan m s file acc)).Nodup := by
  intro file
  induction file with
  | nil => intro acc h; exact h
  | cons c rest ih =>
    intro acc h
    cases c with
    | Remove k2 => exact ih acc h
    | Set k2 v =>
      rw [liveScan]
      cases hq : lookupA m k2 with
      | none => exact ih acc h
      | some idx =>
        by_cases ht : idx.term = s
        · simp only [ht, if_true]
          exact ih _ (nodup_keysOf_insertA _ _ _ h)
        · simp only [ht, if_false]
          exact ih acc h

theorem scanVal_none_of (m : List (String × ValueIndex)) (s : Nat) (k : String) :
    ∀ file, (∀ c ∈ file, isSetOf k c = false) → scanVal m s k file = none := by
  intro file
  induction file with
  | nil => intro _; rfl
  | cons c rest ih =>
    intro hall
    have hrest := ih (fun c2 hc2 => hall c2 (List.mem_cons_of_mem _ hc2))
    cases c with
    | Remove k2 => simpa [scanVal] using hrest
    | Set k2 v =>
      have hk2 : ¬ k2 = k := by
        have := hall _ (List.mem_cons_self _ _)
        simpa [isSetOf] using this
      rw [scanVal, hrest]
      simp [hk2]

theorem scanVal_last (m : List (String × ValueIndex)) (s : Nat) (k v : String)
    (hq : qual m s k = true) :
    ∀ (file : List Command) (h0 : Nat), file[h0]? = some (Command.Set k v) →
    (∀ c ∈ file.drop (h0 + 1), isSetOf k c = false) → scanVal m s k file = some v := by
  intro file
  induction file with
  | nil => intro h0 hj _; simp at hj
  | cons c rest ih =>
    intro h0 hj hall
    cases h0 with
    | zero =>
      simp only [List.getElem?_cons_zero] at hj
      injection hj with hj2
      subst hj2
      have hrest : scanVal m s k rest = none := by
        apply scanVal_none_of
        intro c2 hc2
        exact hall c2 (by simpa using hc2)
      rw [scanVal, hrest]
      simp [hq]
    | succ j =>
      simp only [List.getElem?_cons_succ] at hj
      have hall2 : ∀ c2 ∈ rest.drop (j + 1), isSetOf k c2 = false := by
        intro c2 hc2
        exact hall c2 (by simpa using hc2)
      have hrest := ih j hj hall2
      cases c with
      | Remove k2 => simpa [scanVal] using hrest
      | Set k2 w => rw [scanVal, hrest]

theorem scanVal_isSome (m : List (String × ValueIndex)) (s : Nat) (k : String)
    (hq : qual m s k = true) :
    ∀ (file : List Command) (j : Nat) (v : String),
    file[j]? = some (Command.Set k v) → (scanVal m s k file).isSome := by
  intro file
  induction file with
  | nil => intro j v hj; simp at hj
  | cons c rest ih =>
    intro j v hj
    cases j with
    | zero =>
      simp only [List.getElem?_cons_zero] at hj
      injection hj with hj2
      subst hj2
      rw [scanVal]
      cases hs : scanVal m s k rest with
      | some w => rfl
      | none => simp [hq]
    | succ j2 =>
      simp only [List.getElem?_cons_succ] at hj
      have hrest := ih j2 v hj
      cases c with
      | Remove k2 => simpa [scanVal] using hrest
      | Set k2 w =>
        rw [scanVal]
        cases hs : scanVal m s k rest with
        | some u => rfl
        | none => rw [hs] at hrest; simp at hrest

theorem qual_of_scanVal (m : List (String × ValueIndex)) (s : Nat) (k : String) :
    ∀ file, (scanVal m s k file).isSome → qual m s k = true := by
  intro file
  induction file with
  | nil => intro h; simp [scanVal] at h
  | cons c rest ih =>
    intro h
    cases c with
    | Remove k2 => exact ih (by simpa [scanVal] using h)
    | Set k2 v =>
      rw [scanVal] at h
      cases hs : scanVal m s k rest with
      | some w => exact ih (by rw [hs]; rfl)
      | none =>
        rw [hs] at h
        by_cases hc : k2 = k ∧ qual m s k2 = true
        · obtain ⟨hc1, hc2⟩ := hc
          subst hc1
          exact hc2
        · simp [hc] at h

theorem liveScan_length (m : List (String × ValueIndex)) (s : Nat)
    (fS : List Command) (ndm : (keysOf m).Nodup)
    (hpt : ∀ k idx, lookupA m k = some idx → idx.term = s →
       ∃ v, fS[idx.head]? = some (Command.Set k v)) :
    (liveScan m s fS []).length = countTerm m s := by
  have hnd1 : (keysOf (liveScan m s fS [])).Nodup :=
    liveScan_nodup m s fS [] (by simp [keysOf])
  have hnd2 : (keysOf (m.filter (fun e => decide (e.2.term = s)))).Nodup :=
    ndm.sublist ((m.filter_sublist).map Prod.fst)
  have hmem : ∀ k, k ∈ keysOf (liveScan m s fS []) ↔
      k ∈ keysOf (m.filter (fun e => decide (e.2.term = s))) := by
    intro k
    rw [mem_keysOf_iff, liveScan_lookup m s fS [] k]
    constructor
    · intro h
      have hscan : (scanVal m s k fS).isSome := by
        cases hs : scanVal m s k fS with
        | some w => rfl
        | none => rw [hs] at h; simp [lookupA] at h
      have hq := qual_of_scanVal m s k fS hscan
      unfold qual at hq
      cases hl : lookupA m k with
      | none => rw [hl] at hq; simp at hq
      | some idx =>
        rw [hl] at hq
        simp only [decide_eq_true_eq] at hq
        have hmem2 := lookupA_mem m k idx hl
        refine List.mem_map_of_mem Prod.fst (List.mem_filter.mpr ⟨hmem2, by simp [hq]⟩)
    · intro h
      obtain ⟨e, he, hek⟩ := List.mem_map.mp h
      obtain ⟨hem, het⟩ := List.mem_filter.mp he
      simp only [decide_eq_true_eq] at het
      have hl : lookupA m k = some e.2 := by
        rw [← hek]
        exact lookupA_of_mem ndm hem
      have hq : qual m s k = true := by
        unfold qual
        rw [hl]
        simp [het]
      obtain ⟨v, hv⟩ := hpt k e.2 hl het
      have := scanVal_isSome m s k hq fS e.2.head v hv
      cases hs : scanVal m s k fS with
      | some w => simp
      | none => rw [hs] at this; simp at this
  have hperm : List.Perm (keysOf (liveScan m s fS []))
      (keysOf (m.filter (fun e => decide (e.2.term = s)))) := by
    apply List.perm_of_nodup_nodup_toFinset_eq hnd1 hnd2
    ext a
    simp only [List.mem_toFinset]
    exact hmem a
  have h1 : (liveScan m s fS []).length = (keysOf (liveScan m s fS [])).length :=
    (List.length_map _ _).symm
  have h2 : (keysOf (m.filter (fun e => decide (e.2.term = s)))).length
      = (m.filter (fun e => decide (e.2.term = s))).length := List.length_map _ _
  rw [h1, hperm.length_eq, h2, countTerm, List.countP_eq_length_filter]

/-- The invariant maintained across the rewrite loop of a compaction that is
draining segment `s`: the usual pieces with `s` exempted (its reader is out
of the pool, its count equation is suspended), the active-writer facts, and,
when the drain target is still the active segment, an exactly-full active
file, so that the first inner `set` rotates away from it. -/
def LoopInv (s : Nat) (st : KvStore) : Prop :=
  (keysOf st.map).Nodup ∧ (keysOf st.log_lengths).Nodup ∧
  (keysOf st.readers).Nodup ∧ (keysOf st.files).Nodup ∧
  DomsOKx st (fun t => t = s) ∧ CountsOKx st (fun t => t = s) ∧
  (∀ t f, lookupA st.files t = some f → f.length ≤ MAX_NUM_COMMAND_PER_FILE) ∧
  PointedOK st ∧ ActiveOK st ∧
  lookupA st.readers s = none ∧
  (s = st.term → st.current_log_len = MAX_NUM_COMMAND_PER_FILE)

theorem currentVal_erase_ne (st : KvStore) (k k2 : String) (hk : k2 ≠ k) :
    currentVal { st with map := eraseA st.map k } k2 = currentVal st k2 := by
  unfold currentVal
  simp only []
  rw [lookupA_eraseA_ne _ hk]

theorem compactLoop_spec (s : Nat) :
    ∀ (live : List (String × String)) (st : KvStore),
    LoopInv s st →
    (∀ p ∈ live, ∃ idx, lookupA st.map p.1 = some idx ∧ idx.term = s ∧
        currentVal st p.1 = some p.2) →
    (keysOf live).Nodup →
    countTerm st.map s = live.length →
    s ≤ st.term →
    ∃ st2, compactLoop st live = .ok st2 ∧
      LoopInv s st2 ∧
      countTerm st2.map s = 0 ∧
      lookupA st2.log_lengths s = lookupA st.log_lengths s ∧
      lookupA st2.files s = lookupA st.files s ∧
      st.term ≤ st2.term ∧ s ≤ st2.term ∧
      (∀ k, currentVal st2 k = currentVal st k) ∧
      (live = [] → st2 = st) ∧
      (live ≠ [] → s < st2.term) := by
  intro live
  induction live with
  | nil =>
    intro st hinv hlive hnd hcount hs
    exact ⟨st, rfl, hinv, by simpa using hcount, rfl, rfl, Nat.le_refl _, hs,
      fun k => rfl, fun _ => rfl, fun h => absurd rfl h⟩
  | cons p rest ih =>
    intro st hinv hlive hnd hcount hs
    obtain ⟨k, v⟩ := p
    obtain ⟨ndm, ndl, ndr, ndf, doms, cnts, hsz, hpt, hact, hrd, hfull⟩ := hinv
    obtain ⟨idx, hidx, hterm, hval⟩ := hlive (k, v) (List.mem_cons_self _ _)
    have hkeyrest : k ∉ keysOf rest ∧ (keysOf rest).Nodup := by
      simpa [keysOf] using hnd
    have hsomek : (lookupA st.map k).isSome := by rw [hidx]; rfl
    set stM : KvStore := { st with map := eraseA st.map k } with hstM
    have hmapM : stM.map = eraseA st.map k := rfl
    have hmM : lookupA stM.map k = none := lookupA_eraseA_self _ _ ndm
    have hmMne : ∀ k2, k2 ≠ k → lookupA stM.map k2 = lookupA st.map k2 :=
      fun k2 hk2 => lookupA_eraseA_ne _ hk2
    have ndmM : (keysOf stM.map).Nodup := nodup_keysOf_eraseA _ _ ndm
    have hcntMs : countTerm stM.map s = rest.length := by
      show countTerm (eraseA st.map k) s = rest.length
      have h2 := countTerm_eraseA_some st.map k idx s hidx
      rw [hterm] at h2
      simp at h2
      have h3 : countTerm st.map s = rest.length + 1 := by simpa using hcount
      omega
    have hcntMne : ∀ t, t ≠ s → countTerm stM.map t = countTerm st.map t := by
      intro t ht
      show countTerm (eraseA st.map k) t = countTerm st.map t
      have h2 := countTerm_eraseA_some st.map k idx t hidx
      rw [hterm, if_neg (fun hc => ht hc.symm)] at h2
      omega
    have cntsM : CountsOKx stM (fun t => t = s) := by
      intro t c hc
      obtain ⟨h1, h2⟩ := cnts t c hc
      exact ⟨h1, fun hx => by rw [hcntMne t hx]; exact h2 hx⟩
    have hptM : PointedOK stM := by
      intro k2 idx2 hlk2
      by_cases hk2 : k2 = k
      · subst hk2
        rw [hmM] at hlk2
        exact Option.noConfusion hlk2
      · rw [hmMne k2 hk2] at hlk2
        exact hpt k2 idx2 hlk2
    obtain ⟨fA0, cA0, hfA0, hcA0, hwf0, hwp0, hcur0, hclen0⟩ := hact
    -- the rotation step of the inner set
    by_cases hrot : MAX_NUM_COMMAND_PER_FILE ≤ stM.current_log_len
    case pos =>
      have hR : rotated stM = breakToNewLogFile stM := if_pos hrot
      obtain ⟨⟨ndmR, ndlR, ndrR, ndfR⟩, domsR, cntsR, hszR, hptR, hactR, hcurR, hmapR,
          htermR, hcvR, hlowR⟩ :=
        break_spec stM (fun t => t = s) ndmM ndl ndr ndf doms cntsM hsz hptM
      rw [← hR] at ndmR ndlR ndrR ndfR domsR cntsR hszR hptR hactR hcurR hmapR htermR hcvR hlowR
      obtain ⟨fA, cA, hfA, hcA, hwf, hwp, hcur, hclen⟩ := hactR
      have hmR : lookupA (rotated stM).map k = none := by rw [hmapR]; exact hmM
      have hsltR : s < (rotated stM).term := by
        rw [htermR]
        have h0 : stM.term = st.term := rfl
        omega
      have hmax : fA.length < MAX_NUM_COMMAND_PER_FILE := by
        rw [← hcur, hcurR]
        simp [MAX_NUM_COMMAND_PER_FILE]
      have hst := fresh_step (rotated stM) (fun t => t = s) k v fA cA
        ndmR ndlR ndrR ndfR domsR cntsR hszR hptR hfA hcA hwf hwp hcur hclen hmax hmR
        _ rfl
      obtain ⟨⟨ndmE, ndlE, ndrE, ndfE⟩, domsE, cntsE, hszE, hptE, hactE, htermE, hrdE,
        hcurE, hcvEk, hcvEne, hlensEne, hfilesEne, hlensEself, hcntE, hmapEne, hmapEk⟩ := hst
      set stE := finishSet { rotated stM with
          files := insertA (rotated stM).files (rotated stM).writer_file
                     (fA ++ [Command.Set k v]),
          writer_pos := (rotated stM).writer_pos + 1,
          log_lengths := insertA (rotated stM).log_lengths (rotated stM).term
                           cA.increase_len }
        k (rotated stM).writer_pos with hstE
      have hEq := setCore_fresh_eq stM k v fA (by rw [hwf]; exact hfA) hmR cA hcA
      have hsneE : s ≠ stE.term := by
        rw [htermE]
        omega
      have hlensEs : lookupA stE.log_lengths s = lookupA st.log_lengths s := by
        rw [hlensEne s (by omega), (hlowR s (by omega)).1]
      have hfilesEs : lookupA stE.files s = lookupA st.files s := by
        rw [hfilesEne s (by omega), (hlowR s (by omega)).2.1]
      have hrdEs : lookupA stE.readers s = none := by
        rw [hrdE, (hlowR s (by omega)).2.2]
        exact hrd
      have hinvE : LoopInv s stE :=
        ⟨ndmE, ndlE, ndrE, ndfE, domsE, cntsE, hszE, hptE, hactE, hrdEs,
         fun hc => absurd hc hsneE⟩
      have hliveE : ∀ q ∈ rest, ∃ idx2, lookupA stE.map q.1 = some idx2 ∧
          idx2.term = s ∧ currentVal stE q.1 = some q.2 := by
        intro q hq
        obtain ⟨idx2, hidx2, hterm2, hval2⟩ := hlive q (List.mem_cons_of_mem _ hq)
        have hq1 : q.1 ≠ k := by
          intro hc
          exact hkeyrest.1 (hc ▸ List.mem_map_of_mem Prod.fst hq)
        refine ⟨idx2, ?_, hterm2, ?_⟩
        · rw [hmapEne q.1 hq1, hmapR, hmMne q.1 hq1]
          exact hidx2
        · rw [hcvEne q.1 hq1, hcvR q.1, currentVal_erase_ne st k q.1 hq1]
          exact hval2
      have hcntEs : countTerm stE.map s = rest.length := by
        rw [hcntE s, if_neg (by omega)]
        have : countTerm (rotated stM).map s = countTerm stM.map s := by
          rw [hmapR]
        omega
      obtain ⟨st2, hloop2, hinv2, hcnt2, hlens2, hfiles2, hterm2le, hs2, hcv2, _, _⟩ :=
        ih stE hinvE hliveE hkeyrest.2 hcntEs (by omega)
      refine ⟨st2, ?_, hinv2, hcnt2, by rw [hlens2]; exact hlensEs,
        by rw [hfiles2]; exact hfilesEs, ?_, by omega, ?_, ?_, ?_⟩
      · rw [compactLoop, if_pos hsomek, ← hstM, hEq, ← hstE]
        exact hloop2
      · have h1 : st.term = stM.term := rfl
        have h2 : stM.term ≤ (rotated stM).term := by rw [htermR]; omega
        omega
      · intro k2
        rw [hcv2 k2]
        by_cases hk2 : k2 = k
        · subst hk2
          rw [hcvEk, hval]
        · rw [hcvEne k2 hk2, hcvR k2, currentVal_erase_ne st k k2 hk2]
      · intro hc
        exact List.noConfusion hc
      · intro _
        omega
    case neg =>
      have hR : rotated stM = stM := if_neg hrot
      have hsne : s ≠ stM.term := by
        intro hc
        have h5 := hfull hc
        rw [← h5] at hrot
        exact hrot (Nat.le_refl _)
      have hmR : lookupA (rotated stM).map k = none := by rw [hR]; exact hmM
      have hmax : fA0.length < MAX_NUM_COMMAND_PER_FILE := by
        have : stM.current_log_len = fA0.length := hcur0
        omega
      have hst := fresh_step (rotated stM) (fun t => t = s) k v fA0 cA0
        (by rw [hR]; exact ndmM) (by rw [hR]; exact ndl) (by rw [hR]; exact ndr)
        (by rw [hR]; exact ndf) (by rw [hR]; exact doms) (by rw [hR]; exact cntsM)
        (by rw [hR]; exact hsz) (by rw [hR]; exact hptM) (by rw [hR]; exact hfA0)
        (by rw [hR]; exact hcA0) (by rw [hR]; exact hwf0) (by rw [hR]; exact hwp0)
        (by rw [hR]; exact hcur0) hclen0 hmax hmR _ rfl
      obtain ⟨⟨ndmE, ndlE, ndrE, ndfE⟩, domsE, cntsE, hszE, hptE, hactE, htermE, hrdE,
        hcurE, hcvEk, hcvEne, hlensEne, hfilesEne, hlensEself, hcntE, hmapEne, hmapEk⟩ := hst
      set stE := finishSet { rotated stM with
          files := insertA (rotated stM).files (rotated stM).writer_file
                     (fA0 ++ [Command.Set k v]),
          writer_pos := (rotated stM).writer_pos + 1,
          log_lengths := insertA (rotated stM).log_lengths (rotated stM).term
                           cA0.increase_len }
        k (rotated stM).writer_pos with hstE
      have hEq := setCore_fresh_eq stM k v fA0
        (by rw [hR, hwf0]; exact hfA0) hmR cA0 (by rw [hR]; exact hcA0)
      have htermRM : (rotated stM).term = stM.term := by rw [hR]
      have hsneE : s ≠ stE.term := by
        rw [htermE, htermRM]
        exact hsne
      have hlensEs : lookupA stE.log_lengths s = lookupA st.log_lengths s := by
        rw [hlensEne s (by rw [htermRM]; exact hsne), hR]
      have hfilesEs : lookupA stE.files s = lookupA st.files s := by
        rw [hfilesEne s (by rw [htermRM]; exact hsne), hR]
      have hrdEs : lookupA stE.readers s = none := by
        rw [hrdE, hR]
        exact hrd
      have hinvE : LoopInv s stE :=
        ⟨ndmE, ndlE, ndrE, ndfE, domsE, cntsE, hszE, hptE, hactE, hrdEs,
         fun hc => absurd hc hsneE⟩
      have hliveE : ∀ q ∈ rest, ∃ idx2, lookupA stE.map q.1 = some idx2 ∧
          idx2.term = s ∧ currentVal stE q.1 = some q.2 := by
        intro q hq
        obtain ⟨idx2, hidx2, hterm2, hval2⟩ := hlive q (List.mem_cons_of_mem _ hq)
        have hq1 : q.1 ≠ k := by
          intro hc
          exact hkeyrest.1 (hc ▸ List.mem_map_of_mem Prod.fst hq)
        refine ⟨idx2, ?_, hterm2, ?_⟩
        · rw [hmapEne q.1 hq1, hR, hmMne q.1 hq1]
          exact hidx2
        · rw [hcvEne q.1 hq1, hR, currentVal_erase_ne st k q.1 hq1]
          exact hval2
      have hcntEs : countTerm stE.map s = rest.length := by
        rw [hcntE s, if_neg (by rw [htermRM]; exact fun hc => hsne hc.symm), hR]
        simpa using hcntMs
      have hsle : s ≤ stE.term := by
        rw [htermE, htermRM]
        show s ≤ st.term
        exact hs
      obtain ⟨st2, hloop2, hinv2, hcnt2, hlens2, hfiles2, hterm2le, hs2, hcv2, _, _⟩ :=
        ih stE hinvE hliveE hkeyrest.2 hcntEs hsle
      refine ⟨st2, ?_, hinv2, hcnt2, by rw [hlens2]; exact hlensEs,
        by rw [hfiles2]; exact hfilesEs, ?_, hs2, ?_, ?_, ?_⟩
      · rw [compactLoop, if_pos hsomek, ← hstM, hEq, ← hstE]
        exact hloop2
      · have h2 : st.term = stE.term := by rw [htermE, htermRM]
        omega
      · intro k2
        rw [hcv2 k2]
        by_cases hk2 : k2 = k
        · subst hk2
          rw [hcvEk, hval]
        · rw [hcvEne k2 hk2, hR, currentVal_erase_ne st k k2 hk2]
      · intro hc
        exact List.noConfusion hc
      · intro _
        have h3 : s < stE.term := by
          rw [htermE, htermRM]
          exact Nat.lt_of_le_of_ne (by exact hs) hsne
        omega

theorem currentVal_congr (stA stB : KvStore) (k : String)
    (hm : lookupA stA.map k = lookupA stB.map k)
    (hf : ∀ idx, lookupA stB.map k = some idx →
        lookupA stA.files idx.term = lookupA stB.files idx.term) :
    currentVal stA k = currentVal stB k := by
  unfold currentVal
  rw [hm]
  cases hl : lookupA stB.map k with
  | none => rfl
  | some idx =>
    simp only []
    rw [hf idx hl]

theorem countTerm_pos (m : List (String × ValueIndex)) (k : String) (idx : ValueIndex)
    (h : lookupA m k = some idx) : 0 < countTerm m idx.term := by
  induction m with
  | nil => simp [lookupA] at h
  | cons e rest ih =>
    by_cases he : e.1 = k
    · rw [lookupA, if_pos he] at h
      injection h with h2
      subst h2
      simp [countTerm, List.countP_cons]
    · rw [lookupA, if_neg he] at h
      have h3 := ih h
      simp only [countTerm, List.countP_cons] at h3 ⊢
      omega

theorem compactionBody_spec (Q : KvStore) (s : Nat) (cS : LengthCount)
    (ndm : (keysOf Q.map).Nodup) (ndl : (keysOf Q.log_lengths).Nodup)
    (ndr : (keysOf Q.readers).Nodup) (ndf : (keysOf Q.files).Nodup)
    (doms : DomsOK Q) (cnts : CountsOK Q)
    (hsz : ∀ t f, lookupA Q.files t = some f → f.length ≤ MAX_NUM_COMMAND_PER_FILE)
    (hpt : PointedOK Q) (hact : ActiveOK Q)
    (hlens : lookupA Q.log_lengths s = some cS)
    (hfullQ : s = Q.term → Q.current_log_len = MAX_NUM_COMMAND_PER_FILE) :
    ∃ stF, compactionBody Q s = .ok stF ∧ Inv stF ∧
      (∀ k, currentVal stF k = currentVal Q k) ∧
      lookupA stF.log_lengths s = none ∧
      lookupA stF.files s = none ∧
      lookupA stF.readers s = none ∧
      Q.term ≤ stF.term := by
  obtain ⟨d1, d2, d3⟩ := doms
  have hnx : ∀ t, ¬ NoExc t := fun t h => h
  have hsome : (lookupA Q.log_lengths s).isSome := by rw [hlens]; rfl
  obtain ⟨hfS0, hrd0, hsle⟩ := d1 s hsome
  obtain ⟨rpos, hrd⟩ := Option.isSome_iff_exists.mp (hrd0 (hnx s))
  obtain ⟨fS, hfS⟩ := Option.isSome_iff_exists.mp hfS0
  set st1 : KvStore := { Q with readers := eraseA Q.readers s } with hst1
  have hrdErased : lookupA st1.readers s = none := lookupA_eraseA_self _ _ ndr
  have hliveLen : (liveScan Q.map s fS []).length = countTerm Q.map s := by
    apply liveScan_length Q.map s fS ndm
    intro k idx hl ht
    obtain ⟨f, hf, _, ⟨v, hv⟩, _⟩ := hpt k idx hl
    rw [ht, hfS] at hf
    injection hf with hf2
    subst hf2
    exact ⟨v, hv⟩
  have heff : countTerm Q.map s = cS.effective_len :=
    ((cnts s cS hlens).2 (hnx s)).symm
  have hsan : (liveScan Q.map s fS []).length = cS.effective_len := by
    rw [hliveLen, heff]
  have hliveNd : (keysOf (liveScan Q.map s fS [])).Nodup :=
    liveScan_nodup Q.map s fS [] (by simp [keysOf])
  have hinv1 : LoopInv s st1 := by
    refine ⟨ndm, ndl, nodup_keysOf_eraseA _ _ ndr, ndf, ⟨?_, ?_, ?_⟩, ?_, hsz, hpt,
      hact, hrdErased, hfullQ⟩
    · intro t ht
      obtain ⟨hh1, hh2, hh3⟩ := d1 t ht
      refine ⟨hh1, fun hx => ?_, hh3⟩
      show (lookupA (eraseA Q.readers s) t).isSome
      rw [lookupA_eraseA_ne _ hx]
      exact hh2 (hnx t)
    · exact d2
    · intro t ht
      by_cases hq : t = s
      · subst hq
        rw [show (lookupA st1.readers t) = none from hrdErased] at ht
        exact absurd ht (by simp)
      · show (lookupA Q.log_lengths t).isSome
        apply d3 t
        have : lookupA (eraseA Q.readers s) t = lookupA Q.readers t :=
          lookupA_eraseA_ne _ hq
        rw [show (lookupA st1.readers t) = lookupA (eraseA Q.readers s) t from rfl,
          this] at ht
        exact ht
    · intro t c hc
      obtain ⟨hh1, hh2⟩ := cnts t c hc
      exact ⟨hh1, fun _ => hh2 (hnx t)⟩
  have hliveFacts : ∀ p ∈ liveScan Q.map s fS [], ∃ idx,
      lookupA st1.map p.1 = some idx ∧ idx.term = s ∧
      currentVal st1 p.1 = some p.2 := by
    intro p hp
    have hlook : lookupA (liveScan Q.map s fS []) p.1 = some p.2 :=
      lookupA_of_mem hliveNd hp
    rw [liveScan_lookup Q.map s fS [] p.1] at hlook
    have hscan : scanVal Q.map s p.1 fS = some p.2 := by
      cases hs2 : scanVal Q.map s p.1 fS with
      | some w => rw [hs2] at hlook; exact hlook
      | none => rw [hs2] at hlook; exact absurd hlook (by simp [lookupA])
    have hq : qual Q.map s p.1 = true :=
      qual_of_scanVal Q.map s p.1 fS (by rw [hscan]; rfl)
    have hql : ∃ idx, lookupA Q.map p.1 = some idx ∧ idx.term = s := by
      unfold qual at hq
      cases hl : lookupA Q.map p.1 with
      | none => rw [hl] at hq; exact absurd hq (by simp)
      | some idx =>
        rw [hl] at hq
        simp only [decide_eq_true_eq] at hq
        exact ⟨idx, rfl, hq⟩
    obtain ⟨idx, hl, ht⟩ := hql
    obtain ⟨f, hf, h1, ⟨v, hv⟩, h3⟩ := hpt p.1 idx hl
    rw [ht, hfS] at hf
    injection hf with hf2
    subst hf2
    have hlast : scanVal Q.map s p.1 fS = some v :=
      scanVal_last Q.map s p.1 v hq fS idx.head hv h3
    rw [hscan] at hlast
    injection hlast with hlast2
    refine ⟨idx, hl, ht, ?_⟩
    rw [hlast2]
    exact currentVal_pointed st1 p.1 idx fS v hl (by rw [ht]; exact hfS) h1 hv
  obtain ⟨st2, hloop, hinv2, hcnt2s, hlens2s, hfiles2s, hterm2le, hs2le, hcv2,
      hnil2, hne2⟩ :=
    compactLoop_spec s (liveScan Q.map s fS []) st1 hinv1 hliveFacts hliveNd
      hliveLen.symm hsle
  obtain ⟨ndm2, ndl2, ndr2, ndf2, doms2, cnts2, hsz2, hpt2, hact2, hrd2, hfull2⟩ := hinv2
  have hlens2 : lookupA st2.log_lengths s = some cS := by
    rw [hlens2s]
    exact hlens
  have hfiles2 : lookupA st2.files s = some fS := by
    rw [hfiles2s]
    exact hfS
  set stF : KvStore := { st2 with log_lengths := eraseA st2.log_lengths s,
                                  files := eraseA st2.files s } with hstF
  have hlensF : lookupA stF.log_lengths s = none := lookupA_eraseA_self _ _ ndl2
  have hfilesF : lookupA stF.files s = none := lookupA_eraseA_self _ _ ndf2
  have hlensFne : ∀ t, t ≠ s → lookupA stF.log_lengths t = lookupA st2.log_lengths t :=
    fun t ht => lookupA_eraseA_ne _ ht
  have hfilesFne : ∀ t, t ≠ s → lookupA stF.files t = lookupA st2.files t :=
    fun t ht => lookupA_eraseA_ne _ ht
  have hmapne : ∀ k idx, lookupA st2.map k = some idx → idx.term ≠ s := by
    intro k idx hl hc
    have := countTerm_pos st2.map k idx hl
    rw [hc, hcnt2s] at this
    exact absurd this (by simp)
  have hcvF : ∀ k, currentVal stF k = currentVal st2 k := by
    intro k
    apply currentVal_congr stF st2 k rfl
    intro idx hl
    exact hfilesFne idx.term (hmapne k idx hl)
  have hcurMax : st2.current_log_len ≤ MAX_NUM_COMMAND_PER_FILE := by
    obtain ⟨fA, cA, hfA, hcA, _, _, hcur, _⟩ := hact2
    rw [hcur]
    exact hsz2 _ _ hfA
  have htermBridge : st1.term = Q.term := rfl
  have htermBridge2 : stF.term = st2.term := rfl
  refine ⟨stF, ?_, ?_, ?_, hlensF, hfilesF, hrd2, by omega⟩
  · unfold compactionBody
    rw [hrd]
    simp only [← hst1]
    rw [show lookupA st1.files s = some fS from by rw [← hfiles2s]; exact hfiles2]
    rw [show lookupA st1.log_lengths s = some cS from by rw [← hlens2s]; exact hlens2]
    simp only []
    rw [if_pos hsan, hloop]
    simp only [hlens2, hfiles2, Option.isSome_some, if_true]
  · refine ⟨⟨ndm2, nodup_keysOf_eraseA _ _ ndl2, ndr2, ?_⟩, ⟨?_, ?_, ?_⟩, ?_,
      ⟨?_, hcurMax⟩, ?_, ?_⟩
    · exact nodup_keysOf_eraseA _ _ ndf2
    · intro t ht
      by_cases hq : t = s
      · subst hq
        rw [show lookupA stF.log_lengths t = none from hlensF] at ht
        exact absurd ht (by simp)
      · rw [hlensFne t hq] at ht
        obtain ⟨hh1, hh2, hh3⟩ := (doms2.1) t ht
        refine ⟨?_, fun _ => hh2 hq, ?_⟩
        · rw [show (lookupA stF.files t) = lookupA st2.files t from hfilesFne t hq]
          exact hh1
        · show t ≤ st2.term
          exact hh3
    · intro t ht
      by_cases hq : t = s
      · subst hq
        rw [show lookupA stF.files t = none from hfilesF] at ht
        exact absurd ht (by simp)
      · rw [hfilesFne t hq] at ht
        rw [hlensFne t hq]
        exact doms2.2.1 t ht
    · intro t ht
      have hq : t ≠ s := by
        intro hc
        subst hc
        rw [show lookupA stF.readers t = none from hrd2] at ht
        exact absurd ht (by simp)
      rw [hlensFne t hq]
      exact doms2.2.2 t ht
    · intro t c hc
      by_cases hq : t = s
      · subst hq
        rw [hlensF] at hc
        exact Option.noConfusion hc
      · rw [hlensFne t hq] at hc
        obtain ⟨hh1, hh2⟩ := cnts2 t c hc
        exact ⟨hh1, fun _ => hh2 hq⟩
    · intro t f hf
      by_cases hq : t = s
      · subst hq
        rw [hfilesF] at hf
        exact Option.noConfusion hf
      · rw [hfilesFne t hq] at hf
        exact hsz2 t f hf
    · intro k idx hl
      have hl2 : lookupA st2.map k = some idx := hl
      obtain ⟨f, hf, h1, h2, h3⟩ := hpt2 k idx hl2
      refine ⟨f, ?_, h1, h2, h3⟩
      rw [hfilesFne idx.term (hmapne k idx hl2)]
      exact hf
    · by_cases hsq : s = st2.term
      · right
        refine ⟨?_, ?_, ?_⟩
        · show st2.current_log_len = MAX_NUM_COMMAND_PER_FILE
          exact hfull2 hsq
        · show lookupA (eraseA st2.log_lengths s) st2.term = none
          rw [← hsq]
          exact lookupA_eraseA_self _ _ ndl2
        · obtain ⟨_, _, _, _, hwf, _, _, _⟩ := hact2
          exact hwf
      · left
        obtain ⟨fA, cA, hfA, hcA, hwf, hwp, hcur, hclen⟩ := hact2
        refine ⟨fA, cA, ?_, ?_, hwf, hwp, hcur, hclen⟩
        · rw [show (lookupA stF.files st2.term) = lookupA st2.files st2.term from
            hfilesFne st2.term (fun hc => hsq hc.symm)]
          exact hfA
        · rw [show (lookupA stF.log_lengths st2.term) = lookupA st2.log_lengths st2.term
            from hlensFne st2.term (fun hc => hsq hc.symm)]
          exact hcA
  · intro k
    rw [hcvF k, hcv2 k]
    rfl

theorem compaction_spec (st : KvStore) (s : Nat) (cS : LengthCount)
    (ndm : (keysOf st.map).Nodup) (ndl : (keysOf st.log_lengths).Nodup)
    (ndr : (keysOf st.readers).Nodup) (ndf : (keysOf st.files).Nodup)
    (doms : DomsOK st) (cnts : CountsOK st)
    (hsz : ∀ t f, lookupA st.files t = some f → f.length ≤ MAX_NUM_COMMAND_PER_FILE)
    (hpt : PointedOK st) (hact : ActiveOK st)
    (hlens : lookupA st.log_lengths s = some cS) :
    ∃ stF, compaction st s = .ok stF ∧ Inv stF ∧
      (∀ k, currentVal stF k = currentVal st k) ∧
      lookupA stF.log_lengths s = none ∧
      lookupA stF.files s = none ∧
      lookupA stF.readers s = none ∧
      st.term ≤ stF.term := by
  have hsle : s ≤ st.term := (doms.1 s (by rw [hlens]; rfl)).2.2
  by_cases hpre : s = st.term ∧ st.current_log_len < MAX_NUM_COMMAND_PER_FILE
  · obtain ⟨⟨ndmB, ndlB, ndrB, ndfB⟩, domsB, cntsB, hszB, hptB, hactB, hcurB, hmapB,
        htermB, hcvB, hlowB⟩ := break_spec st NoExc ndm ndl ndr ndf doms cnts hsz hpt
    have hlensB : lookupA (breakToNewLogFile st).log_lengths s = some cS := by
      rw [(hlowB s hsle).1]
      exact hlens
    have hfullB : s = (breakToNewLogFile st).term →
        (breakToNewLogFile st).current_log_len = MAX_NUM_COMMAND_PER_FILE := by
      intro hc
      rw [htermB] at hc
      omega
    obtain ⟨stF, heq, hinv, hcv, h1, h2, h3, h4⟩ :=
      compactionBody_spec (breakToNewLogFile st) s cS ndmB ndlB ndrB ndfB domsB cntsB
        hszB hptB hactB hlensB hfullB
    refine ⟨stF, ?_, hinv, ?_, h1, h2, h3, ?_⟩
    · rw [compaction, if_pos hpre]
      exact heq
    · intro k
      rw [hcv k, hcvB k]
    · rw [htermB] at h4
      omega
  · have hcur : st.current_log_len ≤ MAX_NUM_COMMAND_PER_FILE := by
      obtain ⟨fA, cA, hfA, _, _, _, hc, _⟩ := hact
      rw [hc]
      exact hsz _ _ hfA
    have hfullQ : s = st.term →
        st.current_log_len = MAX_NUM_COMMAND_PER_FILE := by
      intro hc
      have : ¬ st.current_log_len < MAX_NUM_COMMAND_PER_FILE := fun hlt => hpre ⟨hc, hlt⟩
      omega
    obtain ⟨stF, heq, hinv, hcv, h1, h2, h3, h4⟩ :=
      compactionBody_spec st s cS ndm ndl ndr ndf doms cnts hsz hpt hact hlens hfullQ
    refine ⟨stF, ?_, hinv, hcv, h1, h2, h3, h4⟩
    rw [compaction, if_neg hpre]
    exact heq

theorem same_step (stR : KvStore) (key value : String)
    (fA : List Command) (cA : LengthCount) (old : ValueIndex)
    (ndm : (keysOf stR.map).Nodup) (ndl : (keysOf stR.log_lengths).Nodup)
    (ndr : (keysOf stR.readers).Nodup) (ndf : (keysOf stR.files).Nodup)
    (doms : DomsOK stR) (cnts : CountsOK stR)
    (hsz : ∀ t f, lookupA stR.files t = some f → f.length ≤ MAX_NUM_COMMAND_PER_FILE)
    (hpt : PointedOK stR)
    (hfA : lookupA stR.files stR.term = some fA)
    (hcA : lookupA stR.log_lengths stR.term = some cA)
    (hwf : stR.writer_file = stR.term)
    (hwp : stR.writer_pos = fA.length)
    (hcur : stR.current_log_len = fA.length)
    (hclen : cA.len = fA.length)
    (hmax : fA.length < MAX_NUM_COMMAND_PER_FILE)
    (hm : lookupA stR.map key = some old)
    (ht : old.term = stR.term) :
    ∀ stE, stE = finishSet { stR with
        files := insertA stR.files stR.writer_file (fA ++ [Command.Set key value]),
        writer_pos := stR.writer_pos + 1,
        log_lengths := insertA stR.log_lengths stR.term cA.increase_len_with_garbage }
      key stR.writer_pos →
      ((keysOf stE.map).Nodup ∧ (keysOf stE.log_lengths).Nodup ∧
       (keysOf stE.readers).Nodup ∧ (keysOf stE.files).Nodup) ∧
      DomsOK stE ∧ CountsOK stE ∧
      (∀ t f2, lookupA stE.files t = some f2 → f2.length ≤ MAX_NUM_COMMAND_PER_FILE) ∧
      PointedOK stE ∧ ActiveOK stE ∧
      currentVal stE key = some value ∧
      (∀ k2, k2 ≠ key → currentVal stE k2 = currentVal stR k2) ∧
      lookupA stE.log_lengths stR.term = some cA.increase_len_with_garbage := by
  intro stE hE
  subst hE
  simp only [finishSet]
  have hfilesSelf : lookupA (insertA stR.files stR.writer_file
      (fA ++ [Command.Set key value])) stR.term = some (fA ++ [Command.Set key value]) := by
    rw [hwf]
    exact lookupA_insertA_self _ _ _
  have hfilesNe : ∀ t, t ≠ stR.term → lookupA (insertA stR.files stR.writer_file
      (fA ++ [Command.Set key value])) t = lookupA stR.files t := by
    intro t ht2
    rw [hwf]
    exact lookupA_insertA_ne _ _ ht2
  have hlensSelf : lookupA (insertA stR.log_lengths stR.term
      cA.increase_len_with_garbage) stR.term
      = some cA.increase_len_with_garbage := lookupA_insertA_self _ _ _
  have hlensNe : ∀ t, t ≠ stR.term →
      lookupA (insertA stR.log_lengths stR.term cA.increase_len_with_garbage) t
      = lookupA stR.log_lengths t := fun t ht2 => lookupA_insertA_ne _ _ ht2
  have hmapSelf : lookupA (insertA stR.map key
      ⟨stR.term, stR.writer_pos, stR.writer_pos + 1⟩) key
      = some ⟨stR.term, stR.writer_pos, stR.writer_pos + 1⟩ := lookupA_insertA_self _ _ _
  have hmapNe : ∀ k2, k2 ≠ key → lookupA (insertA stR.map key
      ⟨stR.term, stR.writer_pos, stR.writer_pos + 1⟩) k2
      = lookupA stR.map k2 := fun k2 hk => lookupA_insertA_ne _ _ hk
  have hcnt : ∀ t, countTerm (insertA stR.map key
      ⟨stR.term, stR.writer_pos, stR.writer_pos + 1⟩) t = countTerm stR.map t := by
    intro t
    have h2 := countTerm_insertA_some stR.map key
      ⟨stR.term, stR.writer_pos, stR.writer_pos + 1⟩ old t hm
    rw [ht] at h2
    by_cases hq : stR.term = t
    · rw [if_pos hq] at h2
      omega
    · rw [if_neg hq] at h2
      omega
  obtain ⟨d1, d2, d3⟩ := doms
  have hNodupLens : (keysOf (insertA stR.log_lengths stR.term
      cA.increase_len_with_garbage)).Nodup := by
    rw [keysOf_insertA_of_some _ _ _ (by rw [hcA]; rfl)]
    exact ndl
  have hNodupMap : (keysOf (insertA stR.map key
      ⟨stR.term, stR.writer_pos, stR.writer_pos + 1⟩)).Nodup := by
    rw [keysOf_insertA_of_some _ _ _ (by rw [hm]; rfl)]
    exact ndm
  have hNodupFiles : (keysOf (insertA stR.files stR.writer_file
      (fA ++ [Command.Set key value]))).Nodup := by
    rw [hwf, keysOf_insertA_of_some _ _ _ (by rw [hfA]; rfl)]
    exact ndf
  refine ⟨⟨hNodupMap, hNodupLens, ndr, hNodupFiles⟩, ⟨?_, ?_, ?_⟩, ?_, ?_, ?_, ?_,
    ?_, ?_, hlensSelf⟩
  · intro t ht2
    simp only [] at ht2 ⊢
    by_cases hq : t = stR.term
    · subst hq
      refine ⟨by rw [hfilesSelf]; rfl, fun hx => (d1 stR.term (by rw [hcA]; rfl)).2.1 hx,
        (d1 stR.term (by rw [hcA]; rfl)).2.2⟩
    · rw [hlensNe t hq] at ht2
      rw [hfilesNe t hq]
      exact d1 t ht2
  · intro t ht2
    simp only [] at ht2 ⊢
    by_cases hq : t = stR.term
    · subst hq
      rw [hlensSelf]
      rfl
    · rw [hfilesNe t hq] at ht2
      rw [hlensNe t hq]
      exact d2 t ht2
  · intro t ht2
    simp only [] at ht2 ⊢
    by_cases hq : t = stR.term
    · subst hq
      rw [hlensSelf]
      rfl
    · rw [hlensNe t hq]
      exact d3 t ht2
  · intro t c hc
    simp only [] at hc ⊢
    by_cases hq : t = stR.term
    · subst hq
      rw [hlensSelf] at hc
      injection hc with hc2
      subst hc2
      obtain ⟨hg1, hg2⟩ := cnts stR.term cA hcA
      refine ⟨by simp [LengthCount.increase_len_with_garbage]; omega, fun hx => ?_⟩
      rw [hcnt stR.term]
      have h3 := hg2 (fun h => h)
      simp only [LengthCount.increase_len_with_garbage]
      omega
    · rw [hlensNe t hq] at hc
      obtain ⟨hg1, hg2⟩ := cnts t c hc
      refine ⟨hg1, fun hx => ?_⟩
      rw [hcnt t]
      exact hg2 (fun h => h)
  · intro t f2 hf2
    by_cases hq : t = stR.term
    · subst hq
      rw [hfilesSelf] at hf2
      injection hf2 with hf3
      subst hf3
      simp
      omega
    · rw [hfilesNe t hq] at hf2
      exact hsz t f2 hf2
  · intro k2 idx hlk
    simp only [] at hlk ⊢
    by_cases hk : k2 = key
    · subst hk
      rw [hmapSelf] at hlk
      injection hlk with hlk2
      subst hlk2
      refine ⟨fA ++ [Command.Set k2 value], hfilesSelf, rfl, ⟨value, ?_⟩, ?_⟩
      · rw [hwp, List.getElem?_append_right (Nat.le_refl _)]
        simp
      · intro c hc
        rw [hwp] at hc
        rw [List.drop_eq_nil_of_le (by simp)] at hc
        simp at hc
    · rw [hmapNe k2 hk] at hlk
      have hp := hpt k2 idx hlk
      rw [hwf] at hfilesSelf hfilesNe ⊢
      exact pointed_entry_append stR.files stR.term fA hfA
        (Command.Set key value) k2 idx hp (by simp [isSetOf]; exact fun hc => hk hc.symm)
  · refine ⟨fA ++ [Command.Set key value], cA.increase_len_with_garbage, hfilesSelf,
      hlensSelf, hwf, ?_, ?_, ?_⟩ <;>
      simp [hwp, hcur, hclen, LengthCount.increase_len_with_garbage]
  · apply currentVal_pointed _ key ⟨stR.term, stR.writer_pos, stR.writer_pos + 1⟩
      (fA ++ [Command.Set key value]) value hmapSelf hfilesSelf rfl
    rw [hwp, List.getElem?_append_right (Nat.le_refl _)]
    simp
  · intro k2 hk
    cases hlk : lookupA stR.map k2 with
    | none =>
      unfold currentVal
      simp only []
      rw [hmapNe k2 hk, hlk]
    | some idx =>
      obtain ⟨g, hg, h1, ⟨v, h2⟩, h3⟩ := hpt k2 idx hlk
      have hvR : currentVal stR k2 = some v := currentVal_pointed stR k2 idx g v hlk hg h1 h2
      rw [hvR]
      obtain ⟨g2, hg2, _, ⟨v2, h22⟩, h32⟩ := pointed_entry_append stR.files stR.term fA hfA
        (Command.Set key value) k2 idx ⟨g, hg, h1, ⟨v, h2⟩, h3⟩
        (by simp [isSetOf]; exact fun hc => hk hc.symm)
      have hvE : v2 = v := by
        by_cases hq : idx.term = stR.term
        · rw [hq, hfA] at hg
          injection hg with hgf
          subst hgf
          rw [hq, lookupA_insertA_self] at hg2
          injection hg2 with hg3
          subst hg3
          obtain ⟨hlt, _⟩ := List.getElem?_eq_some.mp h2
          rw [List.getElem?_append_left hlt, h2] at h22
          injection h22 with h23
          injection h23 with h24 h25
          exact h25.symm
        · rw [lookupA_insertA_ne _ _ hq, hg] at hg2
          injection hg2 with hg3
          subst hg3
          rw [h2] at h22
          injection h22 with h23
          injection h23 with h24 h25
          exact h25.symm
      subst hvE
      refine currentVal_pointed _ k2 idx g2 v2 ?_ ?_ h1 h22
      · show lookupA (insertA stR.map key _) k2 = some idx
        rw [hmapNe k2 hk]
        exact hlk
      · show lookupA (insertA stR.files stR.writer_file _) idx.term = some g2
        rw [hwf]
        exact hg2

theorem old_step (stR : KvStore) (key value : String)
    (fA : List Command) (cA : LengthCount) (old : ValueIndex) (oc : LengthCount)
    (ndm : (keysOf stR.map).Nodup) (ndl : (keysOf stR.log_lengths).Nodup)
    (ndr : (keysOf stR.readers).Nodup) (ndf : (keysOf stR.files).Nodup)
    (doms : DomsOK stR) (cnts : CountsOK stR)
    (hsz : ∀ t f, lookupA stR.files t = some f → f.length ≤ MAX_NUM_COMMAND_PER_FILE)
    (hpt : PointedOK stR)
    (hfA : lookupA stR.files stR.term = some fA)
    (hcA : lookupA stR.log_lengths stR.term = some cA)
    (hwf : stR.writer_file = stR.term)
    (hwp : stR.writer_pos = fA.length)
    (hcur : stR.current_log_len = fA.length)
    (hclen : cA.len = fA.length)
    (hmax : fA.length < MAX_NUM_COMMAND_PER_FILE)
    (hm : lookupA stR.map key = some old)
    (ht : old.term ≠ stR.term)
    (ho : lookupA stR.log_lengths old.term = some oc) :
    ∀ stE, stE = finishSet { stR with
        files := insertA stR.files stR.writer_file (fA ++ [Command.Set key value]),
        writer_pos := stR.writer_pos + 1,
        log_lengths := insertA (insertA stR.log_lengths old.term oc.increase_garbage_len)
          stR.term cA.increase_len }
      key stR.writer_pos →
      ((keysOf stE.map).Nodup ∧ (keysOf stE.log_lengths).Nodup ∧
       (keysOf stE.readers).Nodup ∧ (keysOf stE.files).Nodup) ∧
      DomsOK stE ∧ CountsOK stE ∧
      (∀ t f2, lookupA stE.files t = some f2 → f2.length ≤ MAX_NUM_COMMAND_PER_FILE) ∧
      PointedOK stE ∧ ActiveOK stE ∧
      currentVal stE key = some value ∧
      (∀ k2, k2 ≠ key → currentVal stE k2 = currentVal stR k2) ∧
      lookupA stE.log_lengths old.term = some oc.increase_garbage_len := by
  intro stE hE
  subst hE
  simp only [finishSet]
  have hfilesSelf : lookupA (insertA stR.files stR.writer_file
      (fA ++ [Command.Set key value])) stR.term = some (fA ++ [Command.Set key value]) := by
    rw [hwf]
    exact lookupA_insertA_self _ _ _
  have hfilesNe : ∀ t, t ≠ stR.term → lookupA (insertA stR.files stR.writer_file
      (fA ++ [Command.Set key value])) t = lookupA stR.files t := by
    intro t ht2
    rw [hwf]
    exact lookupA_insertA_ne _ _ ht2
  have hlensSelf : lookupA (insertA (insertA stR.log_lengths old.term
      oc.increase_garbage_len) stR.term cA.increase_len) stR.term
      = some cA.increase_len := lookupA_insertA_self _ _ _
  have hlensOld : lookupA (insertA (insertA stR.log_lengths old.term
      oc.increase_garbage_len) stR.term cA.increase_len) old.term
      = some oc.increase_garbage_len := by
    rw [lookupA_insertA_ne _ _ ht]
    exact lookupA_insertA_self _ _ _
  have hlensNe : ∀ t, t ≠ stR.term → t ≠ old.term →
      lookupA (insertA (insertA stR.log_lengths old.term oc.increase_garbage_len)
        stR.term cA.increase_len) t
      = lookupA stR.log_lengths t := by
    intro t h1 h2
    rw [lookupA_insertA_ne _ _ h1, lookupA_insertA_ne _ _ h2]
  have hmapSelf : lookupA (insertA stR.map key
      ⟨stR.term, stR.writer_pos, stR.writer_pos + 1⟩) key
      = some ⟨stR.term, stR.writer_pos, stR.writer_pos + 1⟩ := lookupA_insertA_self _ _ _
  have hmapNe : ∀ k2, k2 ≠ key → lookupA (insertA stR.map key
      ⟨stR.term, stR.writer_pos, stR.writer_pos + 1⟩) k2
      = lookupA stR.map k2 := fun k2 hk => lookupA_insertA_ne _ _ hk
  have hcnt0 := fun t => countTerm_insertA_some stR.map key
    ⟨stR.term, stR.writer_pos, stR.writer_pos + 1⟩ old t hm
  have hcntA : countTerm (insertA stR.map key
      ⟨stR.term, stR.writer_pos, stR.writer_pos + 1⟩) stR.term
      = countTerm stR.map stR.term + 1 := by
    have h2 := hcnt0 stR.term
    rw [if_neg ht, if_pos rfl] at h2
    omega
  have hcntO : countTerm (insertA stR.map key
      ⟨stR.term, stR.writer_pos, stR.writer_pos + 1⟩) old.term + 1
      = countTerm stR.map old.term := by
    have h2 := hcnt0 old.term
    rw [if_pos rfl, if_neg (Ne.symm ht)] at h2
    omega
  have hcntNe : ∀ t, t ≠ stR.term → t ≠ old.term →
      countTerm (insertA stR.map key
        ⟨stR.term, stR.writer_pos, stR.writer_pos + 1⟩) t = countTerm stR.map t := by
    intro t h1 h2
    have h3 := hcnt0 t
    rw [if_neg (fun hc => h2 hc.symm), if_neg (fun hc => h1 hc.symm)] at h3
    omega
  have hOpos : 0 < countTerm stR.map old.term := countTerm_pos stR.map key old hm
  obtain ⟨d1, d2, d3⟩ := doms
  have hNodupLens : (keysOf (insertA (insertA stR.log_lengths old.term
      oc.increase_garbage_len) stR.term cA.increase_len)).Nodup := by
    rw [keysOf_insertA_of_some _ _ _
      (by rw [lookupA_insertA_ne _ _ (Ne.symm ht), hcA]; rfl),
      keysOf_insertA_of_some _ _ _ (by rw [ho]; rfl)]
    exact ndl
  have hNodupMap : (keysOf (insertA stR.map key
      ⟨stR.term, stR.writer_pos, stR.writer_pos + 1⟩)).Nodup := by
    rw [keysOf_insertA_of_some _ _ _ (by rw [hm]; rfl)]
    exact ndm
  have hNodupFiles : (keysOf (insertA stR.files stR.writer_file
      (fA ++ [Command.Set key value]))).Nodup := by
    rw [hwf, keysOf_insertA_of_some _ _ _ (by rw [hfA]; rfl)]
    exact ndf
  have hLdom : ∀ t, (lookupA (insertA (insertA stR.log_lengths old.term
      oc.increase_garbage_len) stR.term cA.increase_len) t).isSome ↔
      (lookupA stR.log_lengths t).isSome := by
    intro t
    by_cases h1 : t = stR.term
    · subst h1
      rw [hlensSelf, hcA]
      exact Iff.rfl
    · by_cases h2 : t = old.term
      · subst h2
        rw [hlensOld, ho]
        exact Iff.rfl
      · rw [hlensNe t h1 h2]
  refine ⟨⟨hNodupMap, hNodupLens, ndr, hNodupFiles⟩, ⟨?_, ?_, ?_⟩, ?_, ?_, ?_, ?_,
    ?_, ?_, hlensOld⟩
  · intro t ht2
    simp only [] at ht2 ⊢
    rw [hLdom t] at ht2
    refine ⟨?_, fun hx => (d1 t ht2).2.1 hx, (d1 t ht2).2.2⟩
    by_cases hq : t = stR.term
    · subst hq
      rw [hfilesSelf]
      rfl
    · rw [hfilesNe t hq]
      exact (d1 t ht2).1
  · intro t ht2
    simp only [] at ht2 ⊢
    rw [hLdom t]
    by_cases hq : t = stR.term
    · subst hq
      rw [hcA]
      rfl
    · rw [hfilesNe t hq] at ht2
      exact d2 t ht2
  · intro t ht2
    simp only [] at ht2 ⊢
    rw [hLdom t]
    exact d3 t ht2
  · intro t c hc
    simp only [] at hc ⊢
    by_cases hq : t = stR.term
    · subst hq
      rw [hlensSelf] at hc
      injection hc with hc2
      subst hc2
      obtain ⟨hg1, hg2⟩ := cnts stR.term cA hcA
      have h3 := hg2 (fun h => h)
      refine ⟨by simp [LengthCount.increase_len]; omega, fun hx => ?_⟩
      rw [hcntA]
      simp only [LengthCount.increase_len]
      omega
    · by_cases hq2 : t = old.term
      · subst hq2
        rw [hlensOld] at hc
        injection hc with hc2
        subst hc2
        obtain ⟨hg1, hg2⟩ := cnts old.term oc ho
        have h3 := hg2 (fun h => h)
        refine ⟨by simp [LengthCount.increase_garbage_len]; omega, fun hx => ?_⟩
        simp only [LengthCount.increase_garbage_len]
        omega
      · rw [hlensNe t hq hq2] at hc
        obtain ⟨hg1, hg2⟩ := cnts t c hc
        refine ⟨hg1, fun hx => ?_⟩
        rw [hcntNe t hq hq2]
        exact hg2 (fun h => h)
  · intro t f2 hf2
    by_cases hq : t = stR.term
    · subst hq
      rw [hfilesSelf] at hf2
      injection hf2 with hf3
      subst hf3
      simp
      omega
    · rw [hfilesNe t hq] at hf2
      exact hsz t f2 hf2
  · intro k2 idx hlk
    simp only [] at hlk ⊢
    by_cases hk : k2 = key
    · subst hk
      rw [hmapSelf] at hlk
      injection hlk with hlk2
      subst hlk2
      refine ⟨fA ++ [Command.Set k2 value], hfilesSelf, rfl, ⟨value, ?_⟩, ?_⟩
      · rw [hwp, List.getElem?_append_right (Nat.le_refl _)]
        simp
      · intro c hc
        rw [hwp] at hc
        rw [List.drop_eq_nil_of_le (by simp)] at hc
        simp at hc
    · rw [hmapNe k2 hk] at hlk
      have hp := hpt k2 idx hlk
      rw [hwf] at hfilesSelf hfilesNe ⊢
      exact pointed_entry_append stR.files stR.term fA hfA
        (Command.Set key value) k2 idx hp (by simp [isSetOf]; exact fun hc => hk hc.symm)
  · refine ⟨fA ++ [Command.Set key value], cA.increase_len, hfilesSelf,
      hlensSelf, hwf, ?_, ?_, ?_⟩ <;>
      simp [hwp, hcur, hclen, LengthCount.increase_len]
  · apply currentVal_pointed _ key ⟨stR.term, stR.writer_pos, stR.writer_pos + 1⟩
      (fA ++ [Command.Set key value]) value hmapSelf hfilesSelf rfl
    rw [hwp, List.getElem?_append_right (Nat.le_refl _)]
    simp
  · intro k2 hk
    cases hlk : lookupA stR.map k2 with
    | none =>
      unfold currentVal
      simp only []
      rw [hmapNe k2 hk, hlk]
    | some idx =>
      obtain ⟨g, hg, h1, ⟨v, h2⟩, h3⟩ := hpt k2 idx hlk
      have hvR : currentVal stR k2 = some v := currentVal_pointed stR k2 idx g v hlk hg h1 h2
      rw [hvR]
      obtain ⟨g2, hg2, _, ⟨v2, h22⟩, h32⟩ := pointed_entry_append stR.files stR.term fA hfA
        (Command.Set key value) k2 idx ⟨g, hg, h1, ⟨v, h2⟩, h3⟩
        (by simp [isSetOf]; exact fun hc => hk hc.symm)
      have hvE : v2 = v := by
        by_cases hq : idx.term = stR.term
        · rw [hq, hfA] at hg
          injection hg with hgf
          subst hgf
          rw [hq, lookupA_insertA_self] at hg2
          injection hg2 with hg3
          subst hg3
          obtain ⟨hlt, _⟩ := List.getElem?_eq_some.mp h2
          rw [List.getElem?_append_left hlt, h2] at h22
          injection h22 with h23
          injection h23 with h24 h25
          exact h25.symm
        · rw [lookupA_insertA_ne _ _ hq, hg] at hg2
          injection hg2 with hg3
          subst hg3
          rw [h2] at h22
          injection h22 with h23
          injection h23 with h24 h25
          exact h25.symm
      subst hvE
      refine currentVal_pointed _ k2 idx g2 v2 ?_ ?_ h1 h22
      · show lookupA (insertA stR.map key _) k2 = some idx
        rw [hmapNe k2 hk]
        exact hlk
      · show lookupA (insertA stR.files stR.writer_file _) idx.term = some g2
        rw [hwf]
        exact hg2

theorem rem_same_step (stR : KvStore) (key : String)
    (fA : List Command) (cA : LengthCount) (old : ValueIndex)
    (ndm : (keysOf stR.map).Nodup) (ndl : (keysOf stR.log_lengths).Nodup)
    (ndr : (keysOf stR.readers).Nodup) (ndf : (keysOf stR.files).Nodup)
    (doms : DomsOK stR) (cnts : CountsOK stR)
    (hsz : ∀ t f, lookupA stR.files t = some f → f.length ≤ MAX_NUM_COMMAND_PER_FILE)
    (hpt : PointedOK stR)
    (hfA : lookupA stR.files stR.term = some fA)
    (hcA : lookupA stR.log_lengths stR.term = some cA)
    (hwf : stR.writer_file = stR.term)
    (hwp : stR.writer_pos = fA.length)
    (hcur : stR.current_log_len = fA.length)
    (hclen : cA.len = fA.length)
    (hmax : fA.length < MAX_NUM_COMMAND_PER_FILE)
    (hm : lookupA stR.map key = some old)
    (ht : old.term = stR.term) :
    ∀ stE, stE = { stR with
        files := insertA stR.files stR.writer_file (fA ++ [Command.Remove key]),
        writer_pos := stR.writer_pos + 1,
        log_lengths := insertA stR.log_lengths stR.term
          cA.increase_garbage_len.increase_len_with_garbage,
        current_log_len := stR.current_log_len + 1,
        map := eraseA stR.map key } →
      ((keysOf stE.map).Nodup ∧ (keysOf stE.log_lengths).Nodup ∧
       (keysOf stE.readers).Nodup ∧ (keysOf stE.files).Nodup) ∧
      DomsOK stE ∧ CountsOK stE ∧
      (∀ t f2, lookupA stE.files t = some f2 → f2.length ≤ MAX_NUM_COMMAND_PER_FILE) ∧
      PointedOK stE ∧ ActiveOK stE ∧
      currentVal stE key = none ∧
      (∀ k2, k2 ≠ key → currentVal stE k2 = currentVal stR k2) ∧
      lookupA stE.log_lengths stR.term
        = some cA.increase_garbage_len.increase_len_with_garbage := by
  intro stE hE
  subst hE
  have hfilesSelf : lookupA (insertA stR.files stR.writer_file
      (fA ++ [Command.Remove key])) stR.term = some (fA ++ [Command.Remove key]) := by
    rw [hwf]
    exact lookupA_insertA_self _ _ _
  have hfilesNe : ∀ t, t ≠ stR.term → lookupA (insertA stR.files stR.writer_file
      (fA ++ [Command.Remove key])) t = lookupA stR.files t := by
    intro t ht2
    rw [hwf]
    exact lookupA_insertA_ne _ _ ht2
  have hlensSelf : lookupA (insertA stR.log_lengths stR.term
      cA.increase_garbage_len.increase_len_with_garbage) stR.term
      = some cA.increase_garbage_len.increase_len_with_garbage := lookupA_insertA_self _ _ _
  have hlensNe : ∀ t, t ≠ stR.term →
      lookupA (insertA stR.log_lengths stR.term
        cA.increase_garbage_len.increase_len_with_garbage) t
      = lookupA stR.log_lengths t := fun t ht2 => lookupA_insertA_ne _ _ ht2
  have hmapSelf : lookupA (eraseA stR.map key) key = none :=
    lookupA_eraseA_self _ _ ndm
  have hmapNe : ∀ k2, k2 ≠ key →
      lookupA (eraseA stR.map key) k2 = lookupA stR.map k2 :=
    fun k2 hk => lookupA_eraseA_ne _ hk
  have hcnt0 := fun t => countTerm_eraseA_some stR.map key old t hm
  have hcntA : countTerm (eraseA stR.map key) stR.term + 1
      = countTerm stR.map stR.term := by
    have h2 := hcnt0 stR.term
    rw [if_pos ht] at h2
    omega
  have hcntNe : ∀ t, t ≠ stR.term →
      countTerm (eraseA stR.map key) t = countTerm stR.map t := by
    intro t h1
    have h3 := hcnt0 t
    rw [ht, if_neg (fun hc => h1 hc.symm)] at h3
    omega
  have hApos : 0 < countTerm stR.map stR.term := by
    have := countTerm_pos stR.map key old hm
    rwa [ht] at this
  obtain ⟨d1, d2, d3⟩ := doms
  have hNodupLens : (keysOf (insertA stR.log_lengths stR.term
      cA.increase_garbage_len.increase_len_with_garbage)).Nodup := by
    rw [keysOf_insertA_of_some _ _ _ (by rw [hcA]; rfl)]
    exact ndl
  have hNodupFiles : (keysOf (insertA stR.files stR.writer_file
      (fA ++ [Command.Remove key]))).Nodup := by
    rw [hwf, keysOf_insertA_of_some _ _ _ (by rw [hfA]; rfl)]
    exact ndf
  refine ⟨⟨nodup_keysOf_eraseA _ _ ndm, hNodupLens, ndr, hNodupFiles⟩, ⟨?_, ?_, ?_⟩,
    ?_, ?_, ?_, ?_, ?_, ?_, hlensSelf⟩
  · intro t ht2
    simp only [] at ht2 ⊢
    by_cases hq : t = stR.term
    · subst hq
      refine ⟨by rw [hfilesSelf]; rfl, fun hx => (d1 stR.term (by rw [hcA]; rfl)).2.1 hx,
        (d1 stR.term (by rw [hcA]; rfl)).2.2⟩
    · rw [hlensNe t hq] at ht2
      rw [hfilesNe t hq]
      exact d1 t ht2
  · intro t ht2
    simp only [] at ht2 ⊢
    by_cases hq : t = stR.term
    · subst hq
      rw [hlensSelf]
      rfl
    · rw [hfilesNe t hq] at ht2
      rw [hlensNe t hq]
      exact d2 t ht2
  · intro t ht2
    simp only [] at ht2 ⊢
    by_cases hq : t = stR.term
    · subst hq
      rw [hlensSelf]
      rfl
    · rw [hlensNe t hq]
      exact d3 t ht2
  · intro t c hc
    simp only [] at hc ⊢
    by_cases hq : t = stR.term
    · subst hq
      rw [hlensSelf] at hc
      injection hc with hc2
      subst hc2
      obtain ⟨hg1, hg2⟩ := cnts stR.term cA hcA
      have h3 := hg2 (fun h => h)
      refine ⟨?_, fun hx => ?_⟩ <;>
        simp only [LengthCount.increase_garbage_len,
          LengthCount.increase_len_with_garbage] <;>
        omega
    · rw [hlensNe t hq] at hc
      obtain ⟨hg1, hg2⟩ := cnts t c hc
      refine ⟨hg1, fun hx => ?_⟩
      rw [hcntNe t hq]
      exact hg2 (fun h => h)
  · intro t f2 hf2
    by_cases hq : t = stR.term
    · subst hq
      rw [hfilesSelf] at hf2
      injection hf2 with hf3
      subst hf3
      simp
      omega
    · rw [hfilesNe t hq] at hf2
      exact hsz t f2 hf2
  · intro k2 idx hlk
    simp only [] at hlk ⊢
    by_cases hk : k2 = key
    · subst hk
      rw [hmapSelf] at hlk
      exact absurd hlk (by simp)
    · rw [hmapNe k2 hk] at hlk
      have hp := hpt k2 idx hlk
      rw [hwf] at hfilesSelf hfilesNe ⊢
      exact pointed_entry_append stR.files stR.term fA hfA
        (Command.Remove key) k2 idx hp (by simp [isSetOf])
  · refine ⟨fA ++ [Command.Remove key],
      cA.increase_garbage_len.increase_len_with_garbage, hfilesSelf,
      hlensSelf, hwf, ?_, ?_, ?_⟩ <;>
      simp [hwp, hcur, hclen, LengthCount.increase_garbage_len,
        LengthCount.increase_len_with_garbage]
  · unfold currentVal
    simp only []
    rw [hmapSelf]
  · intro k2 hk
    cases hlk : lookupA stR.map k2 with
    | none =>
      unfold currentVal
      simp only []
      rw [hmapNe k2 hk, hlk]
    | some idx =>
      obtain ⟨g, hg, h1, ⟨v, h2⟩, h3⟩ := hpt k2 idx hlk
      have hvR : currentVal stR k2 = some v := currentVal_pointed stR k2 idx g v hlk hg h1 h2
      rw [hvR]
      obtain ⟨g2, hg2, _, ⟨v2, h22⟩, h32⟩ := pointed_entry_append stR.files stR.term fA hfA
        (Command.Remove key) k2 idx ⟨g, hg, h1, ⟨v, h2⟩, h3⟩ (by simp [isSetOf])
      have hvE : v2 = v := by
        by_cases hq : idx.term = stR.term
        · rw [hq, hfA] at hg
          injection hg with hgf
          subst hgf
          rw [hq, lookupA_insertA_self] at hg2
          injection hg2 with hg3
          subst hg3
          obtain ⟨hlt, _⟩ := List.getElem?_eq_some.mp h2
          rw [List.getElem?_append_left hlt, h2] at h22
          injection h22 with h23
          injection h23 with h24 h25
          exact h25.symm
        · rw [lookupA_insertA_ne _ _ hq, hg] at hg2
          injection hg2 with hg3
          subst hg3
          rw [h2] at h22
          injection h22 with h23
          injection h23 with h24 h25
          exact h25.symm
      subst hvE
      refine currentVal_pointed _ k2 idx g2 v2 ?_ ?_ h1 h22
      · show lookupA (eraseA stR.map key) k2 = some idx
        rw [hmapNe k2 hk]
        exact hlk
      · show lookupA (insertA stR.files stR.writer_file _) idx.term = some g2
        rw [hwf]
        exact hg2

theorem rem_old_step (stR : KvStore) (key : String)
    (fA : List Command) (cA : LengthCount) (old : ValueIndex) (oc : LengthCount)
    (ndm : (keysOf stR.map).Nodup) (ndl : (keysOf stR.log_lengths).Nodup)
    (ndr : (keysOf stR.readers).Nodup) (ndf : (keysOf stR.files).Nodup)
    (doms : DomsOK stR) (cnts : CountsOK stR)
    (hsz : ∀ t f, lookupA stR.files t = some f → f.length ≤ MAX_NUM_COMMAND_PER_FILE)
    (hpt : PointedOK stR)
    (hfA : lookupA stR.files stR.term = some fA)
    (hcA : lookupA stR.log_lengths stR.term = some cA)
    (hwf : stR.writer_file = stR.term)
    (hwp : stR.writer_pos = fA.length)
    (hcur : stR.current_log_len = fA.length)
    (hclen : cA.len = fA.length)
    (hmax : fA.length < MAX_NUM_COMMAND_PER_FILE)
    (hm : lookupA stR.map key = some old)
    (ht : old.term ≠ stR.term)
    (ho : lookupA stR.log_lengths old.term = some oc) :
    ∀ stE, stE = { stR with
        files := insertA stR.files stR.writer_file (fA ++ [Command.Remove key]),
        writer_pos := stR.writer_pos + 1,
        log_lengths := insertA (insertA stR.log_lengths old.term oc.increase_garbage_len)
          stR.term cA.increase_len_with_garbage,
        current_log_len := stR.current_log_len + 1,
        map := eraseA stR.map key } →
      ((keysOf stE.map).Nodup ∧ (keysOf stE.log_lengths).Nodup ∧
       (keysOf stE.readers).Nodup ∧ (keysOf stE.files).Nodup) ∧
      DomsOK stE ∧ CountsOK stE ∧
      (∀ t f2, lookupA stE.files t = some f2 → f2.length ≤ MAX_NUM_COMMAND_PER_FILE) ∧
      PointedOK stE ∧ ActiveOK stE ∧
      currentVal stE key = none ∧
      (∀ k2, k2 ≠ key → currentVal stE k2 = currentVal stR k2) ∧
      lookupA stE.log_lengths old.term = some oc.increase_garbage_len := by
  intro stE hE
  subst hE
  have hfilesSelf : lookupA (insertA stR.files stR.writer_file
      (fA ++ [Command.Remove key])) stR.term = some (fA ++ [Command.Remove key]) := by
    rw [hwf]
    exact lookupA_insertA_self _ _ _
  have hfilesNe : ∀ t, t ≠ stR.term → lookupA (insertA stR.files stR.writer_file
      (fA ++ [Command.Remove key])) t = lookupA stR.files t := by
    intro t ht2
    rw [hwf]
    exact lookupA_insertA_ne _ _ ht2
  have hlensSelf : lookupA (insertA (insertA stR.log_lengths old.term
      oc.increase_garbage_len) stR.term cA.increase_len_with_garbage) stR.term
      = some cA.increase_len_with_garbage := lookupA_insertA_self _ _ _
  have hlensOld : lookupA (insertA (insertA stR.log_lengths old.term
      oc.increase_garbage_len) stR.term cA.increase_len_with_garbage) old.term
      = some oc.increase_garbage_len := by
    rw [lookupA_insertA_ne _ _ ht]
    exact lookupA_insertA_self _ _ _
  have hlensNe : ∀ t, t ≠ stR.term → t ≠ old.term →
      lookupA (insertA (insertA stR.log_lengths old.term oc.increase_garbage_len)
        stR.term cA.increase_len_with_garbage) t
      = lookupA stR.log_lengths t := by
    intro t h1 h2
    rw [lookupA_insertA_ne _ _ h1, lookupA_insertA_ne _ _ h2]
  have hmapSelf : lookupA (eraseA stR.map key) key = none :=
    lookupA_eraseA_self _ _ ndm
  have hmapNe : ∀ k2, k2 ≠ key →
      lookupA (eraseA stR.map key) k2 = lookupA stR.map k2 :=
    fun k2 hk => lookupA_eraseA_ne _ hk
  have hcnt0 := fun t => countTerm_eraseA_some stR.map key old t hm
  have hcntO : countTerm (eraseA stR.map key) old.term + 1
      = countTerm stR.map old.term := by
    have h2 := hcnt0 old.term
    rw [if_pos rfl] at h2
    omega
  have hcntNe : ∀ t, t ≠ old.term →
      countTerm (eraseA stR.map key) t = countTerm stR.map t := by
    intro t h1
    have h3 := hcnt0 t
    rw [if_neg (fun hc => h1 hc.symm)] at h3
    omega
  have hOpos : 0 < countTerm stR.map old.term := countTerm_pos stR.map key old hm
  obtain ⟨d1, d2, d3⟩ := doms
  have hNodupLens : (keysOf (insertA (insertA stR.log_lengths old.term
      oc.increase_garbage_len) stR.term cA.increase_len_with_garbage)).Nodup := by
    rw [keysOf_insertA_of_some _ _ _
      (by rw [lookupA_insertA_ne _ _ (Ne.symm ht), hcA]; rfl),
      keysOf_insertA_of_some _ _ _ (by rw [ho]; rfl)]
    exact ndl
  have hNodupFiles : (keysOf (insertA stR.files stR.writer_file
      (fA ++ [Command.Remove key]))).Nodup := by
    rw [hwf, keysOf_insertA_of_some _ _ _ (by rw [hfA]; rfl)]
    exact ndf
  have hLdom : ∀ t, (lookupA (insertA (insertA stR.log_lengths old.term
      oc.increase_garbage_len) stR.term cA.increase_len_with_garbage) t).isSome ↔
      (lookupA stR.log_lengths t).isSome := by
    intro t
    by_cases h1 : t = stR.term
    · subst h1
      rw [hlensSelf, hcA]
      exact Iff.rfl
    · by_cases h2 : t = old.term
      · subst h2
        rw [hlensOld, ho]
        exact Iff.rfl
      · rw [hlensNe t h1 h2]
  refine ⟨⟨nodup_keysOf_eraseA _ _ ndm, hNodupLens, ndr, hNodupFiles⟩, ⟨?_, ?_, ?_⟩,
    ?_, ?_, ?_, ?_, ?_, ?_, hlensOld⟩
  · intro t ht2
    simp only [] at ht2 ⊢
    rw [hLdom t] at ht2
    refine ⟨?_, fun hx => (d1 t ht2).2.1 hx, (d1 t ht2).2.2⟩
    by_cases hq : t = stR.term
    · subst hq
      rw [hfilesSelf]
      rfl
    · rw [hfilesNe t hq]
      exact (d1 t ht2).1
  · intro t ht2
    simp only [] at ht2 ⊢
    rw [hLdom t]
    by_cases hq : t = stR.term
    · subst hq
      rw [hcA]
      rfl
    · rw [hfilesNe t hq] at ht2
      exact d2 t ht2
  · intro t ht2
    simp only [] at ht2 ⊢
    rw [hLdom t]
    exact d3 t ht2
  · intro t c hc
    simp only [] at hc ⊢
    by_cases hq : t = stR.term
    · subst hq
      rw [hlensSelf] at hc
      injection hc with hc2
      subst hc2
      obtain ⟨hg1, hg2⟩ := cnts stR.term cA hcA
      have h3 := hg2 (fun h => h)
      refine ⟨?_, fun hx => ?_⟩
      · simp only [LengthCount.increase_len_with_garbage]
        omega
      · rw [hcntNe stR.term (Ne.symm ht)]
        simp only [LengthCount.increase_len_with_garbage]
        omega
    · by_cases hq2 : t = old.term
      · subst hq2
        rw [hlensOld] at hc
        injection hc with hc2
        subst hc2
        obtain ⟨hg1, hg2⟩ := cnts old.term oc ho
        have h3 := hg2 (fun h => h)
        refine ⟨?_, fun hx => ?_⟩ <;> simp only [LengthCount.increase_garbage_len] <;> omega
      · rw [hlensNe t hq hq2] at hc
        obtain ⟨hg1, hg2⟩ := cnts t c hc
        refine ⟨hg1, fun hx => ?_⟩
        rw [hcntNe t hq2]
        exact hg2 (fun h => h)
  · intro t f2 hf2
    by_cases hq : t = stR.term
    · subst hq
      rw [hfilesSelf] at hf2
      injection hf2 with hf3
      subst hf3
      simp
      omega
    · rw [hfilesNe t hq] at hf2
      exact hsz t f2 hf2
  · intro k2 idx hlk
    simp only [] at hlk ⊢
    by_cases hk : k2 = key
    · subst hk
      rw [hmapSelf] at hlk
      exact absurd hlk (by simp)
    · rw [hmapNe k2 hk] at hlk
      have hp := hpt k2 idx hlk
      rw [hwf] at hfilesSelf hfilesNe ⊢
      exact pointed_entry_append stR.files stR.term fA hfA
        (Command.Remove key) k2 idx hp (by simp [isSetOf])
  · refine ⟨fA ++ [Command.Remove key], cA.increase_len_with_garbage, hfilesSelf,
      hlensSelf, hwf, ?_, ?_, ?_⟩ <;>
      simp [hwp, hcur, hclen, LengthCount.increase_len_with_garbage]
  · unfold currentVal
    simp only []
    rw [hmapSelf]
  · intro k2 hk
    cases hlk : lookupA stR.map k2 with
    | none =>
      unfold currentVal
      simp only []
      rw [hmapNe k2 hk, hlk]
    | some idx =>
      obtain ⟨g, hg, h1, ⟨v, h2⟩, h3⟩ := hpt k2 idx hlk
      have hvR : currentVal stR k2 = some v := currentVal_pointed stR k2 idx g v hlk hg h1 h2
      rw [hvR]
      obtain ⟨g2, hg2, _, ⟨v2, h22⟩, h32⟩ := pointed_entry_append stR.files stR.term fA hfA
        (Command.Remove key) k2 idx ⟨g, hg, h1, ⟨v, h2⟩, h3⟩ (by simp [isSetOf])
      have hvE : v2 = v := by
        by_cases hq : idx.term = stR.term
        · rw [hq, hfA] at hg
          injection hg with hgf
          subst hgf
          rw [hq, lookupA_insertA_self] at hg2
          injection hg2 with hg3
          subst hg3
          obtain ⟨hlt, _⟩ := List.getElem?_eq_some.mp h2
          rw [List.getElem?_append_left hlt, h2] at h22
          injection h22 with h23
          injection h23 with h24 h25
          exact h25.symm
        · rw [lookupA_insertA_ne _ _ hq, hg] at hg2
          injection hg2 with hg3
          subst hg3
          rw [h2] at h22
          injection h22 with h23
          injection h23 with h24 h25
          exact h25.symm
      subst hvE
      refine currentVal_pointed _ k2 idx g2 v2 ?_ ?_ h1 h22
      · show lookupA (eraseA stR.map key) k2 = some idx
        rw [hmapNe k2 hk]
        exact hlk
      · show lookupA (insertA stR.files stR.writer_file _) idx.term = some g2
        rw [hwf]
        exact hg2

theorem sizes_of_active (st : KvStore)
    (hsz : ∀ t f, lookupA st.files t = some f → f.length ≤ MAX_NUM_COMMAND_PER_FILE)
    (hact : ActiveOK st) : SizesOK st := by
  obtain ⟨fA, cA, hfA, hcA, hwf, hwp, hcur, hclen⟩ := hact
  exact ⟨hsz, by rw [hcur]; exact hsz _ _ hfA⟩

theorem rotated_pieces (st : KvStore) (hinv : Inv st) :
    ∃ fA cA,
      ((keysOf (rotated st).map).Nodup ∧ (keysOf (rotated st).log_lengths).Nodup ∧
       (keysOf (rotated st).readers).Nodup ∧ (keysOf (rotated st).files).Nodup) ∧
      DomsOK (rotated st) ∧ CountsOK (rotated st) ∧
      (∀ t f, lookupA (rotated st).files t = some f →
         f.length ≤ MAX_NUM_COMMAND_PER_FILE) ∧
      PointedOK (rotated st) ∧
      lookupA (rotated st).files (rotated st).term = some fA ∧
      lookupA (rotated st).log_lengths (rotated st).term = some cA ∧
      (rotated st).writer_file = (rotated st).term ∧
      (rotated st).writer_pos = fA.length ∧
      (rotated st).current_log_len = fA.length ∧
      cA.len = fA.length ∧
      fA.length < MAX_NUM_COMMAND_PER_FILE ∧
      (∀ k, currentVal (rotated st) k = currentVal st k) ∧
      (rotated st).map = st.map := by
  obtain ⟨⟨ndm, ndl, ndr, ndf⟩, doms, cnts, ⟨hsz, hcle⟩, hpt, hAD⟩ := hinv
  have hM : MAX_NUM_COMMAND_PER_FILE = 10240 := rfl
  by_cases hrot : MAX_NUM_COMMAND_PER_FILE ≤ st.current_log_len
  · have hR : rotated st = breakToNewLogFile st := by
      unfold rotated
      rw [if_pos hrot]
    obtain ⟨⟨ndmB, ndlB, ndrB, ndfB⟩, domsB, cntsB, hszB, hptB, hactB, hcurB, hmapB,
      htermB, hcvB, hlowB⟩ := break_spec st NoExc ndm ndl ndr ndf doms cnts hsz hpt
    obtain ⟨fA, cA, hfA, hcA, hwf, hwp, hcur, hclen⟩ := hactB
    refine ⟨fA, cA, ?_⟩
    rw [hR]
    have hlen0 : fA.length = 0 := by omega
    exact ⟨⟨ndmB, ndlB, ndrB, ndfB⟩, domsB, cntsB, hszB, hptB, hfA, hcA, hwf, hwp,
      hcur, hclen, by omega, hcvB, hmapB⟩
  · have hR : rotated st = st := by
      unfold rotated
      rw [if_neg hrot]
    have hact : ActiveOK st := by
      rcases hAD with h | h
      · exact h
      · exact absurd (le_of_eq h.1.symm) hrot
    obtain ⟨fA, cA, hfA, hcA, hwf, hwp, hcur, hclen⟩ := hact
    refine ⟨fA, cA, ?_⟩
    rw [hR]
    exact ⟨⟨ndm, ndl, ndr, ndf⟩, doms, cnts, hsz, hpt, hfA, hcA, hwf, hwp, hcur,
      hclen, by omega, fun k => rfl, rfl⟩

theorem set_spec (st : KvStore) (key value : String) (st' : KvStore)
    (hinv : Inv st) (h : st.set key value = .ok st') :
    Inv st' ∧ currentVal st' key = some value ∧
    (∀ k2, k2 ≠ key → currentVal st' k2 = currentVal st k2) := by
  obtain ⟨fA, cA, ⟨ndm, ndl, ndr, ndf⟩, doms, cnts, hsz, hpt, hfA, hcA, hwf, hwp,
    hcur, hclen, hmax, hcv, hmapR⟩ := rotated_pieces st hinv
  have hwfA : lookupA (rotated st).files (rotated st).writer_file = some fA := by
    rw [hwf]
    exact hfA
  unfold KvStore.set at h
  cases hm : lookupA (rotated st).map key with
  | none =>
    have heq := setCore_fresh_eq st key value fA hwfA hm cA hcA
    simp only [heq] at h
    rw [if_neg (by decide : ¬ (0 : Nat) < 0)] at h
    injection h with h2
    subst h2
    obtain ⟨⟨nd1, nd2, nd3, nd4⟩, doms', cnts', hsz', hpt', hact', _, _, _, hcvk,
      hcvne, _⟩ := fresh_step (rotated st) NoExc key value fA cA ndm ndl ndr ndf
        doms cnts hsz hpt hfA hcA hwf hwp hcur hclen hmax hm _ rfl
    exact ⟨⟨⟨nd1, nd2, nd3, nd4⟩, doms', cnts', sizes_of_active _ hsz' hact', hpt',
      Or.inl hact'⟩, hcvk, fun k2 hk => by rw [hcvne k2 hk, hcv k2]⟩
  | some old =>
    by_cases ht : old.term = (rotated st).term
    · have heq := setCore_same_eq st key value fA hwfA old hm ht cA hcA
      simp only [heq] at h
      obtain ⟨⟨nd1, nd2, nd3, nd4⟩, doms', cnts', hsz', hpt', hact', hcvk, hcvne,
        hlensS'⟩ := same_step (rotated st) key value fA cA old ndm ndl ndr ndf doms
          cnts hsz hpt hfA hcA hwf hwp hcur hclen hmax hm ht _ rfl
      by_cases hgt : cA.increase_len_with_garbage.garbageRateGtThreshold = true
      · rw [if_pos hgt] at h
        by_cases hpos : 0 < (rotated st).term
        · rw [if_pos hpos] at h
          obtain ⟨stF, heqC, hinvF, hcvF, _, _, _, _⟩ := compaction_spec _
            (rotated st).term _ nd1 nd2 nd3 nd4 doms' cnts' hsz' hpt' hact' hlensS'
          rw [heqC] at h
          injection h with h2
          subst h2
          exact ⟨hinvF, by rw [hcvF key]; exact hcvk,
            fun k2 hk => by rw [hcvF k2, hcvne k2 hk, hcv k2]⟩
        · rw [if_neg hpos] at h
          injection h with h2
          subst h2
          exact ⟨⟨⟨nd1, nd2, nd3, nd4⟩, doms', cnts', sizes_of_active _ hsz' hact',
            hpt', Or.inl hact'⟩, hcvk, fun k2 hk => by rw [hcvne k2 hk, hcv k2]⟩
      · rw [if_neg hgt, if_neg (by decide : ¬ (0 : Nat) < 0)] at h
        injection h with h2
        subst h2
        exact ⟨⟨⟨nd1, nd2, nd3, nd4⟩, doms', cnts', sizes_of_active _ hsz' hact',
          hpt', Or.inl hact'⟩, hcvk, fun k2 hk => by rw [hcvne k2 hk, hcv k2]⟩
    · obtain ⟨g, hg, _, _, _⟩ := hpt key old hm
      have hoS : (lookupA (rotated st).log_lengths old.term).isSome :=
        doms.2.1 old.term (by rw [hg]; rfl)
      cases ho : lookupA (rotated st).log_lengths old.term with
      | none => rw [ho] at hoS; exact absurd hoS (by simp)
      | some oc =>
      have heq := setCore_old_eq st key value fA hwfA old hm ht oc ho cA hcA
      simp only [heq] at h
      obtain ⟨⟨nd1, nd2, nd3, nd4⟩, doms', cnts', hsz', hpt', hact', hcvk, hcvne,
        hlensO'⟩ := old_step (rotated st) key value fA cA old oc ndm ndl ndr ndf doms
          cnts hsz hpt hfA hcA hwf hwp hcur hclen hmax hm ht ho _ rfl
      by_cases hgt : oc.increase_garbage_len.garbageRateGtThreshold = true
      · rw [if_pos hgt] at h
        by_cases hpos : 0 < old.term
        · rw [if_pos hpos] at h
          obtain ⟨stF, heqC, hinvF, hcvF, _, _, _, _⟩ := compaction_spec _ old.term _
            nd1 nd2 nd3 nd4 doms' cnts' hsz' hpt' hact' hlensO'
          rw [heqC] at h
          injection h with h2
          subst h2
          exact ⟨hinvF, by rw [hcvF key]; exact hcvk,
            fun k2 hk => by rw [hcvF k2, hcvne k2 hk, hcv k2]⟩
        · rw [if_neg hpos] at h
          injection h with h2
          subst h2
          exact ⟨⟨⟨nd1, nd2, nd3, nd4⟩, doms', cnts', sizes_of_active _ hsz' hact',
            hpt', Or.inl hact'⟩, hcvk, fun k2 hk => by rw [hcvne k2 hk, hcv k2]⟩
      · rw [if_neg hgt, if_neg (by decide : ¬ (0 : Nat) < 0)] at h
        injection h with h2
        subst h2
        exact ⟨⟨⟨nd1, nd2, nd3, nd4⟩, doms', cnts', sizes_of_active _ hsz' hact',
          hpt', Or.inl hact'⟩, hcvk, fun k2 hk => by rw [hcvne k2 hk, hcv k2]⟩

theorem remove_spec (st : KvStore) (key : String) (st' : KvStore)
    (hinv : Inv st) (h : st.remove key = .ok st') :
    Inv st' ∧ currentVal st' key = none ∧
    (∀ k2, k2 ≠ key → currentVal st' k2 = currentVal st k2) := by
  obtain ⟨fA, cA, ⟨ndm, ndl, ndr, ndf⟩, doms, cnts, hsz, hpt, hfA, hcA, hwf, hwp,
    hcur, hclen, hmax, hcv, hmapR⟩ := rotated_pieces st hinv
  have hwfA : lookupA (rotated st).files (rotated st).writer_file = some fA := by
    rw [hwf]
    exact hfA
  cases hm : lookupA st.map key with
  | none =>
    unfold KvStore.remove at h
    rw [hm] at h
    simp at h
  | some old =>
    have hmR : lookupA (rotated st).map key = some old := by
      rw [hmapR]
      exact hm
    by_cases ht : old.term = (rotated st).term
    · have heq := remove_same_eq st key fA hwfA old hm hmR ht cA hcA
      rw [heq] at h
      obtain ⟨⟨nd1, nd2, nd3, nd4⟩, doms', cnts', hsz', hpt', hact', hcvk, hcvne,
        hlensS'⟩ := rem_same_step (rotated st) key fA cA old ndm ndl ndr ndf doms
          cnts hsz hpt hfA hcA hwf hwp hcur hclen hmax hmR ht _ rfl
      by_cases hgt :
          cA.increase_garbage_len.increase_len_with_garbage.garbageRateGtThreshold = true
      · rw [if_pos hgt] at h
        by_cases hpos : 0 < (rotated st).term
        · rw [if_pos hpos] at h
          obtain ⟨stF, heqC, hinvF, hcvF, _, _, _, _⟩ := compaction_spec _
            (rotated st).term _ nd1 nd2 nd3 nd4 doms' cnts' hsz' hpt' hact' hlensS'
          rw [heqC] at h
          injection h with h2
          subst h2
          exact ⟨hinvF, by rw [hcvF key]; exact hcvk,
            fun k2 hk => by rw [hcvF k2, hcvne k2 hk, hcv k2]⟩
        · rw [if_neg hpos] at h
          injection h with h2
          subst h2
          exact ⟨⟨⟨nd1, nd2, nd3, nd4⟩, doms', cnts', sizes_of_active _ hsz' hact',
            hpt', Or.inl hact'⟩, hcvk, fun k2 hk => by rw [hcvne k2 hk, hcv k2]⟩
      · rw [if_neg hgt, if_neg (by decide : ¬ (0 : Nat) < 0)] at h
        injection h with h2
        subst h2
        exact ⟨⟨⟨nd1, nd2, nd3, nd4⟩, doms', cnts', sizes_of_active _ hsz' hact',
          hpt', Or.inl hact'⟩, hcvk, fun k2 hk => by rw [hcvne k2 hk, hcv k2]⟩
    · obtain ⟨g, hg, _, _, _⟩ := hpt key old hmR
      have hoS : (lookupA (rotated st).log_lengths old.term).isSome :=
        doms.2.1 old.term (by rw [hg]; rfl)
      cases ho : lookupA (rotated st).log_lengths old.term with
      | none => rw [ho] at hoS; exact absurd hoS (by simp)
      | some oc =>
      have heq := remove_old_eq st key fA hwfA old hm hmR ht oc ho cA hcA
      rw [heq] at h
      obtain ⟨⟨nd1, nd2, nd3, nd4⟩, doms', cnts', hsz', hpt', hact', hcvk, hcvne,
        hlensO'⟩ := rem_old_step (rotated st) key fA cA old oc ndm ndl ndr ndf doms
          cnts hsz hpt hfA hcA hwf hwp hcur hclen hmax hmR ht ho _ rfl
      by_cases hgt : oc.increase_garbage_len.garbageRateGtThreshold = true
      · rw [if_pos hgt] at h
        by_cases hpos : 0 < old.term
        · rw [if_pos hpos] at h
          obtain ⟨stF, heqC, hinvF, hcvF, _, _, _, _⟩ := compaction_spec _ old.term _
            nd1 nd2 nd3 nd4 doms' cnts' hsz' hpt' hact' hlensO'
          rw [heqC] at h
          injection h with h2
          subst h2
          exact ⟨hinvF, by rw [hcvF key]; exact hcvk,
            fun k2 hk => by rw [hcvF k2, hcvne k2 hk, hcv k2]⟩
        · rw [if_neg hpos] at h
          injection h with h2
          subst h2
          exact ⟨⟨⟨nd1, nd2, nd3, nd4⟩, doms', cnts', sizes_of_active _ hsz' hact',
            hpt', Or.inl hact'⟩, hcvk, fun k2 hk => by rw [hcvne k2 hk, hcv k2]⟩
      · rw [if_neg hgt, if_neg (by decide : ¬ (0 : Nat) < 0)] at h
        injection h with h2
        subst h2
        exact ⟨⟨⟨nd1, nd2, nd3, nd4⟩, doms', cnts', sizes_of_active _ hsz' hact',
          hpt', Or.inl hact'⟩, hcvk, fun k2 hk => by rw [hcvne k2 hk, hcv k2]⟩

theorem Inv_readers_touch (st : KvStore) (t pos : Nat) (hinv : Inv st)
    (hrd : (lookupA st.readers t).isSome) :
    Inv { st with readers := insertA st.readers t pos } := by
  obtain ⟨⟨ndm, ndl, ndr, ndf⟩, ⟨d1, d2, d3⟩, cnts, ⟨hsz, hcl⟩, hpt, hAD⟩ := hinv
  have hrEq : ∀ u, (lookupA (insertA st.readers t pos) u).isSome
      = (lookupA st.readers u).isSome := by
    intro u
    by_cases hq : u = t
    · subst hq
      rw [lookupA_insertA_self]
      cases hr2 : lookupA st.readers u with
      | none => rw [hr2] at hrd; exact absurd hrd (by simp)
      | some x => rfl
    · rw [lookupA_insertA_ne _ _ hq]
  refine ⟨⟨ndm, ndl, ?_, ndf⟩, ⟨?_, ?_, ?_⟩, cnts, ⟨hsz, hcl⟩, hpt, hAD⟩
  · show (keysOf (insertA st.readers t pos)).Nodup
    rw [keysOf_insertA_of_some _ _ _ hrd]
    exact ndr
  · intro u hu
    refine ⟨(d1 u hu).1, fun hx => ?_, (d1 u hu).2.2⟩
    show (lookupA (insertA st.readers t pos) u).isSome
    rw [hrEq u]
    exact (d1 u hu).2.1 hx
  · exact d2
  · intro u hu
    apply d3 u
    show (lookupA st.readers u).isSome
    rw [← hrEq u]
    exact hu

theorem get_spec (st : KvStore) (key : String) (hinv : Inv st) :
    (getOp st key).2 = .ok (currentVal st key) ∧ Inv (getOp st key).1 ∧
    (∀ k2, currentVal (getOp st key).1 k2 = currentVal st k2) := by
  obtain ⟨nds, doms, cnts, hszP, hpt, hAD⟩ := hinv
  cases hm : lookupA st.map key with
  | none =>
    simp only [getOp, hm]
    refine ⟨?_, ⟨nds, doms, cnts, hszP, hpt, hAD⟩, fun _ => trivial⟩
    unfold currentVal
    rw [hm]
  | some idx =>
    obtain ⟨f, hf, h1, ⟨v, h2⟩, h3⟩ := hpt key idx hm
    have hlS : (lookupA st.log_lengths idx.term).isSome :=
      doms.2.1 idx.term (by rw [hf]; rfl)
    have hrS : (lookupA st.readers idx.term).isSome := by
      cases hlens : lookupA st.log_lengths idx.term with
      | none => rw [hlens] at hlS; exact absurd hlS (by simp)
      | some c => exact (doms.1 idx.term (by rw [hlens]; rfl)).2.1 (fun hx => hx)
    cases hrd : lookupA st.readers idx.term with
    | none => rw [hrd] at hrS; exact absurd hrS (by simp)
    | some pos =>
    have hbuf : (f.drop idx.head).take (idx.tail - idx.head) = [Command.Set key v] := by
      rw [h1]
      have h4 : idx.head + 1 - idx.head = 1 := by omega
      rw [h4]
      exact take_one_drop f idx.head _ h2
    have hval : currentVal st key = some v := currentVal_pointed st key idx f v hm hf h1 h2
    simp only [getOp, hm, hrd, hf]
    refine ⟨?_, ?_, fun k2 => rfl⟩
    · rw [hbuf, h1]
      have h4 : idx.head + 1 - idx.head = 1 := by omega
      rw [h4, if_neg (by simp), hval]
      rfl
    · exact Inv_readers_touch st idx.term idx.tail ⟨nds, doms, cnts, hszP, hpt, hAD⟩
        (by rw [hrd]; rfl)

theorem Inv_runFrom (ops : List Op) :
    ∀ st st', Inv st → runFrom st ops = .ok st' → Inv st' := by
  induction ops with
  | nil =>
    intro st st' hinv h
    unfold runFrom at h
    injection h with h2
    subst h2
    exact hinv
  | cons op rest ih =>
    intro st st' hinv h
    unfold runFrom at h
    cases hs : runStep st op with
    | error e =>
      rw [hs] at h
      simp at h
    | ok st1 =>
      rw [hs] at h
      have hinv1 : Inv st1 := by
        cases op with
        | oset k v => exact (set_spec st k v st1 hinv hs).1
        | oremove k => exact (remove_spec st k st1 hinv hs).1
        | oget k =>
          injection hs with h3
          rw [← h3]
          exact (get_spec st k hinv).2.1
      exact ih st1 st' hinv1 h

theorem Inv_reachable (st : KvStore) (h : Reachable st) : Inv st := by
  obtain ⟨ops, hops⟩ := h
  exact Inv_runFrom ops openEmpty st Inv_openEmpty hops

theorem Inv_stC4 : Inv stC4 := by
  refine ⟨⟨by decide, by decide, by decide, by decide⟩, ⟨?_, ?_, ?_⟩, ?_,
    ⟨?_, by decide⟩, ?_, Or.inl ⟨[Command.Remove "a", Command.Remove "b"], ⟨2, 2⟩,
      rfl, rfl, rfl, rfl, rfl, rfl⟩⟩
  · intro t ht
    have h2 : t ∈ keysOf stC4.log_lengths := (mem_keysOf_iff _ t).mpr ht
    have h3 : t = 1 ∨ t = 2 := by simpa [stC4, keysOf] using h2
    rcases h3 with rfl | rfl <;> exact ⟨by decide, fun hx => by decide, by decide⟩
  · intro t ht
    have h2 : t ∈ keysOf stC4.files := (mem_keysOf_iff _ t).mpr ht
    have h3 : t = 1 ∨ t = 2 := by simpa [stC4, keysOf] using h2
    rcases h3 with rfl | rfl <;> exact by decide
  · intro t ht
    have h2 : t ∈ keysOf stC4.readers := (mem_keysOf_iff _ t).mpr ht
    have h3 : t = 1 ∨ t = 2 := by simpa [stC4, keysOf] using h2
    rcases h3 with rfl | rfl <;> exact by decide
  · intro t c hc
    have h2 : t ∈ keysOf stC4.log_lengths :=
      (mem_keysOf_iff _ t).mpr (by rw [hc]; rfl)
    have h3 : t = 1 ∨ t = 2 := by simpa [stC4, keysOf] using h2
    rcases h3 with rfl | rfl
    · have he : lookupA stC4.log_lengths 1 = some ⟨4, 2⟩ := rfl
      rw [he] at hc
      injection hc with h4
      subst h4
      exact ⟨by decide, fun hx => by decide⟩
    · have he : lookupA stC4.log_lengths 2 = some ⟨2, 2⟩ := rfl
      rw [he] at hc
      injection hc with h4
      subst h4
      exact ⟨by decide, fun hx => by decide⟩
  · intro t f hf
    have h2 : t ∈ keysOf stC4.files :=
      (mem_keysOf_iff _ t).mpr (by rw [hf]; rfl)
    have h3 : t = 1 ∨ t = 2 := by simpa [stC4, keysOf] using h2
    rcases h3 with rfl | rfl
    · have he : lookupA stC4.files 1 = some [Command.Set "a" "1", Command.Set "b" "2",
        Command.Set "c" "3", Command.Set "d" "4"] := rfl
      rw [he] at hf
      injection hf with h4
      subst h4
      decide
    · have he : lookupA stC4.files 2
          = some [Command.Remove "a", Command.Remove "b"] := rfl
      rw [he] at hf
      injection hf with h4
      subst h4
      decide
  · intro k idx hlk
    have h2 : k ∈ keysOf stC4.map :=
      (mem_keysOf_iff _ k).mpr (by rw [hlk]; rfl)
    have h3 : k = "c" ∨ k = "d" := by simpa [stC4, keysOf] using h2
    rcases h3 with rfl | rfl
    · have he : lookupA stC4.map "c" = some ⟨1, 2, 3⟩ := rfl
      rw [he] at hlk
      injection hlk with h4
      subst h4
      exact ⟨[Command.Set "a" "1", Command.Set "b" "2", Command.Set "c" "3",
        Command.Set "d" "4"], rfl, rfl, ⟨"3", rfl⟩, by decide⟩
    · have he : lookupA stC4.map "d" = some ⟨1, 3, 4⟩ := rfl
      rw [he] at hlk
      injection hlk with h4
      subst h4
      exact ⟨[Command.Set "a" "1", Command.Set "b" "2", Command.Set "c" "3",
        Command.Set "d" "4"], rfl, rfl, ⟨"4", rfl⟩, by decide⟩

theorem runFrom_specVal (ops : List Op) :
    ∀ st0 st, Inv st0 → runFrom st0 ops = .ok st →
    ∀ k, currentVal st k = ops.foldl (specUpd k) (currentVal st0 k) := by
  induction ops with
  | nil =>
    intro st0 st hinv h k
    unfold runFrom at h
    injection h with h2
    subst h2
    rfl
  | cons op rest ih =>
    intro st0 st hinv h k
    unfold runFrom at h
    cases hs : runStep st0 op with
    | error e =>
      rw [hs] at h
      simp at h
    | ok st1 =>
      rw [hs] at h
      have h1 : currentVal st1 k = specUpd k (currentVal st0 k) op := by
        cases op with
        | oset k2 v =>
          obtain ⟨_, hck, hcne⟩ := set_spec st0 k2 v st1 hinv hs
          simp only [specUpd]
          by_cases hq : k2 = k
          · subst hq
            rw [if_pos rfl]
            exact hck
          · rw [if_neg hq]
            exact hcne k (fun hc => hq hc.symm)
        | oremove k2 =>
          obtain ⟨_, hck, hcne⟩ := remove_spec st0 k2 st1 hinv hs
          simp only [specUpd]
          by_cases hq : k2 = k
          · subst hq
            rw [if_pos rfl]
            exact hck
          · rw [if_neg hq]
            exact hcne k (fun hc => hq hc.symm)
        | oget k2 =>
          injection hs with h3
          rw [← h3]
          simp only [specUpd]
          exact (get_spec st0 k2 hinv).2.2 k
      have hinv1 : Inv st1 := by
        cases op with
        | oset k2 v => exact (set_spec st0 k2 v st1 hinv hs).1
        | oremove k2 => exact (remove_spec st0 k2 st1 hinv hs).1
        | oget k2 =>
          injection hs with h3
          rw [← h3]
          exact (get_spec st0 k2 hinv).2.1
      rw [List.foldl_cons, ← h1]
      exact ih st1 st hinv1 h k

/-- Claim C1: after every successfully completed sequence of operations
starting from a store opened on an empty directory, `get(k)` returns (as
`Ok`, never as an error) exactly the abstract history value: the value of
the most recent `set(k, v)` of the sequence unless a later `remove(k)`
occurred, and `none` for a key never set. -/
theorem C1_get_returns_latest_surviving_set (ops : List Op) (st : KvStore)
    (h : runOps ops = .ok st) (k : String) :
    (getOp st k).2 = .ok (specVal ops k) := by
  have hinv : Inv st := Inv_runFrom ops openEmpty st Inv_openEmpty h
  have h2 := (get_spec st k hinv).1
  have h4 := runFrom_specVal ops openEmpty st Inv_openEmpty h k
  rw [h2, h4]
  rfl

/-- Witness for C1 at a concrete run: set `"a"` twice, remove it, set `"d"`;
`get "a"` returns the history value (`none`), `get "d"` its value. -/
theorem C1_witness :
    runOps [Op.oset "a" "b", Op.oset "a" "c", Op.oremove "a", Op.oset "d" "e"]
      = .ok (stateAfter [Op.oset "a" "b", Op.oset "a" "c", Op.oremove "a",
          Op.oset "d" "e"]) ∧
    (getOp (stateAfter [Op.oset "a" "b", Op.oset "a" "c", Op.oremove "a",
        Op.oset "d" "e"]) "a").2
      = .ok (specVal [Op.oset "a" "b", Op.oset "a" "c", Op.oremove "a",
          Op.oset "d" "e"] "a") ∧
    (getOp (stateAfter [Op.oset "a" "b", Op.oset "a" "c", Op.oremove "a",
        Op.oset "d" "e"]) "d").2
      = .ok (specVal [Op.oset "a" "b", Op.oset "a" "c", Op.oremove "a",
          Op.oset "d" "e"] "d") :=
  ⟨rfl,
   C1_get_returns_latest_surviving_set
     [Op.oset "a" "b", Op.oset "a" "c", Op.oremove "a", Op.oset "d" "e"]
     (stateAfter [Op.oset "a" "b", Op.oset "a" "c", Op.oremove "a", Op.oset "d" "e"])
     rfl "a",
   C1_get_returns_latest_surviving_set
     [Op.oset "a" "b", Op.oset "a" "c", Op.oremove "a", Op.oset "d" "e"]
     (stateAfter [Op.oset "a" "b", Op.oset "a" "c", Op.oremove "a", Op.oset "d" "e"])
     rfl "d"⟩

/-- Claim C2: in every reachable state — i.e. after every completed public
operation, including any inline rotation or compaction — each stats entry's
`effective_len` (`len - garbage`) equals the number of index entries whose
segment field is that segment. -/
theorem C2_effective_len_counts_index_entries (st : KvStore) (h : Reachable st)
    (s : Nat) (c : LengthCount) (hc : lookupA st.log_lengths s = some c) :
    c.effective_len = countTerm st.map s := by
  obtain ⟨_, _, cnts, _, _, _⟩ := Inv_reachable st h
  exact (cnts s c hc).2 (fun hx => hx)

/-- Witness for C2 at a concrete reachable state. -/
theorem C2_witness :
    Reachable (stateAfter [Op.oset "a" "b"]) ∧
    lookupA (stateAfter [Op.oset "a" "b"]).log_lengths 1 = some ⟨1, 0⟩ ∧
    (⟨1, 0⟩ : LengthCount).effective_len
      = countTerm (stateAfter [Op.oset "a" "b"]).map 1 :=
  ⟨⟨[Op.oset "a" "b"], rfl⟩, rfl,
   C2_effective_len_counts_index_entries (stateAfter [Op.oset "a" "b"])
     ⟨[Op.oset "a" "b"], rfl⟩ 1 ⟨1, 0⟩ rfl⟩

/-- Claim C3: a completed compaction of segment `s` removes `s`'s file, stats
entry and reader, and every key whose index entry pointed into `s` just
before still `get`s its prior value (as does every other key). -/
theorem C3_compaction_drops_segment_preserves_gets (st : KvStore) (s : Nat)
    (c : LengthCount) (stF : KvStore) (hinv : Inv st) (hact : ActiveOK st)
    (hc : lookupA st.log_lengths s = some c) (h : compaction st s = .ok stF) :
    lookupA stF.files s = none ∧ lookupA stF.log_lengths s = none ∧
    lookupA stF.readers s = none ∧
    (∀ k idx, lookupA st.map k = some idx → idx.term = s →
       currentVal stF k = currentVal st k) := by
  obtain ⟨⟨ndm, ndl, ndr, ndf⟩, doms, cnts, ⟨hsz, hcl⟩, hpt, hAD⟩ := hinv
  obtain ⟨stF2, heq, _, hcv, h1, h2, h3, _⟩ :=
    compaction_spec st s c ndm ndl ndr ndf doms cnts hsz hpt hact hc
  rw [heq] at h
  injection h with h4
  subst h4
  exact ⟨h2, h1, h3, fun k idx _ _ => hcv k⟩

/-- Witness for C3: compacting segment 1 of the store reached by
`set "a" "b"` deletes segment 1 and preserves `get "a"`. -/
theorem C3_witness :
    compaction (stateAfter [Op.oset "a" "b"]) 1
      = .ok ((compaction (stateAfter [Op.oset "a" "b"]) 1).toOption.getD openEmpty) ∧
    lookupA ((compaction (stateAfter [Op.oset "a" "b"]) 1).toOption.getD
        openEmpty).files 1 = none ∧
    currentVal ((compaction (stateAfter [Op.oset "a" "b"]) 1).toOption.getD openEmpty)
        "a"
      = currentVal (stateAfter [Op.oset "a" "b"]) "a" := by
  have hc3 := C3_compaction_drops_segment_preserves_gets
    (stateAfter [Op.oset "a" "b"]) 1 ⟨1, 0⟩
    ((compaction (stateAfter [Op.oset "a" "b"]) 1).toOption.getD openEmpty)
    (Inv_reachable _ ⟨[Op.oset "a" "b"], rfl⟩)
    ⟨[Command.Set "a" "b"], ⟨1, 0⟩, rfl, rfl, rfl, rfl, rfl, rfl⟩ rfl rfl
  exact ⟨rfl, hc3.1, hc3.2.2.2 "a" ⟨1, 0, 1⟩ rfl rfl⟩

/-- C4 counterexample: in `stC4` (which satisfies the store invariant) the
active segment 2 has `len = 2 > 0` and `garbage_rate = 1 > 0.618`, yet
`set` of the fresh key `"x"` completes with no compaction at all: segment 2
and its stats survive (one record longer, garbage intact, still over the
threshold), because the write path of a key absent from the index performs
no garbage-rate check on any segment. -/
theorem C4_counterexample :
    Inv stC4 ∧
    lookupA stC4.log_lengths stC4.term = some ⟨2, 2⟩ ∧
    0 < (⟨2, 2⟩ : LengthCount).len ∧
    (⟨2, 2⟩ : LengthCount).garbageRateGtThreshold = true ∧
    lookupA stC4.map "x" = none ∧
    KvStore.set stC4 "x" "vx" = .ok stC4' ∧
    lookupA stC4'.log_lengths 2 = some ⟨3, 2⟩ ∧
    lookupA stC4'.files 2
      = some [Command.Remove "a", Command.Remove "b", Command.Set "x" "vx"] ∧
    (⟨3, 2⟩ : LengthCount).garbageRateGtThreshold = true :=
  ⟨Inv_stC4, rfl, by decide, by decide, rfl, rfl, rfl, rfl, by decide⟩

/-- C6 counterexample: replaying a `Remove` of a key absent from the index
leaves the segment counter untouched — the record is counted neither in
`len` nor as garbage (only `current_log_len` grows), contrary to the claimed
`len + 1` / `garbage + 1`. -/
theorem C6_counterexample :
    replayRecords 1 [Command.Remove "k"] 0 [] [] LengthCount.new 0
      = .ok ([], [], ⟨0, 0⟩, 1) ∧
    ¬ replayRecords 1 [Command.Remove "k"] 0 [] [] LengthCount.new 0
      = .ok ([], [], ⟨1, 1⟩, 1) := by
  refine ⟨rfl, fun hc => ?_⟩
  have h0 : replayRecords 1 [Command.Remove "k"] 0 [] [] LengthCount.new 0
      = .ok ([], [], ⟨0, 0⟩, 1) := rfl
  rw [h0] at hc
  simp at hc

/-- Claim C6 (amended): during recovery, a `Remove` record for a key absent
from the index at that point of the replay is ignored for the index (with a
warning) and counted ONLY in the segment's record count
(`current_log_len`); it is NOT counted in the segment's `len` and NOT
counted as garbage. -/
theorem C6_amended_orphan_remove_only_counts_record (t : Nat) (k : String)
    (rest : List Command) (head : Nat) (m : List (String × ValueIndex))
    (lens : List (Nat × LengthCount)) (cnt : LengthCount) (curLen : Nat)
    (hm : lookupA m k = none) :
    replayRecords t (Command.Remove k :: rest) head m lens cnt curLen
      = replayRecords t rest (head + 1) m lens cnt (curLen + 1) := by
  have hstep : replayRecords t (Command.Remove k :: rest) head m lens cnt curLen
      = replayRecords t rest (head + 1) (eraseA m k) lens cnt (curLen + 1) := by
    conv_lhs => unfold replayRecords
    simp only [hm]
  rw [hstep, eraseA_of_lookupA_none m k hm]

/-- Witness for the amended C6 at a concrete input. -/
theorem C6_witness :
    lookupA ([] : List (String × ValueIndex)) "k" = none ∧
    replayRecords 1 [Command.Remove "k"] 0 [] [] LengthCount.new 0
      = replayRecords 1 [] 1 [] [] LengthCount.new 1 :=
  ⟨rfl, C6_amended_orphan_remove_only_counts_record 1 "k" [] 0 [] []
    LengthCount.new 0 rfl⟩

/-- Claim C7: no segment file of a reachable state ever holds more than
`MAX_RECORDS_PER_SEGMENT` (= `MAX_NUM_COMMAND_PER_FILE`) records. -/
theorem C7_segment_never_exceeds_max_records (st : KvStore) (h : Reachable st)
    (t : Nat) (f : List Command) (hf : lookupA st.files t = some f) :
    f.length ≤ MAX_NUM_COMMAND_PER_FILE := by
  obtain ⟨_, _, _, ⟨hsz, _⟩, _, _⟩ := Inv_reachable st h
  exact hsz t f hf

/-- Witness for C7 at a concrete reachable state. -/
theorem C7_witness :
    Reachable (stateAfter [Op.oset "a" "b"]) ∧
    lookupA (stateAfter [Op.oset "a" "b"]).files 1 = some [Command.Set "a" "b"] ∧
    [Command.Set "a" "b"].length ≤ MAX_NUM_COMMAND_PER_FILE :=
  ⟨⟨[Op.oset "a" "b"], rfl⟩, rfl,
   C7_segment_never_exceeds_max_records (stateAfter [Op.oset "a" "b"])
     ⟨[Op.oset "a" "b"], rfl⟩ 1 [Command.Set "a" "b"] rfl⟩

/-- Claim C8: whenever the store invariant holds (as it does at every point
a compaction is started from normal operation), the live records collected
from a segment's file are exactly as many as `stats[s].effective_len`, so
the fatal sanity-check branch comparing the two cannot fire. -/
theorem C8_live_records_match_effective_len (st : KvStore) (s : Nat)
    (c : LengthCount) (f : List Command) (hinv : Inv st)
    (hc : lookupA st.log_lengths s = some c)
    (hf : lookupA st.files s = some f) :
    (liveScan st.map s f []).length = c.effective_len := by
  obtain ⟨⟨ndm, _, _, _⟩, _, cnts, _, hpt, _⟩ := hinv
  have hcnt := (cnts s c hc).2 (fun hx => hx)
  have hpt2 : ∀ k idx, lookupA st.map k = some idx → idx.term = s →
      ∃ v, f[idx.head]? = some (Command.Set k v) := by
    intro k idx hlk hts
    obtain ⟨g, hg, _, ⟨v, hv⟩, _⟩ := hpt k idx hlk
    rw [hts, hf] at hg
    injection hg with hg2
    subst hg2
    exact ⟨v, hv⟩
  rw [liveScan_length st.map s f ndm hpt2]
  have h5 : c.effective_len = c.len - c.len_garbage := rfl
  rw [h5, hcnt]

/-- Witness for C8 at a concrete reachable state. -/
theorem C8_witness :
    Inv (stateAfter [Op.oset "a" "b"]) ∧
    (liveScan (stateAfter [Op.oset "a" "b"]).map 1 [Command.Set "a" "b"] []).length
      = (⟨1, 0⟩ : LengthCount).effective_len :=
  ⟨Inv_reachable _ ⟨[Op.oset "a" "b"], rfl⟩,
   C8_live_records_match_effective_len (stateAfter [Op.oset "a" "b"]) 1 ⟨1, 0⟩
     [Command.Set "a" "b"] (Inv_reachable _ ⟨[Op.oset "a" "b"], rfl⟩) rfl rfl⟩

/-- Claim C9 (code bug): opening a directory holding only non-numeric
entries does NOT behave like opening an empty directory.  The emptiness
test counts every directory entry before the numeric filter runs, so the
empty-directory initialization is skipped: recovery ends with `term = 0`
(not 1), no reader and no stats (`stNoNum ≠ openEmpty`).  The divergence is
observable: after `set "a" "b"`, `get "a"` hits the missing-reader `expect`
(fatal) instead of returning the value as it does from a genuinely empty
directory. -/
theorem C9_nonnumeric_only_dir_not_like_empty :
    openDir [] = .ok openEmpty ∧
    openDir [("foo", [])] = .ok stNoNum ∧
    stNoNum ≠ openEmpty ∧
    KvStore.set stNoNum "a" "b" = .ok stNoNum' ∧
    (getOp stNoNum' "a").2 = .error .fatal ∧
    (getOp (stateAfter [Op.oset "a" "b"]) "a").2 = .ok (some "b") :=
  ⟨rfl, rfl, by decide, rfl, rfl, rfl⟩

theorem insertA_isSome_mono {κ β : Type} [DecidableEq κ] (l : List (κ × β)) (k : κ)
    (v : β) (t : κ) (h : (lookupA l t).isSome) :
    (lookupA (insertA l k v) t).isSome := by
  by_cases hq : t = k
  · subst hq
    rw [lookupA_insertA_self]
    rfl
  · rw [lookupA_insertA_ne _ _ hq]
    exact h

theorem rotated_lens_mono (st : KvStore) (t : Nat)
    (h : (lookupA st.log_lengths t).isSome) :
    (lookupA (rotated st).log_lengths t).isSome := by
  unfold rotated
  split
  · exact insertA_isSome_mono st.log_lengths (st.term + 1) LengthCount.new t h
  · exact h

/-- Every segment id of the rotated store is positive when every segment id
of the store is: rotation only adds the id `term + 1`. -/
theorem rotated_seg_pos (st : KvStore)
    (hseg : ∀ t, (lookupA st.log_lengths t).isSome → 1 ≤ t) :
    ∀ t, (lookupA (rotated st).log_lengths t).isSome → 1 ≤ t := by
  intro t ht
  unfold rotated at ht
  by_cases hr : MAX_NUM_COMMAND_PER_FILE ≤ st.current_log_len
  · rw [if_pos hr] at ht
    have hb : (breakToNewLogFile st).log_lengths
        = insertA st.log_lengths (st.term + 1) LengthCount.new := rfl
    rw [hb] at ht
    by_cases hq : t = st.term + 1
    · omega
    · rw [lookupA_insertA_ne _ _ hq] at ht
      exact hseg t ht
  · rw [if_neg hr] at ht
    exact hseg t ht

/-- The write path never drops a stats entry: `setCore` only rotates (an
insert) and inserts into `log_lengths`. -/
theorem setCore_lens_mono (st0 : KvStore) (key value : String) (p : KvStore × Nat)
    (h : setCore st0 key value = .ok p) (t : Nat)
    (ht : (lookupA st0.log_lengths t).isSome) :
    (lookupA p.1.log_lengths t).isSome := by
  have htR : (lookupA (rotated st0).log_lengths t).isSome := rotated_lens_mono st0 t ht
  unfold setCore at h
  set str := rotated st0 with hstr
  cases hf : lookupA str.files str.writer_file with
  | none =>
    simp only [hf] at h
    exact Except.noConfusion h
  | some f =>
    simp only [hf] at h
    cases hm : lookupA str.map key with
    | some old =>
      simp only [hm] at h
      by_cases hq : old.term = str.term
      · simp only [if_pos hq] at h
        cases hc : lookupA str.log_lengths str.term with
        | none =>
          simp only [hc] at h
          exact Except.noConfusion h
        | some c =>
          simp only [hc] at h
          injection h with h2
          subst h2
          show (lookupA (insertA str.log_lengths str.term
              c.increase_len_with_garbage) t).isSome
          exact insertA_isSome_mono _ _ _ _ htR
      · simp only [if_neg hq] at h
        cases ho : lookupA str.log_lengths old.term with
        | none =>
          simp only [ho] at h
          exact Except.noConfusion h
        | some oc =>
          simp only [ho] at h
          cases hcc : lookupA (insertA str.log_lengths old.term
              oc.increase_garbage_len) str.term with
          | none =>
            simp only [hcc] at h
            exact Except.noConfusion h
          | some cc =>
            simp only [hcc] at h
            injection h with h2
            subst h2
            show (lookupA (insertA (insertA str.log_lengths old.term
                oc.increase_garbage_len) str.term cc.increase_len) t).isSome
            exact insertA_isSome_mono _ _ _ _ (insertA_isSome_mono _ _ _ _ htR)
    | none =>
      simp only [hm] at h
      cases hc : lookupA str.log_lengths str.term with
      | some c =>
        simp only [hc] at h
        injection h with h2
        subst h2
        show (lookupA (insertA str.log_lengths str.term c.increase_len) t).isSome
        exact insertA_isSome_mono _ _ _ _ htR
      | none =>
        simp only [hc] at h
        injection h with h2
        subst h2
        show (lookupA (insertA str.log_lengths str.term
            LengthCount.new.increase_len) t).isSome
        exact insertA_isSome_mono _ _ _ _ htR

/-- The compaction rewrite loop never drops a stats entry. -/
theorem compactLoop_lens_mono :
    ∀ (live : List (String × String)) (st st2 : KvStore),
    compactLoop st live = .ok st2 → ∀ t,
    (lookupA st.log_lengths t).isSome → (lookupA st2.log_lengths t).isSome := by
  intro live
  induction live with
  | nil =>
    intro st st2 h t ht
    unfold compactLoop at h
    injection h with h2
    subst h2
    exact ht
  | cons pr rest ih =>
    obtain ⟨k, v⟩ := pr
    intro st st2 h t ht
    unfold compactLoop at h
    by_cases hk : (lookupA st.map k).isSome = true
    · rw [if_pos hk] at h
      cases hs : setCore { st with map := eraseA st.map k } k v with
      | error e =>
        rw [hs] at h
        exact Except.noConfusion h
      | ok p =>
        obtain ⟨st1, ct⟩ := p
        simp only [hs] at h
        have ht1 : (lookupA st1.log_lengths t).isSome :=
          setCore_lens_mono _ k v (st1, ct) hs t ht
        exact ih st1 st2 h t ht1
    · rw [if_neg hk] at h
      exact Except.noConfusion h

/-- `compactionBody st s` erases only segment `s` from the stats: every other
segment present before is present after. -/
theorem compactionBody_lens_mono (st : KvStore) (s : Nat) (stF : KvStore)
    (h : compactionBody st s = .ok stF) (t : Nat) (hts : t ≠ s)
    (ht : (lookupA st.log_lengths t).isSome) :
    (lookupA stF.log_lengths t).isSome := by
  unfold compactionBody at h
  simp only [] at h
  split at h
  · exact Except.noConfusion h
  · split at h
    · exact Except.noConfusion h
    · split at h
      · exact Except.noConfusion h
      · split at h
        · split at h
          · exact Except.noConfusion h
          · rename_i st2 hcl
            split at h
            · split at h
              · injection h with h2
                subst h2
                show (lookupA (eraseA st2.log_lengths s) t).isSome
                rw [lookupA_eraseA_ne _ hts]
                exact compactLoop_lens_mono _ _ _ hcl t ht
              · exact Except.noConfusion h
            · exact Except.noConfusion h
        · exact Except.noConfusion h

/-- A completed `compaction st s` erases only segment `s`: every other
segment with a stats entry before it still has one after it. -/
theorem compaction_lens_mono (st : KvStore) (s : Nat) (stF : KvStore)
    (h : compaction st s = .ok stF) (t : Nat) (hts : t ≠ s)
    (ht : (lookupA st.log_lengths t).isSome) :
    (lookupA stF.log_lengths t).isSome := by
  unfold compaction at h
  by_cases hpre : s = st.term ∧ st.current_log_len < MAX_NUM_COMMAND_PER_FILE
  · rw [if_pos hpre] at h
    refine compactionBody_lens_mono _ s stF h t hts ?_
    have hb : (breakToNewLogFile st).log_lengths
        = insertA st.log_lengths (st.term + 1) LengthCount.new := rfl
    rw [hb]
    exact insertA_isSome_mono _ _ _ _ ht
  · rw [if_neg hpre] at h
    exact compactionBody_lens_mono _ s stF h t hts ht

/-- Claim C4 (amended): the accounting step of `set(key, value)` checks the
garbage rate only of the segment holding the key's previous index entry —
the active segment exactly when that entry points into it, the old segment
otherwise.  Below, `c'` is that segment's post-accounting counter (`len + 1,
garbage + 1` when the previous entry is in the active segment; `garbage + 1`
when it is in an old one).  When `c'` is over the threshold, that one
segment IS compacted before `set` returns — its file, stats entry and reader
are gone — and no other segment is dropped; when it is not, no compaction
runs at all (the checked segment keeps exactly the counter `c'` and every
segment survives).  A `set` of a key absent from the index performs no check
and never compacts anything, even if the active (or any other) segment has
`len > 0` and `garbage_rate > COMPACTION_THRESHOLD` (`C4_counterexample`).
The hypotheses hold in every store the program builds: `Inv` is the
reachable-state invariant, and every segment id is at least 1 (`open`
numbers segments from 1 and rotation only increments the id). -/
theorem C4_amended_set_compacts_only_previous_entry_segment (st : KvStore)
    (key value : String) (st' : KvStore) (hinv : Inv st)
    (hseg : ∀ t, (lookupA st.log_lengths t).isSome → 1 ≤ t)
    (h : st.set key value = .ok st') :
    (lookupA st.map key = none →
       ∀ t, (lookupA st.log_lengths t).isSome →
         (lookupA st'.log_lengths t).isSome) ∧
    (∀ old c, lookupA st.map key = some old →
       lookupA (rotated st).log_lengths old.term = some c →
       ∀ c', c' = (if old.term = (rotated st).term then c.increase_len_with_garbage
                   else c.increase_garbage_len) →
         (c'.garbageRateGtThreshold = true →
            lookupA st'.log_lengths old.term = none ∧
            lookupA st'.files old.term = none ∧
            lookupA st'.readers old.term = none ∧
            (∀ t, t ≠ old.term → (lookupA st.log_lengths t).isSome →
               (lookupA st'.log_lengths t).isSome)) ∧
         (c'.garbageRateGtThreshold = false →
            lookupA st'.log_lengths old.term = some c' ∧
            (∀ t, (lookupA st.log_lengths t).isSome →
               (lookupA st'.log_lengths t).isSome))) := by
  obtain ⟨fA, cA, ⟨ndm, ndl, ndr, ndf⟩, doms, cnts, hsz, hpt, hfA, hcA, hwf, hwp,
    hcur, hclen, hmax, hcv, hmapR⟩ := rotated_pieces st hinv
  have hsegR := rotated_seg_pos st hseg
  have hwfA : lookupA (rotated st).files (rotated st).writer_file = some fA := by
    rw [hwf]
    exact hfA
  unfold KvStore.set at h
  cases hm : lookupA (rotated st).map key with
  | none =>
    have hmS : lookupA st.map key = none := by rw [← hmapR]; exact hm
    have heq := setCore_fresh_eq st key value fA hwfA hm cA hcA
    simp only [heq] at h
    rw [if_neg (by decide : ¬ (0 : Nat) < 0)] at h
    injection h with h2
    subst h2
    constructor
    · intro _ t ht
      show (lookupA (insertA (rotated st).log_lengths (rotated st).term
          cA.increase_len) t).isSome
      exact insertA_isSome_mono _ _ _ _ (rotated_lens_mono st t ht)
    · intro old c hmold hco c' hc'
      rw [hmS] at hmold
      exact Option.noConfusion hmold
  | some old =>
    have hmS : lookupA st.map key = some old := by rw [← hmapR]; exact hm
    constructor
    · intro hnone
      rw [hnone] at hmS
      exact Option.noConfusion hmS
    · intro old2 c hmold hco c' hc'
      rw [hmS] at hmold
      injection hmold with hold2
      subst hold2
      by_cases ht : old.term = (rotated st).term
      · rw [if_pos ht] at hc'
        have hceq : c = cA := by
          rw [ht, hcA] at hco
          exact (Option.some.inj hco).symm
        subst hceq
        subst hc'
        have heq := setCore_same_eq st key value fA hwfA old hm ht c hcA
        simp only [heq] at h
        obtain ⟨⟨nd1, nd2, nd3, nd4⟩, doms', cnts', hsz', hpt', hact', hcvk, hcvne,
          hlensS'⟩ := same_step (rotated st) key value fA c old ndm ndl ndr ndf doms
            cnts hsz hpt hfA hcA hwf hwp hcur hclen hmax hm ht _ rfl
        by_cases hgt : c.increase_len_with_garbage.garbageRateGtThreshold = true
        · rw [if_pos hgt] at h
          have hpos : 0 < (rotated st).term := hsegR _ (by rw [hcA]; rfl)
          rw [if_pos hpos] at h
          obtain ⟨stF, heqC, hinvF, hcvF, hg1, hg2, hg3, hfin⟩ := compaction_spec _
            (rotated st).term _ nd1 nd2 nd3 nd4 doms' cnts' hsz' hpt' hact' hlensS'
          rw [heqC] at h
          injection h with h2
          subst h2
          refine ⟨fun _ => ⟨?_, ?_, ?_, ?_⟩,
            fun hgf => by rw [hgf] at hgt; exact Bool.noConfusion hgt⟩
          · rw [ht]
            exact hg1
          · rw [ht]
            exact hg2
          · rw [ht]
            exact hg3
          · intro t hts htl
            refine compaction_lens_mono _ _ _ heqC t (by rw [← ht]; exact hts) ?_
            show (lookupA (insertA (rotated st).log_lengths (rotated st).term
                c.increase_len_with_garbage) t).isSome
            exact insertA_isSome_mono _ _ _ _ (rotated_lens_mono st t htl)
        · rw [if_neg hgt, if_neg (by decide : ¬ (0 : Nat) < 0)] at h
          injection h with h2
          subst h2
          refine ⟨fun hgt2 => absurd hgt2 hgt, fun _ => ⟨?_, ?_⟩⟩
          · rw [ht]
            exact hlensS'
          · intro t htl
            show (lookupA (insertA (rotated st).log_lengths (rotated st).term
                c.increase_len_with_garbage) t).isSome
            exact insertA_isSome_mono _ _ _ _ (rotated_lens_mono st t htl)
      · rw [if_neg ht] at hc'
        subst hc'
        have hpos : 0 < old.term := hsegR old.term (by rw [hco]; rfl)
        have heq := setCore_old_eq st key value fA hwfA old hm ht c hco cA hcA
        simp only [heq] at h
        obtain ⟨⟨nd1, nd2, nd3, nd4⟩, doms', cnts', hsz', hpt', hact', hcvk, hcvne,
          hlensO'⟩ := old_step (rotated st) key value fA cA old c ndm ndl ndr ndf doms
            cnts hsz hpt hfA hcA hwf hwp hcur hclen hmax hm ht hco _ rfl
        by_cases hgt : c.increase_garbage_len.garbageRateGtThreshold = true
        · rw [if_pos hgt, if_pos hpos] at h
          obtain ⟨stF, heqC, hinvF, hcvF, hg1, hg2, hg3, hfin⟩ := compaction_spec _
            old.term _ nd1 nd2 nd3 nd4 doms' cnts' hsz' hpt' hact' hlensO'
          rw [heqC] at h
          injection h with h2
          subst h2
          refine ⟨fun _ => ⟨hg1, hg2, hg3, ?_⟩,
            fun hgf => by rw [hgf] at hgt; exact Bool.noConfusion hgt⟩
          intro t hts htl
          refine compaction_lens_mono _ _ _ heqC t hts ?_
          show (lookupA (insertA (insertA (rotated st).log_lengths old.term
              c.increase_garbage_len) (rotated st).term cA.increase_len) t).isSome
          exact insertA_isSome_mono _ _ _ _
            (insertA_isSome_mono _ _ _ _ (rotated_lens_mono st t htl))
        · rw [if_neg hgt, if_neg (by decide : ¬ (0 : Nat) < 0)] at h
          injection h with h2
          subst h2
          refine ⟨fun hgt2 => absurd hgt2 hgt, fun _ => ⟨hlensO', ?_⟩⟩
          intro t htl
          show (lookupA (insertA (insertA (rotated st).log_lengths old.term
              c.increase_garbage_len) (rotated st).term cA.increase_len) t).isSome
          exact insertA_isSome_mono _ _ _ _
            (insertA_isSome_mono _ _ _ _ (rotated_lens_mono st t htl))

/-- Witness for the amended C4 at a concrete input: in `stC4`, overwriting
`"c"` (whose previous entry lives in old segment 1) pushes segment 1's
counter to `⟨4, 3⟩`, over the threshold — and segment 1 is indeed compacted
away before `set` returns. -/
theorem C4_witness :
    KvStore.set stC4 "c" "c2"
      = .ok ((KvStore.set stC4 "c" "c2").toOption.getD openEmpty) ∧
    (⟨4, 2⟩ : LengthCount).increase_garbage_len.garbageRateGtThreshold = true ∧
    lookupA ((KvStore.set stC4 "c" "c2").toOption.getD openEmpty).log_lengths 1
      = none ∧
    lookupA ((KvStore.set stC4 "c" "c2").toOption.getD openEmpty).files 1 = none ∧
    lookupA ((KvStore.set stC4 "c" "c2").toOption.getD openEmpty).readers 1
      = none := by
  have hc4 := C4_amended_set_compacts_only_previous_entry_segment stC4 "c" "c2"
    ((KvStore.set stC4 "c" "c2").toOption.getD openEmpty) Inv_stC4
    (by
      intro t ht
      have h2 : t ∈ keysOf stC4.log_lengths := (mem_keysOf_iff _ t).mpr ht
      have h3 : t = 1 ∨ t = 2 := by simpa [stC4, keysOf] using h2
      rcases h3 with rfl | rfl <;> decide)
    rfl
  have h5 := (hc4.2 ⟨1, 2, 3⟩ ⟨4, 2⟩ rfl rfl _ rfl).1 (by decide)
  exact ⟨rfl, by decide, h5.1, h5.2.1, h5.2.2.1⟩

end KvsProof
